import Mathlib

/-!
# Register-allocation adapter of the arm64 backend (`machine_regalloc.go`)

A shallow embedding of `machine_regalloc.go`: the block iterators of `regAllocFn`, the
instruction iterators of `labelPosition`, `lastInstrForInsertion`, and the mutation
primitives `swap`, `insertMoveBefore`, `insertStoreRegisterAt`, `insertReloadRegisterAt`.

Go pointers are indices into a pool (`Ptr`, with `none` for `nil`); the heap of
instructions is the field `instrPool` of `machine`.  A Go panic is the outcome
`Res.panic`, which carries the state at the moment of the failure.
-/

namespace Arm64

/-! ## Pointers and outcomes -/

/-- A Go pointer into a pool: `none` is `nil`, `some i` is the node at index `i`. -/
abbrev Ptr := Option Nat

/-- The reasons for which the code can panic. -/
inductive PanicKind where
  /-- The call `panic("BUG: src and dst must have the same type")` in `insertMoveBefore`. -/
  | srcDstType
  /-- The call `panic("BUG: VReg must be backed by real reg to be stored")`. -/
  | notRealReg
  /-- The call `panic("TODO")` in the `default` case of `insertReloadRegisterAt`. -/
  | todoType
  /-- The methods `ssa.Type.Bits` / `ssa.Type.Size` called on an invalid type. -/
  | invalidType
  /-- A field of a nil pointer is read or written. -/
  | nilDeref
  /-- A slice is indexed out of range. -/
  | indexOutOfRange
deriving DecidableEq, Repr

/-- The outcome of running a piece of the program from a state of type `σ`:
a value and the new state, a panic together with the state at the moment of the panic,
or a loop that did not finish within the fuel it was given. -/
inductive Res (σ α : Type) where
  | ok (val : α) (st : σ)
  | panic (kind : PanicKind) (st : σ)
  | outOfFuel
deriving DecidableEq, Repr

/-- Sequencing: run `f` on the value and state of a successful outcome. -/
def Res.bind {σ α β : Type} (r : Res σ α) (f : α → σ → Res σ β) : Res σ β :=
  match r with
  | .ok a s => f a s
  | .panic k s => .panic k s
  | .outOfFuel => .outOfFuel

/-! ## Registers, types and instructions -/

/-- Modelled from the spec: `regalloc.RegType` is declared outside this file; the spec
gives the two register classes (integer, vector/float), and `VReg.Valid` needs the
invalid tag. -/
inductive RegType where
  | RegTypeInvalid
  | RegTypeInt
  | RegTypeFloat
deriving DecidableEq, Repr

/-- The real register number that stands for "no real register". -/
def RealRegInvalid : Nat := 0

/-- The identifier of the invalid virtual register. -/
def vRegIDInvalid : Nat := 2 ^ 31

/-- Modelled from the spec: `regalloc.VReg` is declared outside this file; a VReg carries
an identity, the real register it is bound to (`RealRegInvalid` when still virtual) and
its register class. -/
structure VReg where
  id : Nat
  realReg : Nat
  regType : RegType
deriving DecidableEq, Repr

/-- Embedding of `VReg.ID`. -/
def VReg.ID (v : VReg) : Nat := v.id

/-- Embedding of `VReg.RealReg`. -/
def VReg.RealReg (v : VReg) : Nat := v.realReg

/-- Embedding of `VReg.RegType`. -/
def VReg.RegType (v : VReg) : RegType := v.regType

/-- Embedding of `VReg.IsRealReg`: the VReg is backed by a real register. -/
def VReg.IsRealReg (v : VReg) : Bool := v.RealReg != RealRegInvalid

/-- Embedding of `VReg.SetRealReg`: the same identity and class, bound to the real register `r`. -/
def VReg.SetRealReg (v : VReg) (r : Nat) : VReg := { v with realReg := r }

/-- Embedding of `VReg.Valid`. -/
def VReg.Valid (v : VReg) : Bool :=
  v.ID != vRegIDInvalid && v.RegType != RegType.RegTypeInvalid

/-- Embedding of `regalloc.VRegInvalid`. -/
def VRegInvalid : VReg :=
  { id := vRegIDInvalid, realReg := RealRegInvalid, regType := RegType.RegTypeInvalid }

/-- Embedding of `regalloc.FromRealReg`. -/
def FromRealReg (r : Nat) (typ : RegType) : VReg :=
  { id := r, realReg := r, regType := typ }

/-- Real register numbers of arm64: `x0` is 1, ..., `x30` is 31, `v0` is 32 and so on;
`x27` is the reserved scratch register `tmpReg`, and `sp` follows the vector registers. -/
def x27 : Nat := 28

/-- The real register number of the stack pointer. -/
def sp : Nat := 65

/-- The reserved integer scratch register `tmpRegVReg`. -/
def tmpRegVReg : VReg := FromRealReg x27 RegType.RegTypeInt

/-- The stack pointer `spVReg`. -/
def spVReg : VReg := FromRealReg sp RegType.RegTypeInt

/-- Modelled from the spec: `ssa.Type` is declared outside this file; the supported value
types are the 32-bit and 64-bit integers, the 32-bit and 64-bit floats and the 128-bit
vector, and any other value is an unsupported type. -/
inductive ssaType where
  | typeInvalid
  | TypeI32
  | TypeI64
  | TypeF32
  | TypeF64
  | TypeV128
deriving DecidableEq, Repr

/-- Modelled from the spec: `ssa.Type.Bits`, the width of a value type in bits; it is
`none` (a panic) for an unsupported type. -/
def ssaType.Bits : ssaType → Option Nat
  | .TypeI32 => some 32
  | .TypeF32 => some 32
  | .TypeI64 => some 64
  | .TypeF64 => some 64
  | .TypeV128 => some 128
  | .typeInvalid => none

/-- Modelled from the spec: `ssa.Type.Size`, the width of a value type in bytes. -/
def ssaType.Size (t : ssaType) : Option Nat := t.Bits.map (fun b => b / 8)

/-- The kinds of address mode. -/
inductive addressModeKind where
  | addressModeKindRegUnsignedImm12
  | addressModeKindRegSignedImm9
  | addressModeKindRegReg
deriving DecidableEq, Repr

/-- Modelled from the spec: an address mode is a resolved addressing expression that
reaches an offset from a base register `rn`, either through an immediate or through an
index register `rm` that auxiliary instructions have loaded with the offset. -/
structure addressMode where
  kind : addressModeKind
  rn : VReg
  rm : VReg
  imm : Int
deriving DecidableEq, Repr

/-- The instruction kinds that the register-allocation adapter reads or emits. -/
inductive instructionKind where
  /-- The zero value of a freshly allocated instruction. -/
  | unset
  | nop0
  | br
  | ret
  | aluRRR
  | mov64
  | fpuMov128
  | store
  | uLoad
  | fpuLoad
  /-- An instruction of the sequence that loads a constant into a register. -/
  | movImm
deriving DecidableEq, Repr

/-- An instruction: a node of the doubly linked list. `rd` is the destination, `rn` the
source, `amode` and `bits` the address and width of a load or store, `u1` an immediate. -/
structure instruction where
  kind : instructionKind
  rd : VReg
  rn : VReg
  amode : Option addressMode
  bits : Nat
  u1 : Int
  prev : Ptr
  next : Ptr
  addedBeforeRegAlloc : Bool
deriving DecidableEq, Repr

/-- The zero value of `instruction`, as handed out by the pool. -/
def instruction.zero : instruction :=
  { kind := .unset, rd := ⟨0, 0, .RegTypeInvalid⟩, rn := ⟨0, 0, .RegTypeInvalid⟩,
    amode := none, bits := 0, u1 := 0, prev := none, next := none,
    addedBeforeRegAlloc := false }

/-- Embedding of `instruction.asMove64`. -/
@[simps]
def instruction.asMove64 (i : instruction) (rd rn : VReg) : instruction :=
  { i with kind := .mov64, rd := rd, rn := rn }

/-- Embedding of `instruction.asFpuMov128`. -/
@[simps]
def instruction.asFpuMov128 (i : instruction) (rd rn : VReg) : instruction :=
  { i with kind := .fpuMov128, rd := rd, rn := rn }

/-- Embedding of `instruction.asStore`: a store of the low `sizeInBits` bits of `src` to `amode`. -/
@[simps]
def instruction.asStore (i : instruction) (src : VReg) (amode : addressMode)
    (sizeInBits : Nat) : instruction :=
  { i with kind := .store, rn := src, amode := some amode, bits := sizeInBits }

/-- Embedding of `instruction.asULoad`: an unsigned (zero-extending) integer load. -/
@[simps]
def instruction.asULoad (i : instruction) (dst : VReg) (amode : addressMode)
    (sizeInBits : Nat) : instruction :=
  { i with kind := .uLoad, rd := dst, amode := some amode, bits := sizeInBits }

/-- Embedding of `instruction.asFpuLoad`: a float or vector load. -/
@[simps]
def instruction.asFpuLoad (i : instruction) (dst : VReg) (amode : addressMode)
    (sizeInBits : Nat) : instruction :=
  { i with kind := .fpuLoad, rd := dst, amode := some amode, bits := sizeInBits }

/-- A label position: the SSA block it stands for and the cursor over the instructions
of the block, from `begin` to `end`. -/
structure labelPosition where
  sb : Nat
  cur : Ptr
  begin : Ptr
  «end» : Ptr
deriving DecidableEq, Repr

/-! ## The machine -/

/-- The part of `machine` that the adapter uses. `instrPool` is the heap of instructions
and `instrPoolLen` the number of instructions allocated so far; `ssaTypeOfVRegID` is the
table behind `compiler.TypeOf` and `ssaValuesToVRegs` the one behind `compiler.VRegOf`;
`lowerConstantI64` gives the immediates of the instructions that load a constant, which
live outside this file; `labelPositionPool` is the cache of the label positions, keyed by
the identity of the block. -/
structure machine where
  instrPool : Nat → instruction
  instrPoolLen : Nat
  regAllocStarted : Bool
  orderedSSABlockLabelPos : List Ptr
  clobberedRegs : List VReg
  spillSlots : Nat → Option Int
  spillSlotSize : Int
  ssaTypeOfVRegID : Nat → ssaType
  lowerConstantI64 : Int → List Int
  ssaValuesToVRegs : Nat → VReg := fun _ => VRegInvalid
  labelPositionPool : Nat → Option labelPosition := fun _ => none

/-- Modelled from the spec: `ssa.BasicBlock` is declared outside this file; a block has a
stable identity (here its index in the builder), formal parameters, predecessors and
successors enumerated with a count, and the predicate "is the implicit return block".
Values and blocks are referred to by their identities. -/
structure basicBlock where
  params : List Nat
  preds : List Nat
  succs : List Nat
  returnBlock : Bool
deriving DecidableEq, Repr

/-- Modelled from the spec: `ssa.Builder` is declared outside this file; here it is the
table of the blocks of the function. -/
structure ssaBuilder where
  blocks : Nat → basicBlock

/-- A builder all of whose blocks are empty. -/
def ssaBuilder.empty : ssaBuilder :=
  { blocks := fun _ => { params := [], preds := [], succs := [], returnBlock := false } }

/-- The adapter `regAllocFn`: the SSA builder, the machine and the cursor shared by the
block iterators. -/
structure regAllocFn where
  ssaB : ssaBuilder := ssaBuilder.empty
  m : machine
  blockIter : Int

/-! ## Block iterators -/

/-- Embedding of `regAllocFn.PostOrderBlockIteratorNext`. -/
def regAllocFn.PostOrderBlockIteratorNext (f : regAllocFn) : Res regAllocFn Ptr :=
  if f.blockIter < 0 then .ok none f
  else
    match f.m.orderedSSABlockLabelPos[f.blockIter.toNat]? with
    | none => .panic .indexOutOfRange f
    | some b => .ok b { f with blockIter := f.blockIter - 1 }

/-- Embedding of `regAllocFn.PostOrderBlockIteratorBegin`. -/
def regAllocFn.PostOrderBlockIteratorBegin (f : regAllocFn) : Res regAllocFn Ptr :=
  regAllocFn.PostOrderBlockIteratorNext
    { f with blockIter := (f.m.orderedSSABlockLabelPos.length : Int) - 1 }

/-- Embedding of `regAllocFn.ReversePostOrderBlockIteratorNext`. A negative index panics as an
index that is too large does. -/
def regAllocFn.ReversePostOrderBlockIteratorNext (f : regAllocFn) : Res regAllocFn Ptr :=
  if f.blockIter ≥ (f.m.orderedSSABlockLabelPos.length : Int) then .ok none f
  else if f.blockIter < 0 then .panic .indexOutOfRange f
  else
    match f.m.orderedSSABlockLabelPos[f.blockIter.toNat]? with
    | none => .panic .indexOutOfRange f
    | some b => .ok b { f with blockIter := f.blockIter + 1 }

/-- Embedding of `regAllocFn.ReversePostOrderBlockIteratorBegin`. -/
def regAllocFn.ReversePostOrderBlockIteratorBegin (f : regAllocFn) : Res regAllocFn Ptr :=
  regAllocFn.ReversePostOrderBlockIteratorNext { f with blockIter := 0 }

/-- The caller's loop `for b := Begin(); b != nil; b = Next()`: the label positions
yielded after `first` (the outcome of the call just made) until the first nil.
`none` when a call panics or the fuel runs out. -/
def yieldedBlocks (next : regAllocFn → Res regAllocFn Ptr) :
    Nat → Res regAllocFn Ptr → Option (List Nat)
  | 0, _ => none
  | _ + 1, .ok none _ => some []
  | k + 1, .ok (some b) f => (yieldedBlocks next k (next f)).map (fun bs => b :: bs)
  | _ + 1, .panic _ _ => none
  | _ + 1, .outOfFuel => none

/-- The sequence yielded by a reverse-postorder traversal. -/
def reversePostOrderBlocks (fuel : Nat) (f : regAllocFn) : Option (List Nat) :=
  yieldedBlocks regAllocFn.ReversePostOrderBlockIteratorNext fuel
    f.ReversePostOrderBlockIteratorBegin

/-- The sequence yielded by a postorder traversal. -/
def postOrderBlocks (fuel : Nat) (f : regAllocFn) : Option (List Nat) :=
  yieldedBlocks regAllocFn.PostOrderBlockIteratorNext fuel f.PostOrderBlockIteratorBegin

/-! ## The instruction list -/

/-- Apply `g` to the instruction at index `i` of the pool. -/
def machine.modifyInstr (m : machine) (i : Nat) (g : instruction → instruction) : machine :=
  { m with instrPool := Function.update m.instrPool i (g (m.instrPool i)) }

/-- A fresh instruction of the pool: the zero value, with `addedBeforeRegAlloc` set when
register allocation has not started. -/
def instruction.fresh (regAllocStarted : Bool) : instruction :=
  { instruction.zero with addedBeforeRegAlloc := !regAllocStarted }

/-- Embedding of `machine.allocateInstr`: a fresh zero instruction from the pool; an instruction
allocated before register allocation starts has `addedBeforeRegAlloc` set. -/
def machine.allocateInstr (m : machine) : Nat × machine :=
  (m.instrPoolLen,
   { m with
     instrPool := Function.update m.instrPool m.instrPoolLen
       (instruction.fresh m.regAllocStarted)
     instrPoolLen := m.instrPoolLen + 1 })

/-- The assignment `i.next = p`. -/
@[simps]
def instruction.setNext (i : instruction) (p : Ptr) : instruction := { i with next := p }

/-- The assignment `i.prev = p`. -/
@[simps]
def instruction.setPrev (i : instruction) (p : Ptr) : instruction := { i with prev := p }

/-- The fields of an instruction of the sequence that loads a constant into `rd`. -/
@[simps]
def instruction.asMovImm (i : instruction) (rd : VReg) (imm : Int) : instruction :=
  { i with kind := .movImm, rd := rd, u1 := imm }

/-- Modelled from the spec: `linkInstr(prev, next)` is declared outside this file; it is
the link primitive of the instruction stream: `prev.next = next; next.prev = prev;
return next`. Either pointer being nil is a nil dereference. -/
def linkInstr (m : machine) (prev next : Ptr) : Res machine Ptr :=
  match prev with
  | none => .panic .nilDeref m
  | some p =>
    let m1 := m.modifyInstr p (fun i => i.setNext next)
    match next with
    | none => .panic .nilDeref m1
    | some n => .ok next (m1.modifyInstr n (fun i => i.setPrev (some p)))

/-! ## Instruction iterators -/

/-- Embedding of `labelPosition.InstrIteratorBegin`. -/
def labelPosition.InstrIteratorBegin (pos : labelPosition) : Res labelPosition Ptr :=
  .ok pos.begin { pos with cur := pos.begin }

/-- Embedding of `labelPosition.InstrIteratorNext`; each turn of the `for` loop uses one unit of fuel. -/
def labelPosition.InstrIteratorNext (m : machine) :
    Nat → labelPosition → Res labelPosition Ptr
  | 0, _ => .outOfFuel
  | fuel + 1, pos =>
    if pos.cur = pos.end then .ok none pos
    else
      match pos.cur with
      | none => .panic .nilDeref pos
      | some c =>
        match (m.instrPool c).next with
        | none => .ok none { pos with cur := none }
        | some i =>
          if (m.instrPool i).addedBeforeRegAlloc then .ok (some i) { pos with cur := some i }
          else labelPosition.InstrIteratorNext m fuel { pos with cur := some i }

/-- Embedding of `labelPosition.InstrRevIteratorBegin`. -/
def labelPosition.InstrRevIteratorBegin (pos : labelPosition) : Res labelPosition Ptr :=
  .ok pos.end { pos with cur := pos.end }

/-- Embedding of `labelPosition.InstrRevIteratorNext`; each turn of the `for` loop uses one unit of
fuel. -/
def labelPosition.InstrRevIteratorNext (m : machine) :
    Nat → labelPosition → Res labelPosition Ptr
  | 0, _ => .outOfFuel
  | fuel + 1, pos =>
    if pos.cur = pos.begin then .ok none pos
    else
      match pos.cur with
      | none => .panic .nilDeref pos
      | some c =>
        match (m.instrPool c).prev with
        | none => .ok none { pos with cur := none }
        | some i =>
          if (m.instrPool i).addedBeforeRegAlloc then .ok (some i) { pos with cur := some i }
          else labelPosition.InstrRevIteratorNext m fuel { pos with cur := some i }

/-- The loop of `lastInstrForInsertion`, from the cursor `cur`; each turn uses one unit
of fuel. The machine is only read, so the outcome carries no state. -/
def lastInstrForInsertionLoop (m : machine) (begin «end» : Ptr) :
    Nat → Ptr → Res Unit Ptr
  | 0, _ => .outOfFuel
  | fuel + 1, cur =>
    match cur with
    | none => .panic .nilDeref ()
    | some c =>
      if (m.instrPool c).kind = .nop0 then
        let cur1 := (m.instrPool c).prev
        if cur1 = begin then .ok «end» ()
        else lastInstrForInsertionLoop m begin «end» fuel cur1
      else if (m.instrPool c).kind = .br then .ok cur ()
      else .ok «end» ()

/-- Embedding of `lastInstrForInsertion(begin, end)`. -/
def lastInstrForInsertion (m : machine) (fuel : Nat) (begin «end» : Ptr) : Res Unit Ptr :=
  lastInstrForInsertionLoop m begin «end» fuel «end»

/-- Embedding of `labelPosition.LastInstrForInsertion`. -/
def labelPosition.LastInstrForInsertion (m : machine) (fuel : Nat) (pos : labelPosition) :
    Res Unit Ptr :=
  lastInstrForInsertion m fuel pos.begin pos.end

/-! ## Address resolution and spill slots -/

/-- Modelled from the spec: `getVRegSpillSlotOffsetFromSP` is declared outside this
file; it resolves the offset from the stack pointer of the spill slot of the VReg `id`,
reserving a slot of `size` bytes the first time the VReg is seen. -/
def machine.getVRegSpillSlotOffsetFromSP (m : machine) (id : Nat) (size : Nat) :
    Int × machine :=
  match m.spillSlots id with
  | some offset => (offset + 16, m)
  | none =>
    (m.spillSlotSize + 16,
     { m with
       spillSlots := Function.update m.spillSlots id (some m.spillSlotSize)
       spillSlotSize := m.spillSlotSize + size })

/-- The offset fits the scaled unsigned 12-bit immediate of a load or store. -/
def offsetFitsInAddressModeKindRegUnsignedImm12 (dstSizeInBits : Nat) (offset : Int) : Bool :=
  0 < offset && offset % ((dstSizeInBits / 8 : Nat) : Int) == 0
    && offset / ((dstSizeInBits / 8 : Nat) : Int) < 4096

/-- The offset fits the signed 9-bit immediate of a load or store. -/
def offsetFitsInAddressModeKindRegSignedImm9 (offset : Int) : Bool :=
  -256 ≤ offset && offset ≤ 255

/-- Allocate the instructions that load a constant into `rd`, one per immediate, in
order; the result lists the new instructions. -/
def machine.allocateConstantInstrs (rd : VReg) : List Int → machine → List Nat × machine
  | [], m => ([], m)
  | imm :: imms, m =>
    let (i, m1) := m.allocateInstr
    let m2 := m1.modifyInstr i (fun ins => ins.asMovImm rd imm)
    let (is, m3) := machine.allocateConstantInstrs rd imms m2
    (i :: is, m3)

/-- Modelled from the spec: `resolveAddressModeForOffset` is declared outside this file;
it resolves an address mode that reaches `offset` from the base `rn`, and when the offset
does not fit the immediate of one instruction it emits the auxiliary instructions that
load the offset into the scratch register `tmpRegVReg`, which becomes the index. The
result lists the auxiliary (pending) instructions. -/
def machine.resolveAddressModeForOffset (m : machine) (offset : Int) (dstBits : Nat)
    (rn : VReg) : (List Nat × addressMode) × machine :=
  if offsetFitsInAddressModeKindRegUnsignedImm12 dstBits offset then
    (([], { kind := .addressModeKindRegUnsignedImm12, rn := rn, rm := VRegInvalid,
            imm := offset }), m)
  else if offsetFitsInAddressModeKindRegSignedImm9 offset then
    (([], { kind := .addressModeKindRegSignedImm9, rn := rn, rm := VRegInvalid,
            imm := offset }), m)
  else
    let (pending, m1) := machine.allocateConstantInstrs tmpRegVReg (m.lowerConstantI64 offset) m
    ((pending, { kind := .addressModeKindRegReg, rn := rn, rm := tmpRegVReg, imm := offset }),
     m1)

/-- The loop over the pending instructions: each is linked after the cursor, which moves
to it (`cur = linkInstr(cur, instr)`). -/
def linkPending : List Nat → machine → Ptr → Res machine Ptr
  | [], m, cur => .ok cur m
  | i :: is, m, cur => (linkInstr m cur (some i)).bind (fun cur1 m1 => linkPending is m1 cur1)

/-- Modelled from the spec: `resolveAddressModeForOffsetAndInsert` is declared outside
this file; it resolves the address mode for `offset` and links the auxiliary instructions
after `cur`, returning the last linked instruction and the address mode. -/
def machine.resolveAddressModeForOffsetAndInsert (m : machine) (cur : Ptr) (offset : Int)
    (dstBits : Nat) (rn : VReg) : Res machine (Ptr × addressMode) :=
  let ((pending, mode), m1) := m.resolveAddressModeForOffset offset dstBits rn
  (linkPending pending m1 cur).bind (fun cur1 m2 => .ok (cur1, mode) m2)

/-- Embedding of `compiler.TypeOf`. -/
def machine.TypeOf (m : machine) (v : VReg) : ssaType := m.ssaTypeOfVRegID v.ID

/-! ## Mutation primitives -/

/-- Embedding of `machine.insertMoveBefore`. -/
def machine.insertMoveBefore (m : machine) (dst src : VReg) (instr : Ptr) : Res machine Unit :=
  let typ := src.RegType
  if typ ≠ dst.RegType then .panic .srcDstType m
  else
    let (mov, m1) := m.allocateInstr
    let m2 :=
      if typ = .RegTypeInt then m1.modifyInstr mov (fun i => i.asMove64 dst src)
      else m1.modifyInstr mov (fun i => i.asFpuMov128 dst src)
    match instr with
    | none => .panic .nilDeref m2
    | some ins =>
      let cur := (m2.instrPool ins).prev
      match cur with
      | none => .panic .nilDeref m2
      | some c =>
        let prevNext := (m2.instrPool c).next
        (linkInstr m2 cur (some mov)).bind (fun cur1 m3 =>
          (linkInstr m3 cur1 prevNext).bind (fun _ m4 => .ok () m4))

/-- The assignment `cur, prevNext = instr, instr.next` (after) or
`cur, prevNext = instr.prev, instr` (before). -/
def insertionPoint (m : machine) (instr : Ptr) (after : Bool) : Option (Ptr × Ptr) :=
  match instr with
  | none => none
  | some ins =>
    if after then some (instr, (m.instrPool ins).next)
    else some ((m.instrPool ins).prev, instr)

/-- Embedding of `machine.insertStoreRegisterAt`. -/
def machine.insertStoreRegisterAt (m : machine) (v : VReg) (instr : Ptr) (after : Bool) :
    Res machine Ptr :=
  if !v.IsRealReg then .panic .notRealReg m
  else
    let typ := m.TypeOf v
    match insertionPoint m instr after with
    | none => .panic .nilDeref m
    | some (cur, prevNext) =>
      match typ.Size, typ.Bits with
      | some size, some bits =>
        let (offsetFromSP, m1) := m.getVRegSpillSlotOffsetFromSP v.ID size
        (m1.resolveAddressModeForOffsetAndInsert cur offsetFromSP bits spVReg).bind
          (fun r m2 =>
            let (store, m3) := m2.allocateInstr
            let m4 := m3.modifyInstr store (fun i => i.asStore v r.2 bits)
            (linkInstr m4 r.1 (some store)).bind (fun cur1 m5 => linkInstr m5 cur1 prevNext))
      | _, _ => .panic .invalidType m

/-- Embedding of `machine.insertReloadRegisterAt`. -/
def machine.insertReloadRegisterAt (m : machine) (v : VReg) (instr : Ptr) (after : Bool) :
    Res machine Ptr :=
  if !v.IsRealReg then .panic .notRealReg m
  else
    let typ := m.TypeOf v
    match insertionPoint m instr after with
    | none => .panic .nilDeref m
    | some (cur, prevNext) =>
      match typ.Size, typ.Bits with
      | some size, some bits =>
        let (offsetFromSP, m1) := m.getVRegSpillSlotOffsetFromSP v.ID size
        (m1.resolveAddressModeForOffsetAndInsert cur offsetFromSP bits spVReg).bind
          (fun r m2 =>
            let (load, m3) := m2.allocateInstr
            let loaded : Option machine :=
              match typ with
              | .TypeI32 | .TypeI64 => some (m3.modifyInstr load (fun i => i.asULoad v r.2 bits))
              | .TypeF32 | .TypeF64 => some (m3.modifyInstr load (fun i => i.asFpuLoad v r.2 bits))
              | .TypeV128 => some (m3.modifyInstr load (fun i => i.asFpuLoad v r.2 128))
              | _ => none
            match loaded with
            | none => .panic .todoType m3
            | some m4 =>
              (linkInstr m4 r.1 (some load)).bind (fun cur1 m5 => linkInstr m5 cur1 prevNext))
      | _, _ => .panic .invalidType m

/-- The three-move rotate of `swap`: `mov1`, `mov2`, `mov3` are allocated, then linked
after `cur` in this order, and the last is linked to `prevNext`. -/
def machine.swapRotate (m : machine) (cur prevNext : Ptr)
    (asMove : instruction → VReg → VReg → instruction) (x1 x2 tmp : VReg) : Res machine Unit :=
  let (mov1, m1) := m.allocateInstr
  let m1 := m1.modifyInstr mov1 (fun i => asMove i tmp x1)
  let (mov2, m2) := m1.allocateInstr
  let m2 := m2.modifyInstr mov2 (fun i => asMove i x1 x2)
  let (mov3, m3) := m2.allocateInstr
  let m3 := m3.modifyInstr mov3 (fun i => asMove i x2 tmp)
  (linkInstr m3 cur (some mov1)).bind (fun cur m4 =>
    (linkInstr m4 cur (some mov2)).bind (fun cur m5 =>
      (linkInstr m5 cur (some mov3)).bind (fun cur m6 =>
        (linkInstr m6 cur prevNext).bind (fun _ m7 => .ok () m7))))

/-- Embedding of `machine.swap`. -/
def machine.swap (m : machine) (cur : Ptr) (x1 x2 tmp : VReg) : Res machine Unit :=
  match cur with
  | none => .panic .nilDeref m
  | some c =>
    let prevNext := (m.instrPool c).next
    if x1.RegType = .RegTypeInt then
      let tmp := if !tmp.Valid then tmpRegVReg else tmp
      m.swapRotate cur prevNext instruction.asMove64 x1 x2 tmp
    else if !tmp.Valid then
      let r2 := x2.RealReg
      (m.insertStoreRegisterAt x1 cur true).bind (fun ret m1 =>
        match ret with
        | none => .panic .nilDeref m1
        | some r =>
          let cur := (m1.instrPool r).prev
          let (mov, m2) := m1.allocateInstr
          let m2 := m2.modifyInstr mov (fun i => i.asFpuMov128 x1 x2)
          (linkInstr m2 cur (some mov)).bind (fun cur m3 =>
            (linkInstr m3 cur prevNext).bind (fun _ m4 =>
              (m4.insertReloadRegisterAt (x1.SetRealReg r2) cur true).bind
                (fun _ m5 => .ok () m5))))
    else
      m.swapRotate cur prevNext instruction.asFpuMov128 x1 x2 tmp

/-- Embedding of `regAllocFn.SwapBefore`. -/
def regAllocFn.SwapBefore (m : machine) (x1 x2 tmp : VReg) (instr : Ptr) : Res machine Unit :=
  match instr with
  | none => .panic .nilDeref m
  | some ins => m.swap (m.instrPool ins).prev x1 x2 tmp

/-- Embedding of `regAllocFn.InsertMoveBefore`. -/
def regAllocFn.InsertMoveBefore (m : machine) (dst src : VReg) (instr : Ptr) :
    Res machine Unit :=
  m.insertMoveBefore dst src instr

/-! ## Example inputs -/

/-- The state in which an outcome leaves the program (`none` when out of fuel). -/
def Res.state? {σ α : Type} : Res σ α → Option σ
  | .ok _ s => some s
  | .panic _ s => some s
  | .outOfFuel => none

/-- The value of a successful outcome. -/
def Res.val? {σ α : Type} : Res σ α → Option α
  | .ok a _ => some a
  | _ => none

/-- The outcome is a panic. -/
def Res.isPanic {σ α : Type} : Res σ α → Bool
  | .panic _ _ => true
  | _ => false

/-- A machine, after instruction selection and with register allocation started, whose
instruction list is one chain `0 <-> 1 <-> ... <-> n-1` of instructions of the given
kinds, all present before register allocation. -/
def exampleMachine (kinds : List instructionKind) (types : Nat → ssaType)
    (consts : Int → List Int) : machine :=
  { instrPool := fun i =>
      if i < kinds.length then
        { instruction.zero with
          kind := kinds.getD i .unset
          prev := if i = 0 then none else some (i - 1)
          next := if i + 1 < kinds.length then some (i + 1) else none
          addedBeforeRegAlloc := true }
      else instruction.zero
    instrPoolLen := kinds.length
    regAllocStarted := true
    orderedSSABlockLabelPos := []
    clobberedRegs := []
    spillSlots := fun _ => none
    spillSlotSize := 0
    ssaTypeOfVRegID := types
    lowerConstantI64 := consts }

/-- The real register `x0` as an integer-class VReg with identity `id`. -/
def intVReg (id r : Nat) : VReg := { id := id, realReg := r, regType := .RegTypeInt }

/-- The real register `r` as a vector/float-class VReg with identity `id`. -/
def floatVReg (id r : Nat) : VReg := { id := id, realReg := r, regType := .RegTypeFloat }

/-! ## Well-formed chains -/

/-- Mutual consistency of the links of the allocated instruction `a`: its successor and
its predecessor, when not nil, are allocated and point back to `a`. -/
def linksConsistentAt (m : machine) (a : Nat) : Bool :=
  (match (m.instrPool a).next with
   | none => true
   | some b => decide (b < m.instrPoolLen) && ((m.instrPool b).prev == some a)) &&
  (match (m.instrPool a).prev with
   | none => true
   | some b => decide (b < m.instrPoolLen) && ((m.instrPool b).next == some a))

/-- A well-formed chain: the links of every allocated instruction are mutually
consistent. -/
def machine.WellFormed (m : machine) : Prop :=
  ∀ a, a < m.instrPoolLen → linksConsistentAt m a = true

instance (m : machine) : Decidable m.WellFormed :=
  inferInstanceAs (Decidable (∀ a, a < m.instrPoolLen → linksConsistentAt m a = true))

/-- The instructions `a` and `b` are linked: `a.next = b` and `b.prev = a`. -/
def linked (m : machine) (a b : Nat) : Prop :=
  (m.instrPool a).next = some b ∧ (m.instrPool b).prev = some a

instance (m : machine) (a b : Nat) : Decidable (linked m a b) :=
  inferInstanceAs (Decidable (_ ∧ _))

/-- The instructions of the list are linked, in both directions, each to the following
one: `a <-> b <-> c <-> ...`. -/
def LinkedPath (m : machine) : List Nat → Prop
  | [] => True
  | [_] => True
  | a :: b :: l => linked m a b ∧ LinkedPath m (b :: l)

/-- The last element of the nonempty list `c :: l`. -/
def lastOf (c : Nat) : List Nat → Nat
  | [] => c
  | x :: xs => lastOf x xs

/-- The fields of an instruction other than its links. -/
@[simps]
def instruction.body (i : instruction) : instruction := { i with prev := none, next := none }

/-- The state after `prev.next = next; next.prev = prev` for two instructions that are
not nil. -/
def machine.link (m : machine) (p x : Nat) : machine :=
  (m.modifyInstr p (fun i => i.setNext (some x))).modifyInstr x (fun i => i.setPrev (some p))


/-- The machine `m1` has the instructions of `m` below index `k`. -/
def SameBelow (k : Nat) (m m1 : machine) : Prop :=
  ∀ i, i < k → m1.instrPool i = m.instrPool i

/-- The state of a splice in progress after the instruction `c` of the machine `m0`, whose
end is to be linked to `n`: the instructions `new`, allocated since, are linked in this
order after `c`, and the links of the instructions of `m0` are as they were, apart from
`c.next` and `n.prev`. -/
structure Splicing (m0 : machine) (c n : Nat) (m : machine) (new : List Nat) : Prop where
  hc : c < m0.instrPoolLen
  hn : n < m0.instrPoolLen
  hlen : m0.instrPoolLen ≤ m.instrPoolLen
  hnew : ∀ x ∈ new, m0.instrPoolLen ≤ x ∧ x < m.instrPoolLen
  hnodup : new.Nodup
  hpath : LinkedPath m (c :: new)
  hnext : ∀ i, i < m0.instrPoolLen → i ≠ c → (m.instrPool i).next = (m0.instrPool i).next
  hprev : ∀ i, i < m0.instrPoolLen → i ≠ n → (m.instrPool i).prev = (m0.instrPool i).prev
  hbody : ∀ i, i < m0.instrPoolLen → (m.instrPool i).body = (m0.instrPool i).body

/-- The state after the three-move rotate of `swap`. -/
def rotated (m : machine) (c n : Nat) (g1 g2 g3 : instruction → instruction) : machine :=
  ((((((m.allocateInstr.2.modifyInstr m.instrPoolLen g1).allocateInstr.2.modifyInstr
    (m.instrPoolLen + 1) g2).allocateInstr.2.modifyInstr (m.instrPoolLen + 2) g3).link c
      m.instrPoolLen).link m.instrPoolLen (m.instrPoolLen + 1)).link (m.instrPoolLen + 1)
        (m.instrPoolLen + 2)).link (m.instrPoolLen + 2) n


/-- The instruction is a register move of kind `k` from `rn` to `rd`. -/
def instruction.isMove (i : instruction) (k : instructionKind) (rd rn : VReg) : Prop :=
  i.kind = k ∧ i.rd = rd ∧ i.rn = rn

/-- The fields of the machine other than the instruction pool. -/
def machine.env (m : machine) :
    Bool × List Ptr × List VReg × (Nat → Option Int) × Int × (Nat → ssaType) ×
      (Int → List Int) :=
  (m.regAllocStarted, m.orderedSSABlockLabelPos, m.clobberedRegs, m.spillSlots,
    m.spillSlotSize, m.ssaTypeOfVRegID, m.lowerConstantI64)

/-- The address mode that `resolveAddressModeForOffset` resolves: it depends on the offset,
the width and the base only. -/
def addressModeOf (offset : Int) (dstBits : Nat) (rn : VReg) : addressMode :=
  if offsetFitsInAddressModeKindRegUnsignedImm12 dstBits offset then
    { kind := .addressModeKindRegUnsignedImm12, rn := rn, rm := VRegInvalid, imm := offset }
  else if offsetFitsInAddressModeKindRegSignedImm9 offset then
    { kind := .addressModeKindRegSignedImm9, rn := rn, rm := VRegInvalid, imm := offset }
  else
    { kind := .addressModeKindRegReg, rn := rn, rm := tmpRegVReg, imm := offset }

/-- The instruction is one of the address computation: it loads an immediate into the
scratch register `tmpRegVReg`. -/
def instruction.isAddressComputation (i : instruction) : Prop :=
  i.kind = .movImm ∧ i.rd = tmpRegVReg

/-- The load that `insertReloadRegisterAt` emits for a value of type `typ`: an unsigned
load for the integer types, a float or vector load for the others. -/
def instruction.asReload (i : instruction) (typ : ssaType) (v : VReg) (amode : addressMode)
    (bits : Nat) : instruction :=
  match typ with
  | .TypeI32 | .TypeI64 => i.asULoad v amode bits
  | .TypeF32 | .TypeF64 => i.asFpuLoad v amode bits
  | .TypeV128 => i.asFpuLoad v amode 128
  | .typeInvalid => i

/-- The instruction stores the low `bits` bits of `v` at `amode`. -/
def instruction.isStore (i : instruction) (v : VReg) (amode : addressMode) (bits : Nat) :
    Prop :=
  i.kind = .store ∧ i.rn = v ∧ i.amode = some amode ∧ i.bits = bits

/-- The instruction loads `bits` bits from `amode` into `v`; the load is an unsigned load
for an integer type and a float or vector load otherwise. -/
def instruction.isReload (i : instruction) (typ : ssaType) (v : VReg) (amode : addressMode)
    (bits : Nat) : Prop :=
  i.kind = (if typ = .TypeI32 ∨ typ = .TypeI64 then .uLoad else .fpuLoad) ∧ i.rd = v ∧
    i.amode = some amode ∧ i.bits = bits

/-! ## Execution of the emitted instructions -/

/-- The registers, indexed by real register number, and the spill slots, indexed by their
offset from the stack pointer. -/
structure ExecState where
  regs : Nat → Nat
  slots : Int → Nat

/-- The usual semantics of the instructions that the adapter emits: a register move copies
the whole source register; a spill store writes the low `bits` bits of the source to the
slot that the address mode reaches; a reload reads `bits` bits of the slot, zero-extended,
into the destination; an instruction of the address computation writes its immediate to
its destination. The other kinds, which the adapter does not emit, have no semantics
here. -/
def execInstr (i : instruction) (s : ExecState) : Option ExecState :=
  match i.kind with
  | .mov64 | .fpuMov128 =>
    some { s with regs := Function.update s.regs i.rd.RealReg (s.regs i.rn.RealReg) }
  | .store =>
    i.amode.map (fun a =>
      { s with slots := Function.update s.slots a.imm (s.regs i.rn.RealReg % 2 ^ i.bits) })
  | .uLoad | .fpuLoad =>
    i.amode.map (fun a =>
      { s with regs := Function.update s.regs i.rd.RealReg (s.slots a.imm % 2 ^ i.bits) })
  | .movImm => some { s with regs := Function.update s.regs i.rd.RealReg i.u1.toNat }
  | _ => none

/-- Execute the instructions of the list, in order. -/
def execInstrs (m : machine) : List Nat → ExecState → Option ExecState
  | [], s => some s
  | x :: xs, s => (execInstr (m.instrPool x) s).bind (execInstrs m xs)

/-- The instructions strictly between `cur` and `stop`, following the `next` links. -/
def emittedBetween (m : machine) : Nat → Nat → Nat → Option (List Nat)
  | 0, _, _ => none
  | fuel + 1, cur, stop =>
    match (m.instrPool cur).next with
    | none => none
    | some x => if x = stop then some [] else (emittedBetween m fuel x stop).map (fun l => x :: l)

/-- The scratch register that `swap` uses when it rotates through a register: `tmp` when
valid, the reserved `tmpRegVReg` otherwise (which is also the register of the address
computation). -/
def scratchOf (tmp : VReg) : VReg := if tmp.Valid then tmp else tmpRegVReg

/-- The case in which `swap` goes through the spill slot of `x1`: vector/float class
without a valid scratch register. -/
def swapUsesSpill (x1 tmp : VReg) : Bool := x1.RegType != .RegTypeInt && !tmp.Valid

/-! ## What lastInstrForInsertion returns -/

/-- What the claim says `lastInstrForInsertion` returns for the block whose instructions,
from `end` back to `begin`, are `rl`: skip the trailing `nop0`s; if the instruction
before them is a `br`, that `br`; `end` in every other case. -/
def claimedLastInstrForInsertion (m : machine) (e : Nat) (rl : List Nat) : Nat :=
  match rl.dropWhile (fun i => decide ((m.instrPool i).kind = .nop0)) with
  | x :: _ => if (m.instrPool x).kind = .br then x else e
  | [] => e

/-- What `lastInstrForInsertion` returns for the block whose instructions, from `end` back
to `begin`, are `rl`: skip the trailing `nop0`s; if the instruction before them is a `br`
and is not `begin`, that `br`; `end` in every other case. -/
def lastInstrBeforeTrailingNops (m : machine) (e : Nat) (rl : List Nat) : Nat :=
  match rl.dropWhile (fun i => decide ((m.instrPool i).kind = .nop0)) with
  | x :: _ :: _ => if (m.instrPool x).kind = .br then x else e
  | _ => e

/-- Every panic of the outcome is of a kind that satisfies `P`. -/
def Res.panicsOnlyWith {σ α : Type} (r : Res σ α) (P : PanicKind → Prop) : Prop :=
  ∀ k s, r = .panic k s → P k

/-! ## Concrete inputs -/

/-- A block `nop0, aluRRR, br, nop0` at indices 0 to 3, with V128 values and constants
that take two instructions to load. -/
def exampleBlock : machine :=
  exampleMachine [.nop0, .aluRRR, .br, .nop0] (fun _ => .TypeV128) (fun c => [c, c])

/-- The same block with F32 values. -/
def exampleBlockF32 : machine :=
  exampleMachine [.nop0, .aluRRR, .br, .nop0] (fun _ => .TypeF32) (fun c => [c, c])

/-- The same block with values of no supported type. -/
def exampleBlockUntyped : machine :=
  exampleMachine [.nop0, .aluRRR, .br, .nop0] (fun _ => .typeInvalid) (fun c => [c, c])

/-- A block `br, nop0, nop0` whose first instruction is the branch. -/
def exampleBranchFirst : machine :=
  exampleMachine [.br, .nop0, .nop0] (fun _ => .TypeV128) (fun c => [c, c])

/-- An adapter whose array of label positions is `7, 8, 9`. -/
def exampleFn : regAllocFn :=
  { m := { exampleBlock with orderedSSABlockLabelPos := [some 7, some 8, some 9] }
    blockIter := 0 }

/-- Registers that hold `1000 + r` and empty spill slots. -/
def exampleState : ExecState := { regs := fun r => 1000 + r, slots := fun _ => 0 }

/-- The registers left by executing, from the state `s`, the instructions that
`swap(cur, x1, x2, tmp)` emits between `c` and `n`. -/
def swapThenExec (m : machine) (c n : Nat) (x1 x2 tmp : VReg) (s : ExecState) :
    Option ExecState :=
  match m.swap (some c) x1 x2 tmp with
  | .ok _ m1 => (emittedBetween m1 m1.instrPoolLen c n).bind (fun l => execInstrs m1 l s)
  | _ => none

/-- The kind of the panic of an outcome. -/
def Res.panicKind? {σ α : Type} : Res σ α → Option PanicKind
  | .panic k _ => some k
  | _ => none

/-- Whether the instructions of a list are linked is decidable. -/
def decLinkedPath (m : machine) : (l : List Nat) → Decidable (LinkedPath m l)
  | [] => isTrue trivial
  | [_] => isTrue trivial
  | a :: b :: l =>
    match (inferInstance : Decidable (linked m a b)), decLinkedPath m (b :: l) with
    | isTrue h1, isTrue h2 => isTrue ⟨h1, h2⟩
    | isFalse h1, _ => isFalse (fun h => h1 h.1)
    | _, isFalse h2 => isFalse (fun h => h2 h.2)

instance (m : machine) (l : List Nat) : Decidable (LinkedPath m l) := decLinkedPath m l

/-- The block `exampleBlock` after `swap` has spliced three moves after its first
instruction. -/
def exampleSpliced : machine :=
  ((exampleBlock.swap (some 0) (intVReg 200 1) (intVReg 201 2) VRegInvalid).state?).getD
    exampleBlock

/-- The label position of the block at indices 0 to 3, with the cursor on `begin`. -/
def examplePos : labelPosition := { sb := 0, cur := some 0, begin := some 0, «end» := some 3 }

/-! ## Order of the chain -/

/-- The instruction `b` is reached from `a` by following `next` links. -/
def NextReach (m : machine) (a b : Nat) : Prop :=
  Relation.ReflTransGen (fun x y => (m.instrPool x).next = some y) a b

/-- The instructions of the chain of `m` are still in the chain of `m1`, in the same
relative order: whatever followed an instruction of `m` still follows it in `m1`. -/
def KeepsOrder (m m1 : machine) : Prop :=
  ∀ a b, a < m.instrPoolLen → NextReach m a b → NextReach m1 a b

/-- The outcome is a success. -/
def Res.isOk {σ α : Type} : Res σ α → Bool
  | .ok _ _ => true
  | _ => false

/-! ## Block queries of the adapter -/

/-- Indexing of a Go slice by an `int`: `none` stands for the panic on an index out of
range. -/
def sliceAt {α : Type} (l : List α) (i : Int) : Option α :=
  if i < 0 then none else l[i.toNat]?

/-- Embedding of `regAllocFn.ClobberedRegisters`: `append(clobberedRegs[:0], regs...)`. -/
def regAllocFn.ClobberedRegisters (f : regAllocFn) (regs : List VReg) : regAllocFn :=
  { f with m := { f.m with clobberedRegs := f.m.clobberedRegs.take 0 ++ regs } }

/-- Modelled from the spec: `getOrAllocateSSABlockLabelPosition` is declared outside this
file; the label position of a block is created lazily on the first query for the block
and cached, keyed by the identity of the block, and it stands for that block; the result is
never nil. -/
def machine.getOrAllocateSSABlockLabelPosition (m : machine) (sb : Nat) : Ptr × machine :=
  match m.labelPositionPool sb with
  | some pos =>
    (some sb,
     { m with
       labelPositionPool := Function.update m.labelPositionPool sb (some { pos with sb := sb }) })
  | none =>
    (some sb,
     { m with
       labelPositionPool := Function.update m.labelPositionPool sb
         (some { sb := sb, cur := none, begin := none, «end» := none }) })

/-- Embedding of `regAllocFn.Succ`. -/
def regAllocFn.Succ (f : regAllocFn) (pos : labelPosition) (i : Int) : Res regAllocFn Ptr :=
  match sliceAt (f.ssaB.blocks pos.sb).succs i with
  | none => .panic .indexOutOfRange f
  | some succSB =>
    if (f.ssaB.blocks succSB).returnBlock then .ok none f
    else
      let (p, m1) := f.m.getOrAllocateSSABlockLabelPosition succSB
      .ok p { f with m := m1 }

/-- Embedding of `regAllocFn.Pred`. -/
def regAllocFn.Pred (f : regAllocFn) (pos : labelPosition) (i : Int) : Res regAllocFn Ptr :=
  match sliceAt (f.ssaB.blocks pos.sb).preds i with
  | none => .panic .indexOutOfRange f
  | some predSB =>
    let (p, m1) := f.m.getOrAllocateSSABlockLabelPosition predSB
    .ok p { f with m := m1 }

/-- The loop of `BlockParams`, from index `i`; the state is the buffer of the caller and
each turn uses one unit of fuel. -/
def regAllocFn.BlockParamsLoop (f : regAllocFn) (pos : labelPosition) :
    Nat → Int → List VReg → Res (List VReg) Unit
  | 0, _, _ => .outOfFuel
  | fuel + 1, i, regs =>
    if i < ((f.ssaB.blocks pos.sb).params.length : Int) then
      match sliceAt (f.ssaB.blocks pos.sb).params i with
      | none => .panic .indexOutOfRange regs
      | some value =>
        regAllocFn.BlockParamsLoop f pos fuel (i + 1) (regs ++ [f.m.ssaValuesToVRegs value])
    else .ok () regs

/-- Embedding of `regAllocFn.BlockParams`: the state is the buffer `*regs` of the caller,
the value is the returned slice. -/
def regAllocFn.BlockParams (f : regAllocFn) (fuel : Nat) (pos : labelPosition)
    (regs : List VReg) : Res (List VReg) (List VReg) :=
  (regAllocFn.BlockParamsLoop f pos fuel 0 (regs.take 0)).bind (fun _ regs1 => .ok regs1 regs1)

/-- Embedding of `labelPosition.ID`: `int32(pos.sb.ID())`, the id of a block being a
32-bit unsigned integer. -/
def labelPosition.ID (pos : labelPosition) : Int :=
  if pos.sb % 2 ^ 32 < 2 ^ 31 then ((pos.sb % 2 ^ 32 : Nat) : Int)
  else ((pos.sb % 2 ^ 32 : Nat) : Int) - 2 ^ 32

/-! ## Sequences yielded by the instruction iterators -/

/-- The instructions of `l` follow `c` along `next` links: `c.next` is the first and each
has the following one as `next`. -/
def NextPath (m : machine) : Nat → List Nat → Prop
  | _, [] => True
  | c, x :: xs => (m.instrPool c).next = some x ∧ NextPath m x xs

/-- The instructions of `l` precede `c` along `prev` links: `c.prev` is the first and each
has the following one as `prev`. -/
def PrevPath (m : machine) : Nat → List Nat → Prop
  | _, [] => True
  | c, x :: xs => (m.instrPool c).prev = some x ∧ PrevPath m x xs

/-- The instruction `e` is met at the end of the path `c :: l` only: it is neither `c` nor
any instruction of `l` before the last. -/
def OnlyAtEnd (e : Nat) : Nat → List Nat → Prop
  | _, [] => True
  | c, x :: xs => c ≠ e ∧ OnlyAtEnd e x xs

/-- The caller's loop `for i := Begin(); i != nil; i = Next()` over the instructions of a
block: the instructions yielded after `first` (the outcome of the call just made) until
the first nil. `none` when a call panics or the fuel runs out. -/
def yieldedInstrs (next : labelPosition → Res labelPosition Ptr) :
    Nat → Res labelPosition Ptr → Option (List Nat)
  | 0, _ => none
  | _ + 1, .ok none _ => some []
  | k + 1, .ok (some i) pos => (yieldedInstrs next k (next pos)).map (fun l => i :: l)
  | _ + 1, .panic _ _ => none
  | _ + 1, .outOfFuel => none

/-- The sequence yielded by a forward iteration over the block. -/
def forwardInstrs (m : machine) (fuel : Nat) (pos : labelPosition) : Option (List Nat) :=
  yieldedInstrs (labelPosition.InstrIteratorNext m fuel) fuel pos.InstrIteratorBegin

/-- The sequence yielded by a reverse iteration over the block. -/
def reverseInstrs (m : machine) (fuel : Nat) (pos : labelPosition) : Option (List Nat) :=
  yieldedInstrs (labelPosition.InstrRevIteratorNext m fuel) fuel pos.InstrRevIteratorBegin

/-- The sequence returned by the remaining calls of `InstrIteratorNext`, from the cursor
of `pos`. -/
def remainingInstrs (m : machine) (fuel : Nat) (pos : labelPosition) : Option (List Nat) :=
  yieldedInstrs (labelPosition.InstrIteratorNext m fuel) fuel
    (labelPosition.InstrIteratorNext m fuel pos)

/-- The instruction was present before register allocation. -/
def machine.flagged (m : machine) (i : Nat) : Bool := (m.instrPool i).addedBeforeRegAlloc

/-! ## Splices of instructions added during register allocation -/

/-- The path `c :: l` after the instructions `new` have been spliced between `c0` and its
successor: `new` follows `c0` wherever `c0` has a successor on the path. -/
def spliceInto (c0 : Nat) (new : List Nat) : Nat → List Nat → List Nat
  | _, [] => []
  | c, x :: xs => (if c = c0 then new else []) ++ x :: spliceInto c0 new x xs

/-- The machine is reached from `m` by any number of splices, each of any number of
instructions whose `addedBeforeRegAlloc` flag is unset, between an instruction and its
successor. -/
inductive UnflaggedSplices (m : machine) : machine → Prop where
  | refl : UnflaggedSplices m m
  | splice {m1 m2 : machine} {c n : Nat} {new : List Nat} :
      UnflaggedSplices m m1 → (m1.instrPool c).next = some n → Splicing m1 c n m2 new →
      linked m2 (lastOf c new) n → (∀ x ∈ new, m2.flagged x = false) → UnflaggedSplices m m2

/-! ## Sequences of calls of the block iterators -/

/-- A call of one of the four block-iterator methods. -/
inductive BlockIterCall where
  | poBegin
  | poNext
  | rpoBegin
  | rpoNext
deriving DecidableEq, Repr

/-- The method that a call runs. -/
def BlockIterCall.run : BlockIterCall → regAllocFn → Res regAllocFn Ptr
  | .poBegin, f => f.PostOrderBlockIteratorBegin
  | .poNext, f => f.PostOrderBlockIteratorNext
  | .rpoBegin, f => f.ReversePostOrderBlockIteratorBegin
  | .rpoNext, f => f.ReversePostOrderBlockIteratorNext

/-- Run the calls one after the other on the adapter: the values they return, or the
first panic. -/
def runCalls : List BlockIterCall → regAllocFn → Res regAllocFn (List Ptr)
  | [], f => .ok [] f
  | c :: cs, f => (c.run f).bind (fun r f1 => (runCalls cs f1).bind (fun rs f2 => .ok (r :: rs) f2))

/-- Whether the call belongs to the postorder traversal. -/
def BlockIterCall.postOrder : BlockIterCall → Bool
  | .poBegin => true
  | .poNext => true
  | .rpoBegin => false
  | .rpoNext => false

/-- Whether the call is a `Begin`. -/
def BlockIterCall.isBegin : BlockIterCall → Bool
  | .poBegin => true
  | .rpoBegin => true
  | _ => false

/-- Each `Next` of the sequence follows a call (`Begin` or `Next`) of its own traversal;
`last` is the traversal of the call made just before, if any. -/
def ownTraversal : Option Bool → List BlockIterCall → Bool
  | _, [] => true
  | last, c :: cs => (c.isBegin || last == some c.postOrder) && ownTraversal (some c.postOrder) cs

/-- The range of the cursor between the calls of a traversal: `-1 ≤ blockIter < len`
in a postorder traversal, `0 ≤ blockIter ≤ len` in a reverse-postorder one. -/
def cursorInRange (f : regAllocFn) : Option Bool → Prop
  | none => True
  | some true => -1 ≤ f.blockIter ∧ f.blockIter < (f.m.orderedSSABlockLabelPos.length : Int)
  | some false => 0 ≤ f.blockIter ∧ f.blockIter ≤ (f.m.orderedSSABlockLabelPos.length : Int)

/-- A block of the single instruction `nop0`, whose links are nil. -/
def exampleSingleNop : machine :=
  exampleMachine [.nop0] (fun _ => .TypeV128) (fun c => [c, c])

/-- An SSA builder with three blocks: block 0 has the parameters `5, 6` and the successors
1 and 2, block 1 has the predecessor 0 and the successor 2, and block 2 is the return
block. -/
def exampleBuilder : ssaBuilder :=
  { blocks := fun b =>
      if b = 0 then { params := [5, 6], preds := [], succs := [1, 2], returnBlock := false }
      else if b = 1 then { params := [], preds := [0], succs := [2], returnBlock := false }
      else { params := [], preds := [0, 1], succs := [], returnBlock := true } }

/-- An adapter over `exampleBuilder` in which the SSA value `v` is bound to the VReg of
identity `100 + v`. -/
def exampleFnBlocks : regAllocFn :=
  { ssaB := exampleBuilder
    m := { exampleBlock with ssaValuesToVRegs := fun v => intVReg (100 + v) 0 }
    blockIter := 0 }

/-- The block `nop0, aluRRR, br, nop0` with the `next` link of the `aluRRR` set to nil:
the `br` still has the `aluRRR` as `prev`. -/
def exampleBrokenChain : machine :=
  exampleBlock.modifyInstr 1 (fun i => i.setNext none)

/-! ## Lemmas on the instruction pool -/

theorem modifyInstr_instrPool (m : machine) (j : Nat) (g : instruction → instruction)
    (i : Nat) :
    (m.modifyInstr j g).instrPool i = if i = j then g (m.instrPool j) else m.instrPool i := by
  simp only [machine.modifyInstr, Function.update_apply]

theorem allocateInstr_fst (m : machine) : m.allocateInstr.1 = m.instrPoolLen := rfl

theorem allocateInstr_instrPool (m : machine) (i : Nat) :
    m.allocateInstr.2.instrPool i =
      if i = m.instrPoolLen then instruction.fresh m.regAllocStarted else m.instrPool i := by
  simp only [machine.allocateInstr, Function.update_apply]

theorem allocateInstr_instrPoolLen (m : machine) :
    m.allocateInstr.2.instrPoolLen = m.instrPoolLen + 1 := rfl

theorem link_instrPool (m : machine) (p x i : Nat) :
    (m.link p x).instrPool i =
      if i = x then
        (if x = p then ((m.instrPool p).setNext (some x)).setPrev (some p)
         else (m.instrPool x).setPrev (some p))
      else if i = p then (m.instrPool p).setNext (some x)
      else m.instrPool i := by
  simp only [machine.link, modifyInstr_instrPool]
  by_cases h1 : i = x <;> by_cases h3 : x = p <;> simp [h1, h3]

theorem link_next (m : machine) (p x i : Nat) :
    ((m.link p x).instrPool i).next = if i = p then some x else (m.instrPool i).next := by
  rw [link_instrPool]
  by_cases h1 : i = x <;> by_cases h2 : i = p <;> by_cases h3 : x = p <;>
    simp_all

theorem link_prev (m : machine) (p x i : Nat) :
    ((m.link p x).instrPool i).prev = if i = x then some p else (m.instrPool i).prev := by
  rw [link_instrPool]
  by_cases h1 : i = x <;> by_cases h2 : i = p <;> by_cases h3 : x = p <;>
    simp_all

theorem link_body (m : machine) (p x i : Nat) :
    ((m.link p x).instrPool i).body = (m.instrPool i).body := by
  rw [link_instrPool]
  by_cases h1 : i = x <;> by_cases h2 : i = p <;> by_cases h3 : x = p <;>
    simp_all [instruction.body, instruction.setNext, instruction.setPrev]

theorem link_kind (m : machine) (p x i : Nat) :
    ((m.link p x).instrPool i).kind = (m.instrPool i).kind := by
  have h := congrArg instruction.kind (link_body m p x i)
  exact h

theorem link_rd (m : machine) (p x i : Nat) :
    ((m.link p x).instrPool i).rd = (m.instrPool i).rd := by
  have h := congrArg instruction.rd (link_body m p x i)
  exact h

theorem link_rn (m : machine) (p x i : Nat) :
    ((m.link p x).instrPool i).rn = (m.instrPool i).rn := by
  have h := congrArg instruction.rn (link_body m p x i)
  exact h

theorem link_amode (m : machine) (p x i : Nat) :
    ((m.link p x).instrPool i).amode = (m.instrPool i).amode := by
  have h := congrArg instruction.amode (link_body m p x i)
  exact h

theorem link_bits (m : machine) (p x i : Nat) :
    ((m.link p x).instrPool i).bits = (m.instrPool i).bits := by
  have h := congrArg instruction.bits (link_body m p x i)
  exact h

theorem link_u1 (m : machine) (p x i : Nat) :
    ((m.link p x).instrPool i).u1 = (m.instrPool i).u1 := by
  have h := congrArg instruction.u1 (link_body m p x i)
  exact h

theorem link_addedBeforeRegAlloc (m : machine) (p x i : Nat) :
    ((m.link p x).instrPool i).addedBeforeRegAlloc = (m.instrPool i).addedBeforeRegAlloc := by
  have h := congrArg instruction.addedBeforeRegAlloc (link_body m p x i)
  exact h

theorem linkInstr_some (m : machine) (p x : Nat) :
    linkInstr m (some p) (some x) = .ok (some x) (m.link p x) := rfl

theorem modifyInstr_instrPoolLen (m : machine) (j : Nat) (g : instruction → instruction) :
    (m.modifyInstr j g).instrPoolLen = m.instrPoolLen := rfl

theorem link_instrPoolLen (m : machine) (p x : Nat) : (m.link p x).instrPoolLen = m.instrPoolLen := rfl

theorem allocateInstr_regAllocStarted (m : machine) :
    m.allocateInstr.2.regAllocStarted = m.regAllocStarted := rfl

theorem modifyInstr_regAllocStarted (m : machine) (j : Nat) (g : instruction → instruction) :
    (m.modifyInstr j g).regAllocStarted = m.regAllocStarted := rfl

theorem link_regAllocStarted (m : machine) (p x : Nat) : (m.link p x).regAllocStarted = m.regAllocStarted := rfl

theorem allocateInstr_orderedSSABlockLabelPos (m : machine) :
    m.allocateInstr.2.orderedSSABlockLabelPos = m.orderedSSABlockLabelPos := rfl

theorem modifyInstr_orderedSSABlockLabelPos (m : machine) (j : Nat) (g : instruction → instruction) :
    (m.modifyInstr j g).orderedSSABlockLabelPos = m.orderedSSABlockLabelPos := rfl

theorem link_orderedSSABlockLabelPos (m : machine) (p x : Nat) : (m.link p x).orderedSSABlockLabelPos = m.orderedSSABlockLabelPos := rfl

theorem allocateInstr_clobberedRegs (m : machine) :
    m.allocateInstr.2.clobberedRegs = m.clobberedRegs := rfl

theorem modifyInstr_clobberedRegs (m : machine) (j : Nat) (g : instruction → instruction) :
    (m.modifyInstr j g).clobberedRegs = m.clobberedRegs := rfl

theorem link_clobberedRegs (m : machine) (p x : Nat) : (m.link p x).clobberedRegs = m.clobberedRegs := rfl

theorem allocateInstr_spillSlots (m : machine) :
    m.allocateInstr.2.spillSlots = m.spillSlots := rfl

theorem modifyInstr_spillSlots (m : machine) (j : Nat) (g : instruction → instruction) :
    (m.modifyInstr j g).spillSlots = m.spillSlots := rfl

theorem link_spillSlots (m : machine) (p x : Nat) : (m.link p x).spillSlots = m.spillSlots := rfl

theorem allocateInstr_spillSlotSize (m : machine) :
    m.allocateInstr.2.spillSlotSize = m.spillSlotSize := rfl

theorem modifyInstr_spillSlotSize (m : machine) (j : Nat) (g : instruction → instruction) :
    (m.modifyInstr j g).spillSlotSize = m.spillSlotSize := rfl

theorem link_spillSlotSize (m : machine) (p x : Nat) : (m.link p x).spillSlotSize = m.spillSlotSize := rfl

theorem allocateInstr_ssaTypeOfVRegID (m : machine) :
    m.allocateInstr.2.ssaTypeOfVRegID = m.ssaTypeOfVRegID := rfl

theorem modifyInstr_ssaTypeOfVRegID (m : machine) (j : Nat) (g : instruction → instruction) :
    (m.modifyInstr j g).ssaTypeOfVRegID = m.ssaTypeOfVRegID := rfl

theorem link_ssaTypeOfVRegID (m : machine) (p x : Nat) : (m.link p x).ssaTypeOfVRegID = m.ssaTypeOfVRegID := rfl

theorem allocateInstr_lowerConstantI64 (m : machine) :
    m.allocateInstr.2.lowerConstantI64 = m.lowerConstantI64 := rfl

theorem modifyInstr_lowerConstantI64 (m : machine) (j : Nat) (g : instruction → instruction) :
    (m.modifyInstr j g).lowerConstantI64 = m.lowerConstantI64 := rfl

theorem link_lowerConstantI64 (m : machine) (p x : Nat) : (m.link p x).lowerConstantI64 = m.lowerConstantI64 := rfl

/-! ## Lemmas on linked paths and splices -/

theorem machine.WellFormed.next_prev {m : machine} (hwf : m.WellFormed) {a b : Nat}
    (ha : a < m.instrPoolLen) (h : (m.instrPool a).next = some b) :
    b < m.instrPoolLen ∧ (m.instrPool b).prev = some a := by
  have h1 := hwf a ha
  simp only [linksConsistentAt, h, Bool.and_eq_true, decide_eq_true_eq, beq_iff_eq] at h1
  exact h1.1

theorem machine.WellFormed.prev_next {m : machine} (hwf : m.WellFormed) {a b : Nat}
    (ha : a < m.instrPoolLen) (h : (m.instrPool a).prev = some b) :
    b < m.instrPoolLen ∧ (m.instrPool b).next = some a := by
  have h1 := hwf a ha
  simp only [linksConsistentAt, h, Bool.and_eq_true, decide_eq_true_eq, beq_iff_eq] at h1
  exact h1.2

theorem lastOf_mem (c : Nat) (l : List Nat) : lastOf c l ∈ c :: l := by
  induction l generalizing c with
  | nil => simp [lastOf]
  | cons x xs ih =>
    simp only [lastOf]
    exact List.mem_cons_of_mem _ (ih x)

theorem lastOf_append_singleton (c : Nat) (l : List Nat) (x : Nat) :
    lastOf c (l ++ [x]) = x := by
  induction l generalizing c with
  | nil => rfl
  | cons y ys ih => simpa [lastOf] using ih y

theorem lastOf_append (c : Nat) (l l2 : List Nat) :
    lastOf c (l ++ l2) = lastOf (lastOf c l) l2 := by
  induction l generalizing c with
  | nil => rfl
  | cons y ys ih => simpa [lastOf] using ih y

theorem LinkedPath.snoc {m : machine} {c : Nat} {l : List Nat} {x : Nat}
    (hp : LinkedPath m (c :: l)) (hx : linked m (lastOf c l) x) :
    LinkedPath m (c :: (l ++ [x])) := by
  induction l generalizing c with
  | nil => exact ⟨hx, trivial⟩
  | cons y ys ih => exact ⟨hp.1, ih hp.2 hx⟩

theorem LinkedPath.tail {m : machine} {c : Nat} {l : List Nat}
    (hp : LinkedPath m (c :: l)) : LinkedPath m l := by
  cases l with
  | nil => trivial
  | cons y ys => exact hp.2

theorem LinkedPath.append_left {m : machine} {c : Nat} {l l2 : List Nat}
    (hp : LinkedPath m (c :: (l ++ l2))) : LinkedPath m (c :: l) := by
  induction l generalizing c with
  | nil => trivial
  | cons y ys ih => exact ⟨hp.1, ih hp.2⟩

theorem LinkedPath.linked_last {m : machine} {c : Nat} {l : List Nat} {x : Nat} {l2 : List Nat}
    (hp : LinkedPath m (c :: (l ++ x :: l2))) : linked m (lastOf c l) x := by
  induction l generalizing c with
  | nil => exact hp.1
  | cons y ys ih => exact ih hp.2

/-- Linking the last instruction of a path to `x` keeps the links of the path. -/
theorem linkedPath_link_keep (m : machine) (c : Nat) (l : List Nat) (x : Nat)
    (hnd : (c :: l).Nodup) (hx : x ∉ l) (hp : LinkedPath m (c :: l)) :
    LinkedPath (m.link (lastOf c l) x) (c :: l) := by
  induction l generalizing c with
  | nil => trivial
  | cons y ys ih =>
    have hnd2 : (y :: ys).Nodup := (List.nodup_cons.1 hnd).2
    have hc : c ∉ y :: ys := (List.nodup_cons.1 hnd).1
    refine ⟨⟨?_, ?_⟩, ih y hnd2 (fun h => hx (List.mem_cons_of_mem _ h)) hp.2⟩
    · rw [link_next]
      have hne : c ≠ lastOf c (y :: ys) := fun h => hc (h ▸ lastOf_mem y ys)
      simp only [hne, if_false]
      exact hp.1.1
    · rw [link_prev]
      have hne : y ≠ x := fun h => hx (h ▸ List.mem_cons_self _ _)
      simp only [hne, if_false]
      exact hp.1.2

theorem linked_link (m : machine) (p x : Nat) : linked (m.link p x) p x := by
  refine ⟨?_, ?_⟩
  · rw [link_next]; simp
  · rw [link_prev]; simp

theorem Splicing.init (m0 : machine) (c n : Nat) (hc : c < m0.instrPoolLen)
    (hn : n < m0.instrPoolLen) : Splicing m0 c n m0 [] :=
  { hc := hc, hn := hn, hlen := le_refl _, hnew := by simp, hnodup := List.nodup_nil,
    hpath := trivial, hnext := fun _ _ _ => rfl, hprev := fun _ _ _ => rfl
    hbody := fun _ _ => rfl }

theorem Splicing.nodup_cons {m0 m : machine} {c n : Nat} {new : List Nat}
    (h : Splicing m0 c n m new) : (c :: new).Nodup :=
  List.nodup_cons.2 ⟨fun hmem => by have := (h.hnew c hmem).1; have := h.hc; omega, h.hnodup⟩

theorem Splicing.last_lt {m0 m : machine} {c n : Nat} {new : List Nat}
    (h : Splicing m0 c n m new) : lastOf c new < m.instrPoolLen := by
  rcases List.mem_cons.1 (lastOf_mem c new) with h1 | h1
  · rw [h1]; exact lt_of_lt_of_le h.hc h.hlen
  · exact (h.hnew _ h1).2

theorem LinkedPath.congr {m m1 : machine} {l : List Nat}
    (h : ∀ i ∈ l, (m1.instrPool i).next = (m.instrPool i).next ∧
      (m1.instrPool i).prev = (m.instrPool i).prev)
    (hp : LinkedPath m l) : LinkedPath m1 l := by
  induction l with
  | nil => trivial
  | cons a l ih =>
    cases l with
    | nil => trivial
    | cons b l =>
      refine ⟨?_, ih (fun i hi => h i (List.mem_cons_of_mem _ hi)) hp.2⟩
      have ha := h a (List.mem_cons_self _ _)
      have hb := h b (List.mem_cons_of_mem _ (List.mem_cons_self _ _))
      exact ⟨ha.1.trans hp.1.1, hb.2.trans hp.1.2⟩

/-- A step that leaves the allocated instructions as they are (an allocation, the
filling of a new instruction, the reservation of a spill slot) keeps the splice. -/
theorem Splicing.of_sameBelow {m0 m m1 : machine} {c n : Nat} {new : List Nat}
    (h : Splicing m0 c n m new) (hl : SameBelow m.instrPoolLen m m1)
    (hlen : m.instrPoolLen ≤ m1.instrPoolLen) : Splicing m0 c n m1 new :=
  { hc := h.hc, hn := h.hn, hlen := le_trans h.hlen hlen
    hnew := fun x hx => ⟨(h.hnew x hx).1, lt_of_lt_of_le (h.hnew x hx).2 hlen⟩
    hnodup := h.hnodup
    hpath := by
      refine LinkedPath.congr (fun i hi => ?_) h.hpath
      rcases List.mem_cons.1 hi with rfl | hi
      · rw [hl _ (lt_of_lt_of_le h.hc h.hlen)]; exact ⟨rfl, rfl⟩
      · rw [hl _ (h.hnew i hi).2]; exact ⟨rfl, rfl⟩
    hnext := fun i hi hic => by
      rw [hl i (lt_of_lt_of_le hi h.hlen)]; exact h.hnext i hi hic
    hprev := fun i hi hin => by
      rw [hl i (lt_of_lt_of_le hi h.hlen)]; exact h.hprev i hi hin
    hbody := fun i hi => by
      rw [hl i (lt_of_lt_of_le hi h.hlen)]; exact h.hbody i hi }

/-- Allocating an instruction and filling it keeps the allocated instructions. -/
theorem sameBelow_allocate_modify (m : machine) (g : instruction → instruction) :
    SameBelow m.instrPoolLen m (m.allocateInstr.2.modifyInstr m.instrPoolLen g) := by
  intro i hi
  have hne : i ≠ m.instrPoolLen := by omega
  simp only [modifyInstr_instrPool, allocateInstr_instrPool, hne, if_false]

/-- Allocating an instruction and filling it keeps the splice. -/
theorem Splicing.allocate_modify {m0 m : machine} {c n : Nat} {new : List Nat}
    (h : Splicing m0 c n m new) (g : instruction → instruction) :
    Splicing m0 c n (m.allocateInstr.2.modifyInstr m.instrPoolLen g) new :=
  h.of_sameBelow (sameBelow_allocate_modify m g) (Nat.le_succ _)

/-- Linking a new instruction `x` after the last one of the splice extends the splice. -/
theorem Splicing.link {m0 m : machine} {c n : Nat} {new : List Nat}
    (h : Splicing m0 c n m new) (x : Nat) (hx1 : m0.instrPoolLen ≤ x)
    (hx2 : x < m.instrPoolLen) (hx : x ∉ new) :
    Splicing m0 c n (m.link (lastOf c new) x) (new ++ [x]) :=
  { hc := h.hc, hn := h.hn, hlen := h.hlen
    hnew := fun y hy => by
      rcases List.mem_append.1 hy with hy | hy
      · exact h.hnew y hy
      · rw [List.mem_singleton.1 hy]; exact ⟨hx1, hx2⟩
    hnodup := by
      rw [List.nodup_append]
      refine ⟨h.hnodup, List.nodup_singleton _, ?_⟩
      intro a ha hb
      rw [List.mem_singleton.1 hb] at ha
      exact hx ha
    hpath := (linkedPath_link_keep m c new x h.nodup_cons hx h.hpath).snoc (linked_link _ _ _)
    hnext := fun i hi hic => by
      rw [link_next]
      have hne : i ≠ lastOf c new := by
        intro he
        rcases List.mem_cons.1 (lastOf_mem c new) with h1 | h1
        · exact hic (he.trans h1)
        · have := (h.hnew _ h1).1; omega
      simp only [hne, if_false]
      exact h.hnext i hi hic
    hprev := fun i hi hin => by
      rw [link_prev]
      have hne : i ≠ x := by omega
      simp only [hne, if_false]
      exact h.hprev i hi hin
    hbody := fun i hi => by rw [link_body]; exact h.hbody i hi }

/-- Linking the last instruction of the splice to `n` closes the splice. -/
theorem Splicing.close {m0 m : machine} {c n : Nat} {new : List Nat}
    (h : Splicing m0 c n m new) :
    Splicing m0 c n (m.link (lastOf c new) n) new ∧
      linked (m.link (lastOf c new) n) (lastOf c new) n := by
  have hnnew : n ∉ new := fun hmem => by have := (h.hnew n hmem).1; have := h.hn; omega
  refine ⟨?_, linked_link _ _ _⟩
  exact
  { hc := h.hc, hn := h.hn, hlen := h.hlen, hnew := h.hnew, hnodup := h.hnodup
    hpath := linkedPath_link_keep m c new n h.nodup_cons hnnew h.hpath
    hnext := fun i hi hic => by
      rw [link_next]
      have hne : i ≠ lastOf c new := by
        intro he
        rcases List.mem_cons.1 (lastOf_mem c new) with h1 | h1
        · exact hic (he.trans h1)
        · have := (h.hnew _ h1).1; omega
      simp only [hne, if_false]
      exact h.hnext i hi hic
    hprev := fun i hi hin => by
      rw [link_prev]
      simp only [hin, if_false]
      exact h.hprev i hi hin
    hbody := fun i hi => by rw [link_body]; exact h.hbody i hi }

/-- A closed splice is a linked path from `c` through the new instructions to `n`. -/
theorem Splicing.linkedPath_closed {m0 m : machine} {c n : Nat} {new : List Nat}
    (h : Splicing m0 c n m new) (hl : linked m (lastOf c new) n) :
    LinkedPath m (c :: (new ++ [n])) :=
  h.hpath.snoc hl

/-! ## Block iterators: the two traversals -/

/-- One step of the reverse-postorder iterator inside the array. -/
theorem reversePostOrderNext_inside (l : List Nat) (f : regAllocFn)
    (hl : f.m.orderedSSABlockLabelPos = l.map some) (i : Nat) (hlt : i < l.length) :
    regAllocFn.ReversePostOrderBlockIteratorNext { f with blockIter := (i : Int) }
      = .ok (some l[i]) { f with blockIter := ((i + 1 : Nat) : Int) } := by
  have hnot : ¬ ((l.length : Int) ≤ (i : Int)) := by omega
  have hneg : ¬ ((i : Int) < 0) := by omega
  have hget : (l.map some)[i]? = some (some l[i]) := by
    simp [List.getElem?_eq_getElem hlt]
  simp only [regAllocFn.ReversePostOrderBlockIteratorNext, hl, List.length_map, ge_iff_le,
    hnot, hneg, if_false, Int.toNat_ofNat, hget]
  rfl

/-- One step of the postorder iterator inside the array. -/
theorem postOrderNext_inside (l : List Nat) (f : regAllocFn)
    (hl : f.m.orderedSSABlockLabelPos = l.map some) (i : Nat) (hlt : i < l.length) :
    regAllocFn.PostOrderBlockIteratorNext { f with blockIter := ((i + 1 : Nat) : Int) - 1 }
      = .ok (some l[i]) { f with blockIter := (i : Int) - 1 } := by
  have hcur : ((i + 1 : Nat) : Int) - 1 = (i : Int) := by push_cast; omega
  have hneg : ¬ ((i : Int) < 0) := by omega
  have hget : (l.map some)[i]? = some (some l[i]) := by
    simp [List.getElem?_eq_getElem hlt]
  rw [hcur]
  simp only [regAllocFn.PostOrderBlockIteratorNext, hl, hneg, if_false,
    Int.toNat_ofNat, hget]

/-- From cursor `i`, the reverse-postorder iterator yields the entries from index `i` on. -/
theorem yieldedBlocks_reversePostOrder (l : List Nat) (f : regAllocFn)
    (hl : f.m.orderedSSABlockLabelPos = l.map some) :
    ∀ (k i fuel : Nat), i + k = l.length → k + 1 ≤ fuel →
      yieldedBlocks regAllocFn.ReversePostOrderBlockIteratorNext fuel
        (regAllocFn.ReversePostOrderBlockIteratorNext { f with blockIter := (i : Int) })
        = some (l.drop i) := by
  intro k
  induction k with
  | zero =>
    intro i fuel hi hfuel
    obtain ⟨fuel, rfl⟩ : ∃ j, fuel = j + 1 := ⟨fuel - 1, by omega⟩
    have hi' : i = l.length := by omega
    subst hi'
    have hend : regAllocFn.ReversePostOrderBlockIteratorNext
        { f with blockIter := (l.length : Int) }
        = .ok none { f with blockIter := (l.length : Int) } := by
      simp [regAllocFn.ReversePostOrderBlockIteratorNext, hl]
    rw [hend]
    rw [List.drop_length]
    rfl
  | succ k ih =>
    intro i fuel hi hfuel
    obtain ⟨fuel, rfl⟩ : ∃ j, fuel = j + 1 := ⟨fuel - 1, by omega⟩
    have hlt : i < l.length := by omega
    have hstep := ih (i + 1) fuel (by omega) (by omega)
    rw [reversePostOrderNext_inside l f hl i hlt]
    show (yieldedBlocks _ fuel _).map _ = _
    rw [hstep]
    rw [List.drop_eq_getElem_cons hlt]
    rfl

/-- From cursor `i - 1`, the postorder iterator yields the first `i` entries, last first. -/
theorem yieldedBlocks_postOrder (l : List Nat) (f : regAllocFn)
    (hl : f.m.orderedSSABlockLabelPos = l.map some) :
    ∀ (i fuel : Nat), i ≤ l.length → i + 1 ≤ fuel →
      yieldedBlocks regAllocFn.PostOrderBlockIteratorNext fuel
        (regAllocFn.PostOrderBlockIteratorNext { f with blockIter := (i : Int) - 1 })
        = some (l.take i).reverse := by
  intro i
  induction i with
  | zero =>
    intro fuel _ hfuel
    obtain ⟨fuel, rfl⟩ : ∃ j, fuel = j + 1 := ⟨fuel - 1, by omega⟩
    have hend : regAllocFn.PostOrderBlockIteratorNext
        { f with blockIter := ((0 : Nat) : Int) - 1 }
        = .ok none { f with blockIter := ((0 : Nat) : Int) - 1 } := by
      simp [regAllocFn.PostOrderBlockIteratorNext]
    rw [hend]
    rfl
  | succ i ih =>
    intro fuel hi hfuel
    obtain ⟨fuel, rfl⟩ : ∃ j, fuel = j + 1 := ⟨fuel - 1, by omega⟩
    have hlt : i < l.length := by omega
    have hstep := ih fuel (by omega) (by omega)
    rw [postOrderNext_inside l f hl i hlt]
    show (yieldedBlocks _ fuel _).map _ = _
    rw [hstep]
    have hrev : (l.take (i + 1)).reverse = l[i] :: (l.take i).reverse := by
      rw [List.take_succ, List.getElem?_eq_getElem hlt]
      simp only [Option.toList, List.reverse_append, List.reverse_cons, List.reverse_nil,
        List.nil_append, List.singleton_append]
    rw [hrev]
    rfl

/-- C1: for an array `orderedSSABlockLabelPos` of `n` non-nil label positions, the
reverse-postorder traversal (Begin, then Next until the first nil) yields the entries at
indices 0, 1, ..., n-1 in that order, and the postorder traversal yields them at indices
n-1, ..., 1, 0: each visits every entry exactly once and the two sequences are reverses of
each other. -/
theorem blockTraversals_yield_array (l : List Nat) (f : regAllocFn) (fuel : Nat)
    (hl : f.m.orderedSSABlockLabelPos = l.map some) (hfuel : l.length + 1 ≤ fuel) :
    reversePostOrderBlocks fuel f = some l ∧ postOrderBlocks fuel f = some l.reverse := by
  constructor
  · have h := yieldedBlocks_reversePostOrder l f hl l.length 0 fuel (by omega) hfuel
    simpa [reversePostOrderBlocks, regAllocFn.ReversePostOrderBlockIteratorBegin] using h
  · have h := yieldedBlocks_postOrder l f hl l.length fuel (le_refl _) hfuel
    have hlen : f.m.orderedSSABlockLabelPos.length = l.length := by simp [hl]
    simpa [postOrderBlocks, regAllocFn.PostOrderBlockIteratorBegin, hlen] using h

/-! ## Forward instruction iteration -/

/-- C2: for every machine state (in particular one in which instructions lacking the flag
have just been spliced into the block), every label position and every cursor state,
a non-nil instruction returned by `InstrIteratorNext` has `addedBeforeRegAlloc` set, and
the cursor is left on it. -/
theorem InstrIteratorNext_addedBeforeRegAlloc (m : machine) (fuel : Nat)
    (pos pos1 : labelPosition) (i : Nat)
    (h : labelPosition.InstrIteratorNext m fuel pos = .ok (some i) pos1) :
    (m.instrPool i).addedBeforeRegAlloc = true ∧ pos1.cur = some i := by
  induction fuel generalizing pos with
  | zero => simp [labelPosition.InstrIteratorNext] at h
  | succ fuel ih =>
    unfold labelPosition.InstrIteratorNext at h
    split at h
    · simp at h
    · split at h
      · simp at h
      · split at h
        · simp at h
        · split at h
          · rename_i hflag
            simp only [Res.ok.injEq, Option.some.injEq] at h
            obtain ⟨hi, hpos⟩ := h
            subst hi
            subst hpos
            exact ⟨hflag, rfl⟩
          · exact ih _ h

/-! ## Move insertion -/

/-- What `insertMoveBefore` does to the chain. -/
theorem insertMoveBefore_spec (m : machine) (dst src : VReg) (ins p : Nat)
    (hwf : m.WellFormed) (hins : ins < m.instrPoolLen)
    (hprev : (m.instrPool ins).prev = some p) (hty : src.RegType = dst.RegType) :
    ∃ m1, m.insertMoveBefore dst src (some ins) = .ok () m1 ∧
      m1.instrPoolLen = m.instrPoolLen + 1 ∧
      ((m1.instrPool p).next = some m.instrPoolLen ∧
        (m1.instrPool m.instrPoolLen).prev = some p ∧
        (m1.instrPool m.instrPoolLen).next = some ins ∧
        (m1.instrPool ins).prev = some m.instrPoolLen) ∧
      ((m1.instrPool m.instrPoolLen).kind =
          (if src.RegType = .RegTypeInt then .mov64 else .fpuMov128) ∧
        (m1.instrPool m.instrPoolLen).rd = dst ∧
        (m1.instrPool m.instrPoolLen).rn = src) ∧
      (∀ i, i < m.instrPoolLen → i ≠ p → (m1.instrPool i).next = (m.instrPool i).next) ∧
      (∀ i, i < m.instrPoolLen → i ≠ ins → (m1.instrPool i).prev = (m.instrPool i).prev) ∧
      (∀ i, i < m.instrPoolLen → (m1.instrPool i).body = (m.instrPool i).body) := by
  obtain ⟨hp, hnext⟩ := hwf.prev_next hins hprev
  have hne1 : ins ≠ m.instrPoolLen := by omega
  have hne2 : p ≠ m.instrPoolLen := by omega
  -- the splice, for either kind of move
  have key : ∀ g : instruction → instruction,
      Splicing m p ins (((m.allocateInstr.2.modifyInstr m.instrPoolLen g).link p
        m.instrPoolLen).link m.instrPoolLen ins) [m.instrPoolLen] ∧
      linked (((m.allocateInstr.2.modifyInstr m.instrPoolLen g).link p
        m.instrPoolLen).link m.instrPoolLen ins) m.instrPoolLen ins := by
    intro g
    have h0 := (Splicing.init m p ins hp hins).allocate_modify g
    have h1 := h0.link m.instrPoolLen (le_refl _)
      (by simp [modifyInstr_instrPoolLen, allocateInstr_instrPoolLen]) (by simp)
    exact h1.close
  have hfin : ∀ g : instruction → instruction,
      (g (instruction.fresh m.regAllocStarted)).kind =
          (if src.RegType = .RegTypeInt then .mov64 else .fpuMov128) →
      (g (instruction.fresh m.regAllocStarted)).rd = dst →
      (g (instruction.fresh m.regAllocStarted)).rn = src →
      m.insertMoveBefore dst src (some ins) = .ok ()
        (((m.allocateInstr.2.modifyInstr m.instrPoolLen g).link p
          m.instrPoolLen).link m.instrPoolLen ins) →
      ∃ m1, m.insertMoveBefore dst src (some ins) = .ok () m1 ∧
      m1.instrPoolLen = m.instrPoolLen + 1 ∧
      ((m1.instrPool p).next = some m.instrPoolLen ∧
        (m1.instrPool m.instrPoolLen).prev = some p ∧
        (m1.instrPool m.instrPoolLen).next = some ins ∧
        (m1.instrPool ins).prev = some m.instrPoolLen) ∧
      ((m1.instrPool m.instrPoolLen).kind =
          (if src.RegType = .RegTypeInt then .mov64 else .fpuMov128) ∧
        (m1.instrPool m.instrPoolLen).rd = dst ∧
        (m1.instrPool m.instrPoolLen).rn = src) ∧
      (∀ i, i < m.instrPoolLen → i ≠ p → (m1.instrPool i).next = (m.instrPool i).next) ∧
      (∀ i, i < m.instrPoolLen → i ≠ ins → (m1.instrPool i).prev = (m.instrPool i).prev) ∧
      (∀ i, i < m.instrPoolLen → (m1.instrPool i).body = (m.instrPool i).body) := by
    intro g hk hrd hrn hrun
    obtain ⟨hs, hl⟩ := key g
    have hpath := hs.linkedPath_closed hl
    refine ⟨_, hrun, rfl, ⟨hpath.1.1, hpath.1.2, hpath.2.1.1, hpath.2.1.2⟩, ⟨?_, ?_, ?_⟩,
      hs.hnext, hs.hprev, hs.hbody⟩
    · simpa only [link_kind, modifyInstr_instrPool, allocateInstr_instrPool, if_true] using hk
    · simpa only [link_rd, modifyInstr_instrPool, allocateInstr_instrPool, if_true] using hrd
    · simpa only [link_rn, modifyInstr_instrPool, allocateInstr_instrPool, if_true] using hrn
  by_cases hint : src.RegType = .RegTypeInt
  · refine hfin (fun i => i.asMove64 dst src) (by simp [hint]) rfl rfl ?_
    simp only [machine.insertMoveBefore, hty, ne_eq, not_true_eq_false, if_false, hty ▸ hint,
      if_true]
    simp only [machine.allocateInstr, modifyInstr_instrPool, hne1, hne2, if_false,
      Function.update_apply, hprev, hnext, linkInstr_some, Res.bind]
  · refine hfin (fun i => i.asFpuMov128 dst src) (by simp [hint]) rfl rfl ?_
    simp only [machine.insertMoveBefore, hty, ne_eq, not_true_eq_false, if_false,
      hty ▸ hint]
    simp only [machine.allocateInstr, modifyInstr_instrPool, hne1, hne2, if_false,
      Function.update_apply, hprev, hnext, linkInstr_some, Res.bind]

/-! ## The three-move rotate of swap -/

theorem swapRotate_eq (m : machine) (c n : Nat)
    (asMove : instruction → VReg → VReg → instruction) (x1 x2 tmp : VReg) :
    m.swapRotate (some c) (some n) asMove x1 x2 tmp = .ok ()
      (rotated m c n (fun i => asMove i tmp x1) (fun i => asMove i x1 x2)
        (fun i => asMove i x2 tmp)) := by
  simp only [machine.swapRotate, machine.allocateInstr, linkInstr_some, Res.bind]
  rfl

theorem rotated_splicing (m : machine) (c n : Nat) (g1 g2 g3 : instruction → instruction)
    (hc : c < m.instrPoolLen) (hn : n < m.instrPoolLen) :
    Splicing m c n (rotated m c n g1 g2 g3)
      [m.instrPoolLen, m.instrPoolLen + 1, m.instrPoolLen + 2] ∧
    linked (rotated m c n g1 g2 g3) (m.instrPoolLen + 2) n := by
  have h0 := (((Splicing.init m c n hc hn).allocate_modify g1).allocate_modify g2).allocate_modify g3
  simp only [modifyInstr_instrPoolLen, allocateInstr_instrPoolLen] at h0
  have h1 := h0.link m.instrPoolLen (le_refl _)
      (by simp only [modifyInstr_instrPoolLen, allocateInstr_instrPoolLen]; omega) (by simp)
  have h2 := h1.link (m.instrPoolLen + 1) (by omega)
      (by simp only [modifyInstr_instrPoolLen, allocateInstr_instrPoolLen, link_instrPoolLen]
          omega) (by simp)
  have h3 := h2.link (m.instrPoolLen + 2) (by omega)
      (by simp only [modifyInstr_instrPoolLen, allocateInstr_instrPoolLen, link_instrPoolLen]
          omega) (by simp)
  exact h3.close

theorem rotated_instrPoolLen (m : machine) (c n : Nat) (g1 g2 g3 : instruction → instruction) :
    (rotated m c n g1 g2 g3).instrPoolLen = m.instrPoolLen + 3 := rfl

theorem rotated_body (m : machine) (c n : Nat) (g1 g2 g3 : instruction → instruction) :
    ((rotated m c n g1 g2 g3).instrPool m.instrPoolLen).body
        = (g1 (instruction.fresh m.regAllocStarted)).body ∧
    ((rotated m c n g1 g2 g3).instrPool (m.instrPoolLen + 1)).body
        = (g2 (instruction.fresh m.regAllocStarted)).body ∧
    ((rotated m c n g1 g2 g3).instrPool (m.instrPoolLen + 2)).body
        = (g3 (instruction.fresh m.regAllocStarted)).body := by
  have h1 : m.instrPoolLen ≠ m.instrPoolLen + 1 + 1 := by omega
  have h2 : m.instrPoolLen ≠ m.instrPoolLen + 2 := by omega
  simp [rotated, link_body, modifyInstr_instrPool, allocateInstr_instrPool,
    modifyInstr_instrPoolLen, allocateInstr_instrPoolLen, modifyInstr_regAllocStarted,
    allocateInstr_regAllocStarted, h1, h2]

theorem isMove_of_body {i j : instruction} (h : i.body = j.body) {k : instructionKind}
    {rd rn : VReg} (hj : j.isMove k rd rn) : i.isMove k rd rn := by
  have h1 := congrArg instruction.kind h
  have h2 := congrArg instruction.rd h
  have h3 := congrArg instruction.rn h
  simp only [instruction.body_kind, instruction.body_rd, instruction.body_rn] at h1 h2 h3
  exact ⟨h1.trans hj.1, h2.trans hj.2.1, h3.trans hj.2.2⟩

/-- What `swap` does to the chain when it rotates through a scratch register. -/
theorem swap_rotate_spec (m : machine) (c n : Nat) (x1 x2 tmp : VReg)
    (hwf : m.WellFormed) (hc : c < m.instrPoolLen) (hnext : (m.instrPool c).next = some n)
    (hcase : x1.RegType = .RegTypeInt ∨ tmp.Valid = true) :
    ∃ m1, m.swap (some c) x1 x2 tmp = .ok () m1 ∧
      m1.instrPoolLen = m.instrPoolLen + 3 ∧
      LinkedPath m1 [c, m.instrPoolLen, m.instrPoolLen + 1, m.instrPoolLen + 2, n] ∧
      (m1.instrPool m.instrPoolLen).isMove
        (if x1.RegType = .RegTypeInt then .mov64 else .fpuMov128)
        (if tmp.Valid then tmp else tmpRegVReg) x1 ∧
      (m1.instrPool (m.instrPoolLen + 1)).isMove
        (if x1.RegType = .RegTypeInt then .mov64 else .fpuMov128) x1 x2 ∧
      (m1.instrPool (m.instrPoolLen + 2)).isMove
        (if x1.RegType = .RegTypeInt then .mov64 else .fpuMov128) x2
        (if tmp.Valid then tmp else tmpRegVReg) ∧
      (∀ i, i < m.instrPoolLen → i ≠ c → (m1.instrPool i).next = (m.instrPool i).next) ∧
      (∀ i, i < m.instrPoolLen → i ≠ n → (m1.instrPool i).prev = (m.instrPool i).prev) ∧
      (∀ i, i < m.instrPoolLen → (m1.instrPool i).body = (m.instrPool i).body) := by
  have hn := (hwf.next_prev hc hnext).1
  have main : ∀ (asMove : instruction → VReg → VReg → instruction) (k : instructionKind)
      (t : VReg), (∀ i rd rn, (asMove i rd rn).isMove k rd rn) →
      ∃ m1, m.swapRotate (some c) (some n) asMove x1 x2 t = .ok () m1 ∧
      m1.instrPoolLen = m.instrPoolLen + 3 ∧
      LinkedPath m1 [c, m.instrPoolLen, m.instrPoolLen + 1, m.instrPoolLen + 2, n] ∧
      (m1.instrPool m.instrPoolLen).isMove k t x1 ∧
      (m1.instrPool (m.instrPoolLen + 1)).isMove k x1 x2 ∧
      (m1.instrPool (m.instrPoolLen + 2)).isMove k x2 t ∧
      (∀ i, i < m.instrPoolLen → i ≠ c → (m1.instrPool i).next = (m.instrPool i).next) ∧
      (∀ i, i < m.instrPoolLen → i ≠ n → (m1.instrPool i).prev = (m.instrPool i).prev) ∧
      (∀ i, i < m.instrPoolLen → (m1.instrPool i).body = (m.instrPool i).body) := by
    intro asMove k t hmove
    obtain ⟨hs, hl⟩ := rotated_splicing m c n (fun i => asMove i t x1)
      (fun i => asMove i x1 x2) (fun i => asMove i x2 t) hc hn
    obtain ⟨hb1, hb2, hb3⟩ := rotated_body m c n (fun i => asMove i t x1)
      (fun i => asMove i x1 x2) (fun i => asMove i x2 t)
    exact ⟨_, swapRotate_eq m c n asMove x1 x2 t, rfl, hs.linkedPath_closed hl,
      isMove_of_body hb1 (hmove _ _ _), isMove_of_body hb2 (hmove _ _ _),
      isMove_of_body hb3 (hmove _ _ _), hs.hnext, hs.hprev, hs.hbody⟩
  by_cases hint : x1.RegType = .RegTypeInt
  · simp only [machine.swap, hnext, hint, if_true]
    by_cases hv : tmp.Valid = true
    · simpa [hv] using main instruction.asMove64 .mov64 tmp (fun _ _ _ => ⟨rfl, rfl, rfl⟩)
    · simpa [hv] using main instruction.asMove64 .mov64 tmpRegVReg (fun _ _ _ => ⟨rfl, rfl, rfl⟩)
  · have hv : tmp.Valid = true := hcase.resolve_left hint
    simp only [machine.swap, hnext, hint, if_false, hv]
    simpa using main instruction.asFpuMov128 .fpuMov128 tmp (fun _ _ _ => ⟨rfl, rfl, rfl⟩)

/-! ## Address resolution -/

theorem modifyInstr_env (m : machine) (j : Nat) (g : instruction → instruction) :
    (m.modifyInstr j g).env = m.env := rfl

theorem allocateInstr_env (m : machine) : m.allocateInstr.2.env = m.env := rfl

theorem link_env (m : machine) (p x : Nat) : (m.link p x).env = m.env := rfl

theorem SameBelow.trans {k k1 : Nat} {m m1 m2 : machine} (h1 : SameBelow k m m1)
    (h2 : SameBelow k1 m1 m2) (hk : k ≤ k1) : SameBelow k m m2 :=
  fun i hi => (h2 i (lt_of_lt_of_le hi hk)).trans (h1 i hi)

theorem allocateConstantInstrs_spec (rd : VReg) (imms : List Int) (m : machine) :
    (machine.allocateConstantInstrs rd imms m).1 = List.range' m.instrPoolLen imms.length ∧
    (machine.allocateConstantInstrs rd imms m).2.instrPoolLen
      = m.instrPoolLen + imms.length ∧
    SameBelow m.instrPoolLen m (machine.allocateConstantInstrs rd imms m).2 ∧
    (machine.allocateConstantInstrs rd imms m).2.env = m.env ∧
    (∀ x ∈ (machine.allocateConstantInstrs rd imms m).1,
      ((machine.allocateConstantInstrs rd imms m).2.instrPool x).kind = .movImm ∧
      ((machine.allocateConstantInstrs rd imms m).2.instrPool x).rd = rd) := by
  induction imms generalizing m with
  | nil =>
    refine ⟨rfl, rfl, fun _ _ => rfl, rfl, ?_⟩
    intro x hx
    simp [machine.allocateConstantInstrs] at hx
  | cons imm imms ih =>
    obtain ⟨h1, h2, h3, h4, h5⟩ :=
      ih (m.allocateInstr.2.modifyInstr m.instrPoolLen (fun ins => ins.asMovImm rd imm))
    have hdef : machine.allocateConstantInstrs rd (imm :: imms) m =
        (m.instrPoolLen ::
          (machine.allocateConstantInstrs rd imms
            (m.allocateInstr.2.modifyInstr m.instrPoolLen (fun ins => ins.asMovImm rd imm))).1,
          (machine.allocateConstantInstrs rd imms
            (m.allocateInstr.2.modifyInstr m.instrPoolLen (fun ins => ins.asMovImm rd imm))).2) :=
      rfl
    rw [hdef]
    simp only [modifyInstr_instrPoolLen, allocateInstr_instrPoolLen] at h1 h2 h3
    refine ⟨?_, ?_, ?_, ?_, ?_⟩
    · simp only [h1, List.length_cons, List.range'_succ]
    · simp only [h2, List.length_cons]; omega
    · exact (sameBelow_allocate_modify m _).trans h3 (Nat.le_succ _)
    · rw [h4]; rfl
    · intro x hx
      rcases List.mem_cons.1 hx with rfl | hx
      · rw [h3 _ (Nat.lt_succ_self _)]
        simp [modifyInstr_instrPool]
      · exact h5 x hx


theorem linkPending_spec {m0 : machine} {c n : Nat} :
    ∀ (ps : List Nat) (m : machine) (new : List Nat), Splicing m0 c n m new →
      (∀ x ∈ ps, m0.instrPoolLen ≤ x ∧ x < m.instrPoolLen ∧ x ∉ new) → ps.Nodup →
      ∃ m1, linkPending ps m (some (lastOf c new)) = .ok (some (lastOf c (new ++ ps))) m1 ∧
        Splicing m0 c n m1 (new ++ ps) ∧ m1.instrPoolLen = m.instrPoolLen ∧
        m1.env = m.env ∧ ∀ i, (m1.instrPool i).body = (m.instrPool i).body := by
  intro ps
  induction ps with
  | nil =>
    intro m new h _ _
    exact ⟨m, by simp [linkPending], by simpa using h, rfl, rfl, fun _ => rfl⟩
  | cons x xs ih =>
    intro m new h hps hnd
    obtain ⟨hx1, hx2, hx3⟩ := hps x (List.mem_cons_self _ _)
    have hnd2 := List.nodup_cons.1 hnd
    have h1 := h.link x hx1 hx2 hx3
    obtain ⟨m1, hrun, hs, hlen, henv, hbody⟩ := ih (m.link (lastOf c new) x) (new ++ [x]) h1
      (fun y hy => by
        obtain ⟨hy1, hy2, hy3⟩ := hps y (List.mem_cons_of_mem _ hy)
        refine ⟨hy1, hy2, ?_⟩
        intro hmem
        rcases List.mem_append.1 hmem with hmem | hmem
        · exact hy3 hmem
        · rw [List.mem_singleton.1 hmem] at hy
          exact hnd2.1 hy)
      hnd2.2
    refine ⟨m1, ?_, ?_, hlen, henv, fun i => (hbody i).trans (link_body _ _ _ _)⟩
    · simp only [linkPending, linkInstr_some, Res.bind]
      rw [lastOf_append_singleton] at hrun
      rw [hrun]
      simp
    · simpa using hs

theorem resolveAddressModeForOffset_mode (m : machine) (offset : Int) (dstBits : Nat)
    (rn : VReg) : (m.resolveAddressModeForOffset offset dstBits rn).1.2
      = addressModeOf offset dstBits rn := by
  unfold machine.resolveAddressModeForOffset addressModeOf
  split
  · rfl
  · split <;> rfl

theorem resolveAddressModeForOffsetAndInsert_spec {m0 m : machine} {c n : Nat}
    {new : List Nat} (h : Splicing m0 c n m new) (offset : Int) (dstBits : Nat) (rn : VReg) :
    ∃ m1 aux, m.resolveAddressModeForOffsetAndInsert (some (lastOf c new)) offset dstBits rn
        = .ok (some (lastOf c (new ++ aux)), addressModeOf offset dstBits rn) m1 ∧
      Splicing m0 c n m1 (new ++ aux) ∧
      aux = List.range' m.instrPoolLen aux.length ∧
      m1.instrPoolLen = m.instrPoolLen + aux.length ∧
      m1.env = m.env ∧
      (∀ i, i < m.instrPoolLen → (m1.instrPool i).body = (m.instrPool i).body) ∧
      (∀ x ∈ aux, (m1.instrPool x).isAddressComputation) := by
  unfold machine.resolveAddressModeForOffsetAndInsert machine.resolveAddressModeForOffset
    addressModeOf
  by_cases h12 : offsetFitsInAddressModeKindRegUnsignedImm12 dstBits offset = true
  · refine ⟨m, [], ?_, by simpa using h, rfl, rfl, rfl, fun _ _ => rfl, by simp⟩
    simp [h12, linkPending, Res.bind]
  · by_cases h9 : offsetFitsInAddressModeKindRegSignedImm9 offset = true
    · refine ⟨m, [], ?_, by simpa using h, rfl, rfl, rfl, fun _ _ => rfl, by simp⟩
      simp [h12, h9, linkPending, Res.bind]
    · obtain ⟨a1, a2, a3, a4, a5⟩ :=
        allocateConstantInstrs_spec tmpRegVReg (m.lowerConstantI64 offset) m
      have hs1 := h.of_sameBelow a3 (by rw [a2]; omega)
      obtain ⟨m1, hrun, hs, hlen, henv, hbody⟩ := linkPending_spec
        (machine.allocateConstantInstrs tmpRegVReg (m.lowerConstantI64 offset) m).1 _ new hs1
        (fun x hx => by
          rw [a1, List.mem_range'_1] at hx
          refine ⟨le_trans h.hlen hx.1, by rw [a2]; exact hx.2, ?_⟩
          intro hmem
          have := (h.hnew x hmem).2
          omega)
        (by rw [a1]; exact List.nodup_range' _ _)
      refine ⟨m1, _, ?_, hs, ?_, ?_, henv.trans a4, ?_, ?_⟩
      · simp only [h12, h9, Bool.false_eq_true, if_false]
        rw [hrun]
        rfl
      · rw [a1]; simp
      · rw [hlen, a2, a1]; simp
      · intro i hi
        rw [hbody i, a3 i hi]
      · intro x hx
        have hk := congrArg instruction.kind (hbody x)
        have hr := congrArg instruction.rd (hbody x)
        simp only [instruction.body_kind, instruction.body_rd] at hk hr
        exact ⟨hk.trans (a5 x hx).1, hr.trans (a5 x hx).2⟩

theorem emit_tail {m0 m : machine} {c n : Nat} {new : List Nat} (h : Splicing m0 c n m new)
    (g : instruction → instruction) :
    ∃ m1, (linkInstr (m.allocateInstr.2.modifyInstr m.instrPoolLen g) (some (lastOf c new))
          (some m.instrPoolLen)).bind (fun cur1 m5 => linkInstr m5 cur1 (some n))
        = .ok (some n) m1 ∧
      Splicing m0 c n m1 (new ++ [m.instrPoolLen]) ∧ linked m1 m.instrPoolLen n ∧
      m1.instrPoolLen = m.instrPoolLen + 1 ∧ m1.env = m.env ∧
      (∀ i, i < m.instrPoolLen → (m1.instrPool i).body = (m.instrPool i).body) ∧
      (m1.instrPool m.instrPoolLen).body = (g (instruction.fresh m.regAllocStarted)).body := by
  have h1 := h.allocate_modify g
  have hnotin : m.instrPoolLen ∉ new := fun hmem => by
    have := (h.hnew _ hmem).2
    omega
  have h2 := h1.link m.instrPoolLen h.hlen
    (by simp only [modifyInstr_instrPoolLen, allocateInstr_instrPoolLen]; omega) hnotin
  obtain ⟨h3, hl⟩ := h2.close
  rw [lastOf_append_singleton] at h3 hl
  refine ⟨_, ?_, h3, hl, rfl, rfl, ?_, ?_⟩
  · simp only [linkInstr_some, Res.bind]
  · intro i hi
    rw [link_body, link_body, sameBelow_allocate_modify m g i hi]
  · rw [link_body, link_body]
    simp [modifyInstr_instrPool, allocateInstr_instrPool]

theorem getVRegSpillSlotOffsetFromSP_instrPool (m : machine) (id size : Nat) :
    (m.getVRegSpillSlotOffsetFromSP id size).2.instrPool = m.instrPool ∧
    (m.getVRegSpillSlotOffsetFromSP id size).2.instrPoolLen = m.instrPoolLen ∧
    (m.getVRegSpillSlotOffsetFromSP id size).2.ssaTypeOfVRegID = m.ssaTypeOfVRegID ∧
    (m.getVRegSpillSlotOffsetFromSP id size).2.lowerConstantI64 = m.lowerConstantI64 ∧
    (m.getVRegSpillSlotOffsetFromSP id size).2.regAllocStarted = m.regAllocStarted := by
  unfold machine.getVRegSpillSlotOffsetFromSP
  split <;> exact ⟨rfl, rfl, rfl, rfl, rfl⟩

/-- Once the spill slot of a VReg has been resolved, resolving it again gives the same
offset and reserves nothing. -/
theorem getVRegSpillSlotOffsetFromSP_again (m m1 : machine) (id size size1 : Nat)
    (henv : m1.env = (m.getVRegSpillSlotOffsetFromSP id size).2.env) :
    (m1.getVRegSpillSlotOffsetFromSP id size1).1 = (m.getVRegSpillSlotOffsetFromSP id size).1 ∧
    (m1.getVRegSpillSlotOffsetFromSP id size1).2 = m1 := by
  have hslots : m1.spillSlots = (m.getVRegSpillSlotOffsetFromSP id size).2.spillSlots :=
    congrArg (fun e => e.2.2.2.1) henv
  unfold machine.getVRegSpillSlotOffsetFromSP at hslots ⊢
  cases hm : m.spillSlots id with
  | some off =>
    simp only [hm] at hslots ⊢
    simp [hslots, hm]
  | none =>
    simp only [hm] at hslots ⊢
    simp [hslots]

theorem Bits_Size {t : ssaType} {bits : Nat} (h : t.Bits = some bits) :
    t.Size = some (bits / 8) := by
  simp [ssaType.Size, h]

theorem insertStoreRegisterAt_spec {m0 m : machine} {c n : Nat} {new : List Nat}
    (h : Splicing m0 c n m new) (v : VReg) (hreal : v.IsRealReg = true) (bits : Nat)
    (hbits : (m.TypeOf v).Bits = some bits) (instr : Ptr) (after : Bool)
    (hip : insertionPoint m instr after = some (some (lastOf c new), some n)) :
    ∃ m1 aux, m.insertStoreRegisterAt v instr after = .ok (some n) m1 ∧
      Splicing m0 c n m1 (new ++ aux ++ [m.instrPoolLen + aux.length]) ∧
      linked m1 (m.instrPoolLen + aux.length) n ∧
      aux = List.range' m.instrPoolLen aux.length ∧
      m1.instrPoolLen = m.instrPoolLen + aux.length + 1 ∧
      m1.env = (m.getVRegSpillSlotOffsetFromSP v.ID (bits / 8)).2.env ∧
      (∀ i, i < m.instrPoolLen → (m1.instrPool i).body = (m.instrPool i).body) ∧
      (∀ x ∈ aux, (m1.instrPool x).isAddressComputation) ∧
      (m1.instrPool (m.instrPoolLen + aux.length)).body =
        ((instruction.fresh m.regAllocStarted).asStore v
          (addressModeOf (m.getVRegSpillSlotOffsetFromSP v.ID (bits / 8)).1 bits spVReg)
          bits).body := by
  obtain ⟨g1, g2, g3, g4, g5⟩ := getVRegSpillSlotOffsetFromSP_instrPool m v.ID (bits / 8)
  have hs0 : Splicing m0 c n (m.getVRegSpillSlotOffsetFromSP v.ID (bits / 8)).2 new :=
    h.of_sameBelow (fun i _ => by rw [g1]) (by rw [g2])
  obtain ⟨m2, aux, hrun2, hs2, haux, hlen2, henv2, hbody2, hkind2⟩ :=
    resolveAddressModeForOffsetAndInsert_spec hs0
      (m.getVRegSpillSlotOffsetFromSP v.ID (bits / 8)).1 bits spVReg
  obtain ⟨m1, hrun1, hs1, hl1, hlen1, henv1, hbody1, hst⟩ := emit_tail hs2
    (fun i => i.asStore v
      (addressModeOf (m.getVRegSpillSlotOffsetFromSP v.ID (bits / 8)).1 bits spVReg) bits)
  rw [g2] at hlen2
  have hfresh : m2.regAllocStarted = m.regAllocStarted := by
    have := congrArg (fun e => e.1) henv2
    exact this.trans g5
  rw [hlen2] at hs1 hl1 hlen1 hbody1 hst
  rw [hfresh] at hst
  refine ⟨m1, aux, ?_, hs1, hl1, by rw [g2] at haux; exact haux, hlen1, henv1.trans henv2,
    ?_, ?_, hst⟩
  · unfold machine.insertStoreRegisterAt
    simp only [hreal, Bool.not_true, Bool.false_eq_true, if_false, hip, hbits,
      Bits_Size hbits]
    rw [hrun2]
    simp only [Res.bind]
    exact hrun1
  · intro i hi
    rw [hbody1 i (by omega), hbody2 i (by rw [g2]; exact hi), g1]
  · intro x hx
    have hx2 : x < m.instrPoolLen + aux.length := by
      rw [haux, List.mem_range'_1] at hx
      rw [g2] at hx
      exact hx.2
    have hb := hbody1 x hx2
    have hk := congrArg instruction.kind hb
    have hr := congrArg instruction.rd hb
    simp only [instruction.body_kind, instruction.body_rd] at hk hr
    exact ⟨hk.trans (hkind2 x hx).1, hr.trans (hkind2 x hx).2⟩

theorem asReload_isReload (i : instruction) (typ : ssaType) (v : VReg) (amode : addressMode)
    (bits : Nat) (hbits : typ.Bits = some bits) :
    (i.asReload typ v amode bits).isReload typ v amode bits := by
  cases typ <;> simp [ssaType.Bits] at hbits <;> subst hbits <;>
    simp [instruction.asReload, instruction.isReload]

theorem insertReloadRegisterAt_spec {m0 m : machine} {c n : Nat} {new : List Nat}
    (h : Splicing m0 c n m new) (v : VReg) (hreal : v.IsRealReg = true) (bits : Nat)
    (hbits : (m.TypeOf v).Bits = some bits) (instr : Ptr) (after : Bool)
    (hip : insertionPoint m instr after = some (some (lastOf c new), some n)) :
    ∃ m1 aux, m.insertReloadRegisterAt v instr after = .ok (some n) m1 ∧
      Splicing m0 c n m1 (new ++ aux ++ [m.instrPoolLen + aux.length]) ∧
      linked m1 (m.instrPoolLen + aux.length) n ∧
      aux = List.range' m.instrPoolLen aux.length ∧
      m1.instrPoolLen = m.instrPoolLen + aux.length + 1 ∧
      m1.env = (m.getVRegSpillSlotOffsetFromSP v.ID (bits / 8)).2.env ∧
      (∀ i, i < m.instrPoolLen → (m1.instrPool i).body = (m.instrPool i).body) ∧
      (∀ x ∈ aux, (m1.instrPool x).isAddressComputation) ∧
      (m1.instrPool (m.instrPoolLen + aux.length)).body =
        ((instruction.fresh m.regAllocStarted).asReload (m.TypeOf v) v
          (addressModeOf (m.getVRegSpillSlotOffsetFromSP v.ID (bits / 8)).1 bits spVReg)
          bits).body := by
  obtain ⟨g1, g2, g3, g4, g5⟩ := getVRegSpillSlotOffsetFromSP_instrPool m v.ID (bits / 8)
  have hs0 : Splicing m0 c n (m.getVRegSpillSlotOffsetFromSP v.ID (bits / 8)).2 new :=
    h.of_sameBelow (fun i _ => by rw [g1]) (by rw [g2])
  obtain ⟨m2, aux, hrun2, hs2, haux, hlen2, henv2, hbody2, hkind2⟩ :=
    resolveAddressModeForOffsetAndInsert_spec hs0
      (m.getVRegSpillSlotOffsetFromSP v.ID (bits / 8)).1 bits spVReg
  obtain ⟨m1, hrun1, hs1, hl1, hlen1, henv1, hbody1, hst⟩ := emit_tail hs2
    (fun i => i.asReload (m.TypeOf v) v
      (addressModeOf (m.getVRegSpillSlotOffsetFromSP v.ID (bits / 8)).1 bits spVReg) bits)
  rw [g2] at hlen2
  have hfresh : m2.regAllocStarted = m.regAllocStarted := by
    have := congrArg (fun e => e.1) henv2
    exact this.trans g5
  rw [hlen2] at hs1 hl1 hlen1 hbody1 hst
  rw [hfresh] at hst
  refine ⟨m1, aux, ?_, hs1, hl1, by rw [g2] at haux; exact haux, hlen1, henv1.trans henv2,
    ?_, ?_, hst⟩
  · unfold machine.insertReloadRegisterAt
    simp only [hreal, Bool.not_true, Bool.false_eq_true, if_false, hip, hbits,
      Bits_Size hbits]
    rw [hrun2]
    simp only [Res.bind]
    cases htyp : m.TypeOf v <;> rw [htyp] at hbits hrun1 <;>
      simp [ssaType.Bits] at hbits <;> subst hbits <;> exact hrun1
  · intro i hi
    rw [hbody1 i (by omega), hbody2 i (by rw [g2]; exact hi), g1]
  · intro x hx
    have hx2 : x < m.instrPoolLen + aux.length := by
      rw [haux, List.mem_range'_1] at hx
      rw [g2] at hx
      exact hx.2
    have hb := hbody1 x hx2
    have hk := congrArg instruction.kind hb
    have hr := congrArg instruction.rd hb
    simp only [instruction.body_kind, instruction.body_rd] at hk hr
    exact ⟨hk.trans (hkind2 x hx).1, hr.trans (hkind2 x hx).2⟩

/-! ## The memory-mediated swap -/

theorem TypeOf_SetRealReg (m : machine) (v : VReg) (r : Nat) :
    m.TypeOf (v.SetRealReg r) = m.TypeOf v := rfl

theorem TypeOf_env {m m1 : machine} (h : m1.env = m.env) (v : VReg) :
    m1.TypeOf v = m.TypeOf v := by
  have h1 : m1.ssaTypeOfVRegID = m.ssaTypeOfVRegID := congrArg (fun e => e.2.2.2.2.2.1) h
  simp only [machine.TypeOf, h1]


theorem range'_assemble (L k1 k2 : Nat) :
    List.range' L k1 ++ [L + k1] ++ [L + k1 + 1] ++ List.range' (L + k1 + 1 + 1) k2
        ++ [L + k1 + 1 + 1 + k2]
      = List.range' L (k1 + k2 + 3) := by
  have e1 : List.range' L k1 ++ [L + k1] = List.range' L (k1 + 1) := by
    rw [List.range'_concat]; simp
  have e2 : List.range' L (k1 + 1) ++ [L + k1 + 1] = List.range' L (k1 + 1 + 1) := by
    rw [List.range'_concat L (k1 + 1)]; simp [Nat.add_assoc]
  have e3 : List.range' L (k1 + 1 + 1) ++ List.range' (L + k1 + 1 + 1) k2
      = List.range' L (k1 + 1 + 1 + k2) := by
    have := List.range'_append L (k1 + 1 + 1) k2 1
    simp only [Nat.one_mul] at this
    rw [show L + k1 + 1 + 1 = L + (k1 + 1 + 1) by omega, this]
    congr 1
    omega
  have e4 : List.range' L (k1 + 1 + 1 + k2) ++ [L + k1 + 1 + 1 + k2]
      = List.range' L (k1 + 1 + 1 + k2 + 1) := by
    rw [List.range'_concat L (k1 + 1 + 1 + k2)]
    simp [Nat.add_assoc]
  rw [e1, e2, e3, e4]
  congr 1
  omega

theorem isAddressComputation_of_body {i j : instruction} (h : i.body = j.body)
    (hj : j.isAddressComputation) : i.isAddressComputation := by
  have h1 := congrArg instruction.kind h
  have h2 := congrArg instruction.rd h
  simp only [instruction.body_kind, instruction.body_rd] at h1 h2
  exact ⟨h1.trans hj.1, h2.trans hj.2⟩

theorem isStore_of_body {i j : instruction} (h : i.body = j.body) {v : VReg}
    {amode : addressMode} {bits : Nat} (hj : j.isStore v amode bits) :
    i.isStore v amode bits := by
  have h1 := congrArg instruction.kind h
  have h2 := congrArg instruction.rn h
  have h3 := congrArg instruction.amode h
  have h4 := congrArg instruction.bits h
  simp only [instruction.body_kind, instruction.body_rn, instruction.body_amode,
    instruction.body_bits] at h1 h2 h3 h4
  exact ⟨h1.trans hj.1, h2.trans hj.2.1, h3.trans hj.2.2.1, h4.trans hj.2.2.2⟩

theorem isReload_of_body {i j : instruction} (h : i.body = j.body) {typ : ssaType} {v : VReg}
    {amode : addressMode} {bits : Nat} (hj : j.isReload typ v amode bits) :
    i.isReload typ v amode bits := by
  have h1 := congrArg instruction.kind h
  have h2 := congrArg instruction.rd h
  have h3 := congrArg instruction.amode h
  have h4 := congrArg instruction.bits h
  simp only [instruction.body_kind, instruction.body_rd, instruction.body_amode,
    instruction.body_bits] at h1 h2 h3 h4
  exact ⟨h1.trans hj.1, h2.trans hj.2.1, h3.trans hj.2.2.1, h4.trans hj.2.2.2⟩

/-- What `swap` does to the chain when it goes through the spill slot of `x1`. -/
theorem swap_fallback_spec (m : machine) (c n : Nat) (x1 x2 tmp : VReg) (bits : Nat)
    (hwf : m.WellFormed) (hc : c < m.instrPoolLen) (hnext : (m.instrPool c).next = some n)
    (hfloat : x1.RegType ≠ .RegTypeInt) (hx1 : x1.IsRealReg = true)
    (hx2 : x2.IsRealReg = true) (htmp : tmp.Valid = false)
    (hbits : (m.TypeOf x1).Bits = some bits) :
    ∃ m1 aux1 aux2 st mv ld, m.swap (some c) x1 x2 tmp = .ok () m1 ∧
      LinkedPath m1 (c :: (aux1 ++ [st] ++ [mv] ++ aux2 ++ [ld]) ++ [n]) ∧
      aux1 ++ [st] ++ [mv] ++ aux2 ++ [ld]
        = List.range' m.instrPoolLen (aux1.length + aux2.length + 3) ∧
      m1.instrPoolLen = m.instrPoolLen + (aux1.length + aux2.length + 3) ∧
      (∀ x ∈ aux1, (m1.instrPool x).isAddressComputation) ∧
      (m1.instrPool st).isStore x1
        (addressModeOf (m.getVRegSpillSlotOffsetFromSP x1.ID (bits / 8)).1 bits spVReg) bits ∧
      (m1.instrPool mv).isMove .fpuMov128 x1 x2 ∧
      (∀ x ∈ aux2, (m1.instrPool x).isAddressComputation) ∧
      (m1.instrPool ld).isReload (m.TypeOf x1) (x1.SetRealReg x2.RealReg)
        (addressModeOf (m.getVRegSpillSlotOffsetFromSP x1.ID (bits / 8)).1 bits spVReg) bits ∧
      (∀ i, i < m.instrPoolLen → i ≠ c → (m1.instrPool i).next = (m.instrPool i).next) ∧
      (∀ i, i < m.instrPoolLen → i ≠ n → (m1.instrPool i).prev = (m.instrPool i).prev) ∧
      (∀ i, i < m.instrPoolLen → (m1.instrPool i).body = (m.instrPool i).body) := by
  have hn := (hwf.next_prev hc hnext).1
  -- the store
  obtain ⟨ms, aux1, hruns, hss, hls, haux1, hlens, henvs, hbodys, hkinds, hst⟩ :=
    insertStoreRegisterAt_spec (Splicing.init m c n hc hn) x1 hx1 bits hbits (some c)
      true (by simp [insertionPoint, hnext, lastOf])
  simp only [lastOf, List.nil_append] at hruns hss
  -- the move
  obtain ⟨mm, hrunm, hsm, hlm, hlenm, henvm, hbodym, hmv⟩ :=
    emit_tail hss (fun i => i.asFpuMov128 x1 x2)
  rw [lastOf_append_singleton] at hrunm
  simp only [linkInstr_some, Res.bind] at hrunm
  -- the reload
  have henvm2 : mm.env = (m.getVRegSpillSlotOffsetFromSP x1.ID (bits / 8)).2.env :=
    henvm.trans henvs
  have htyp : mm.TypeOf (x1.SetRealReg x2.RealReg) = m.TypeOf x1 := by
    rw [TypeOf_SetRealReg]
    have h1 : mm.ssaTypeOfVRegID = (m.getVRegSpillSlotOffsetFromSP x1.ID (bits / 8)).2.ssaTypeOfVRegID :=
      congrArg (fun e => e.2.2.2.2.2.1) henvm2
    simp only [machine.TypeOf, h1, (getVRegSpillSlotOffsetFromSP_instrPool m x1.ID (bits / 8)).2.2.1]
  have hlast : lastOf c (aux1 ++ [m.instrPoolLen + aux1.length] ++ [ms.instrPoolLen])
      = ms.instrPoolLen := lastOf_append_singleton _ _ _
  obtain ⟨ml, aux2, hrunl, hsl, hll, haux2, hlenl, henvl, hbodyl, hkindl, hld⟩ :=
    insertReloadRegisterAt_spec hsm (x1.SetRealReg x2.RealReg)
      (by simpa [VReg.IsRealReg, VReg.SetRealReg, VReg.RealReg] using hx2) bits
      (by rw [htyp]; exact hbits) (some ms.instrPoolLen) true
      (by rw [hlast]; simp [insertionPoint, hlm.1])
  obtain ⟨hoff, hstable⟩ := getVRegSpillSlotOffsetFromSP_again m mm x1.ID (bits / 8) (bits / 8) henvm2
  have hid : (x1.SetRealReg x2.RealReg).ID = x1.ID := rfl
  rw [hid, hoff, htyp] at hld
  have hmm : mm = ((ms.allocateInstr.2.modifyInstr ms.instrPoolLen
      (fun i => i.asFpuMov128 x1 x2)).link (m.instrPoolLen + aux1.length)
        ms.instrPoolLen).link ms.instrPoolLen n := by
    have := hrunm
    simp only [Res.ok.injEq, true_and] at this
    exact this.symm
  have hrun : m.swap (some c) x1 x2 tmp = .ok () ml := by
    unfold machine.swap
    simp only [hfloat, if_false, htmp, Bool.not_false, if_true, hnext]
    rw [hruns]
    simp only [Res.bind, hls.2, allocateInstr_fst, linkInstr_some]
    rw [← hmm, hrunl]
  have hst2 : m.instrPoolLen + aux1.length < mm.instrPoolLen := by omega
  have hmv2 : ms.instrPoolLen < mm.instrPoolLen := by omega
  refine ⟨ml, aux1, aux2, m.instrPoolLen + aux1.length, ms.instrPoolLen,
    mm.instrPoolLen + aux2.length, hrun, ?_, ?_, ?_, ?_, ?_, ?_, ?_, ?_, hsl.hnext, hsl.hprev,
    hsl.hbody⟩
  · have := hsl.linkedPath_closed (by rw [lastOf_append_singleton]; exact hll)
    simpa using this
  · have e := range'_assemble m.instrPoolLen aux1.length aux2.length
    rw [hlenm, hlens] at haux2 ⊢
    rw [haux1, haux2]
    simp only [List.length_range']
    exact e
  · omega
  · intro x hx
    have hx2 : x < m.instrPoolLen + aux1.length := by
      rw [haux1, List.mem_range'_1] at hx
      exact hx.2
    exact isAddressComputation_of_body
      ((hbodyl x (by omega)).trans (hbodym x (by omega))) (hkinds x hx)
  · exact isStore_of_body
      (((hbodyl _ hst2).trans (hbodym _ (by omega))).trans hst) ⟨rfl, rfl, rfl, rfl⟩
  · exact isMove_of_body ((hbodyl _ hmv2).trans hmv) ⟨rfl, rfl, rfl⟩
  · exact hkindl
  · exact isReload_of_body hld (asReload_isReload _ _ _ _ _ hbits)

/-! ## Execution of the instructions that swap emits -/

theorem emittedBetween_of_path (m : machine) (n : Nat) :
    ∀ (new : List Nat) (c fuel : Nat), LinkedPath m (c :: (new ++ [n])) → n ∉ new →
      new.length + 1 ≤ fuel → emittedBetween m fuel c n = some new := by
  intro new
  induction new with
  | nil =>
    intro c fuel hp _ hfuel
    obtain ⟨fuel, rfl⟩ : ∃ j, fuel = j + 1 := ⟨fuel - 1, by simp at hfuel; omega⟩
    have h1 : (m.instrPool c).next = some n := hp.1.1
    simp [emittedBetween, h1]
  | cons x xs ih =>
    intro c fuel hp hn hfuel
    obtain ⟨fuel, rfl⟩ : ∃ j, fuel = j + 1 := ⟨fuel - 1, by simp at hfuel; omega⟩
    have h1 : (m.instrPool c).next = some x := hp.1.1
    have hxn : x ≠ n := fun h => hn (h ▸ List.mem_cons_self _ _)
    have h2 := ih x fuel hp.2 (fun h => hn (List.mem_cons_of_mem _ h))
      (by simp at hfuel ⊢; omega)
    simp [emittedBetween, h1, hxn, h2]

theorem execInstrs_append (m : machine) (l1 l2 : List Nat) (s : ExecState) :
    execInstrs m (l1 ++ l2) s = (execInstrs m l1 s).bind (execInstrs m l2) := by
  induction l1 generalizing s with
  | nil => rfl
  | cons x xs ih =>
    simp only [List.cons_append, execInstrs]
    cases execInstr (m.instrPool x) s with
    | none => rfl
    | some s1 => simpa using ih s1

theorem execInstr_isMove {i : instruction} {k : instructionKind} {rd rn : VReg}
    (h : i.isMove k rd rn) (hk : k = .mov64 ∨ k = .fpuMov128) (s : ExecState) :
    execInstr i s
      = some { s with regs := Function.update s.regs rd.RealReg (s.regs rn.RealReg) } := by
  obtain ⟨h1, h2, h3⟩ := h
  rcases hk with hk | hk <;> subst hk <;> simp [execInstr, h1, h2, h3]

theorem execInstrs_addressComputation (m : machine) :
    ∀ (l : List Nat) (s : ExecState), (∀ x ∈ l, (m.instrPool x).isAddressComputation) →
      ∃ s1, execInstrs m l s = some s1 ∧ s1.slots = s.slots ∧
        ∀ r, r ≠ tmpRegVReg.RealReg → s1.regs r = s.regs r := by
  intro l
  induction l with
  | nil => intro s _; exact ⟨s, rfl, rfl, fun _ _ => rfl⟩
  | cons x xs ih =>
    intro s h
    obtain ⟨hk, hr⟩ := h x (List.mem_cons_self _ _)
    obtain ⟨s1, h1, h2, h3⟩ := ih
      { s with regs := Function.update s.regs tmpRegVReg.RealReg (m.instrPool x).u1.toNat }
      (fun y hy => h y (List.mem_cons_of_mem _ hy))
    refine ⟨s1, ?_, h2, ?_⟩
    · simp only [execInstrs, execInstr, hk, hr, Option.some_bind]
      exact h1
    · intro r hr2
      rw [h3 r hr2]
      simp [Function.update_apply, hr2]

theorem execInstr_isStore {i : instruction} {v : VReg} {amode : addressMode} {bits : Nat}
    (h : i.isStore v amode bits) (s : ExecState) :
    execInstr i s = some { s with
      slots := Function.update s.slots amode.imm (s.regs v.RealReg % 2 ^ bits) } := by
  obtain ⟨h1, h2, h3, h4⟩ := h
  simp [execInstr, h1, h2, h3, h4]

theorem execInstr_isReload {i : instruction} {typ : ssaType} {v : VReg} {amode : addressMode}
    {bits : Nat} (h : i.isReload typ v amode bits) (s : ExecState) :
    execInstr i s = some { s with
      regs := Function.update s.regs v.RealReg (s.slots amode.imm % 2 ^ bits) } := by
  obtain ⟨h1, h2, h3, h4⟩ := h
  by_cases ht : typ = .TypeI32 ∨ typ = .TypeI64
  · simp only [ht, if_true] at h1
    simp [execInstr, h1, h2, h3, h4]
  · simp only [ht, if_false] at h1
    simp [execInstr, h1, h2, h3, h4]

/-- The execution of the three-move rotate. -/
theorem exec_rotate (m1 : machine) (a b d : Nat) (k : instructionKind) (x1 x2 t : VReg)
    (hk : k = .mov64 ∨ k = .fpuMov128)
    (h1 : (m1.instrPool a).isMove k t x1) (h2 : (m1.instrPool b).isMove k x1 x2)
    (h3 : (m1.instrPool d).isMove k x2 t) (s : ExecState) :
    ∃ s1, execInstrs m1 [a, b, d] s = some s1 ∧
      (∀ r, r ≠ x1.RealReg → r ≠ x2.RealReg → r ≠ t.RealReg → s1.regs r = s.regs r) ∧
      (x1.RealReg ≠ x2.RealReg → t.RealReg ≠ x1.RealReg → t.RealReg ≠ x2.RealReg →
        s1.regs x1.RealReg = s.regs x2.RealReg ∧ s1.regs x2.RealReg = s.regs x1.RealReg) := by
  simp only [execInstrs, execInstr_isMove h1 hk, execInstr_isMove h2 hk,
    execInstr_isMove h3 hk, Option.some_bind]
  refine ⟨_, rfl, ?_, ?_⟩
  · intro r hr1 hr2 hr3
    simp [Function.update_apply, hr1, hr2, hr3]
  · intro h12 ht1 ht2
    have h21 : x2.RealReg ≠ x1.RealReg := fun h => h12 h.symm
    have h1t : x1.RealReg ≠ t.RealReg := fun h => ht1 h.symm
    have h2t : x2.RealReg ≠ t.RealReg := fun h => ht2 h.symm
    simp [Function.update_apply, h12, h21, ht1, ht2, h1t, h2t]

/-- The execution of the memory-mediated swap. -/
theorem exec_fallback (m1 : machine) (aux1 aux2 : List Nat) (st mv ld : Nat)
    (x1 x2 : VReg) (typ : ssaType) (amode : addressMode) (bits : Nat)
    (ha1 : ∀ x ∈ aux1, (m1.instrPool x).isAddressComputation)
    (hst : (m1.instrPool st).isStore x1 amode bits)
    (hmv : (m1.instrPool mv).isMove .fpuMov128 x1 x2)
    (ha2 : ∀ x ∈ aux2, (m1.instrPool x).isAddressComputation)
    (hld : (m1.instrPool ld).isReload typ (x1.SetRealReg x2.RealReg) amode bits)
    (s : ExecState) :
    ∃ s1, execInstrs m1 (aux1 ++ [st] ++ [mv] ++ aux2 ++ [ld]) s = some s1 ∧
      (∀ r, r ≠ x1.RealReg → r ≠ x2.RealReg → r ≠ tmpRegVReg.RealReg →
        s1.regs r = s.regs r) ∧
      (x1.RealReg ≠ x2.RealReg → tmpRegVReg.RealReg ≠ x1.RealReg →
        tmpRegVReg.RealReg ≠ x2.RealReg →
        s1.regs x1.RealReg = s.regs x2.RealReg ∧
          s1.regs x2.RealReg = s.regs x1.RealReg % 2 ^ bits) := by
  obtain ⟨sa, e1, hsl1, hr1⟩ := execInstrs_addressComputation m1 aux1 s ha1
  obtain ⟨sb, e2, hsl2, hr2⟩ := execInstrs_addressComputation m1 aux2
    { regs := Function.update sa.regs x1.RealReg (sa.regs x2.RealReg)
      slots := Function.update sa.slots amode.imm (sa.regs x1.RealReg % 2 ^ bits) } ha2
  have hrr : (x1.SetRealReg x2.RealReg).RealReg = x2.RealReg := rfl
  simp only [execInstrs_append, e1, Option.some_bind, execInstrs, execInstr_isStore hst,
    execInstr_isMove hmv (Or.inr rfl), e2, execInstr_isReload hld, hrr]
  refine ⟨_, rfl, ?_, ?_⟩
  · intro r h1 h2 h3
    simp only [Function.update_apply, h2, if_false]
    rw [hr2 r h3]
    simp only [Function.update_apply, h1, if_false]
    exact hr1 r h3
  · intro h12 ht1 ht2
    have h1t : x1.RealReg ≠ tmpRegVReg.RealReg := fun h => ht1 h.symm
    have h2t : x2.RealReg ≠ tmpRegVReg.RealReg := fun h => ht2 h.symm
    refine ⟨?_, ?_⟩
    · simp only [Function.update_apply, h12, if_false]
      rw [hr2 _ h1t]
      simp only [Function.update_apply, if_true]
      exact hr1 _ h2t
    · simp only [Function.update_apply, if_true, hsl2]
      rw [hr1 _ h1t]
      exact Nat.mod_mod _ _

/-- What executing the instructions that `swap` emits does to the registers. -/
theorem swap_exec (m : machine) (c n : Nat) (x1 x2 tmp : VReg) (bits : Nat)
    (hwf : m.WellFormed) (hc : c < m.instrPoolLen) (hnext : (m.instrPool c).next = some n)
    (hfb : swapUsesSpill x1 tmp = true →
      x1.IsRealReg = true ∧ x2.IsRealReg = true ∧ (m.TypeOf x1).Bits = some bits) :
    ∃ m1 emitted, m.swap (some c) x1 x2 tmp = .ok () m1 ∧
      emittedBetween m1 m1.instrPoolLen c n = some emitted ∧
      ∀ s, ∃ s1, execInstrs m1 emitted s = some s1 ∧
        (∀ r, r ≠ x1.RealReg → r ≠ x2.RealReg → r ≠ (scratchOf tmp).RealReg →
          s1.regs r = s.regs r) ∧
        (x1.RealReg ≠ x2.RealReg → (scratchOf tmp).RealReg ≠ x1.RealReg →
          (scratchOf tmp).RealReg ≠ x2.RealReg →
          s1.regs x1.RealReg = s.regs x2.RealReg ∧
            s1.regs x2.RealReg =
              if swapUsesSpill x1 tmp then s.regs x1.RealReg % 2 ^ bits
              else s.regs x1.RealReg) := by
  have hn := (hwf.next_prev hc hnext).1
  by_cases hsp : swapUsesSpill x1 tmp = true
  · obtain ⟨hx1, hx2, hbits⟩ := hfb hsp
    have hfloat : x1.RegType ≠ .RegTypeInt := by
      intro h
      simp [swapUsesSpill, h] at hsp
    have htmp : tmp.Valid = false := by
      cases hv : tmp.Valid
      · rfl
      · simp [swapUsesSpill, hv] at hsp
    obtain ⟨m1, aux1, aux2, st, mv, ld, hrun, hpath, hrange, hlen, ha1, hst, hmv, ha2, hld, -⟩ :=
      swap_fallback_spec m c n x1 x2 tmp bits hwf hc hnext hfloat hx1 hx2 htmp hbits
    have hscr : scratchOf tmp = tmpRegVReg := by simp [scratchOf, htmp]
    refine ⟨m1, aux1 ++ [st] ++ [mv] ++ aux2 ++ [ld], hrun, ?_, ?_⟩
    · apply emittedBetween_of_path m1 n _ c _ hpath
      · rw [hrange, List.mem_range'_1]
        omega
      · rw [hlen]
        have := congrArg List.length hrange
        simp only [List.length_range'] at this
        omega
    · intro s
      obtain ⟨s1, e, hframe, hswap⟩ := exec_fallback m1 aux1 aux2 st mv ld x1 x2 _ _ bits
        ha1 hst hmv ha2 hld s
      refine ⟨s1, e, ?_, ?_⟩
      · rw [hscr]; exact hframe
      · rw [hscr]
        simpa only [hsp, if_true] using hswap
  · have hcase : x1.RegType = .RegTypeInt ∨ tmp.Valid = true := by
      by_cases h1 : x1.RegType = .RegTypeInt
      · exact Or.inl h1
      · right
        cases hv : tmp.Valid
        · simp [swapUsesSpill, h1, hv] at hsp
        · rfl
    obtain ⟨m1, hrun, hlen, hpath, hm1, hm2, hm3, -⟩ :=
      swap_rotate_spec m c n x1 x2 tmp hwf hc hnext hcase
    refine ⟨m1, [m.instrPoolLen, m.instrPoolLen + 1, m.instrPoolLen + 2], hrun, ?_, ?_⟩
    · apply emittedBetween_of_path m1 n _ c _ hpath
      · simp only [List.mem_cons, List.mem_singleton, List.not_mem_nil, or_false]
        omega
      · rw [hlen]
        simp only [List.length_cons, List.length_nil]
        omega
    · intro s
      obtain ⟨s1, e, hframe, hswap⟩ := exec_rotate m1 _ _ _ _ x1 x2 _
        (by by_cases h : x1.RegType = .RegTypeInt <;> simp [h]) hm1 hm2 hm3 s
      refine ⟨s1, e, hframe, ?_⟩
      simpa only [hsp, Bool.false_eq_true, if_false] using hswap

/-- C3 (amended): for two distinct real registers `x1` and `x2` holding `A` and `B`, when
the scratch register in use (`tmp` when valid, the reserved `tmpRegVReg` otherwise) is
distinct from both, executing in chain order the instructions that `swap` emits leaves
`x1` holding `B` and `x2` holding `A`, for the integer rotate, the vector rotate and the
memory-mediated fallback; in the fallback `x1` and `x2` are real-register-backed and the
value type of `x1` is supported, and `x2` holds the low bits of `A`, of the width of that
type. -/
theorem swap_exchanges_registers (m : machine) (c n : Nat) (x1 x2 tmp : VReg) (bits : Nat)
    (hwf : m.WellFormed) (hc : c < m.instrPoolLen) (hnext : (m.instrPool c).next = some n)
    (hdist : x1.RealReg ≠ x2.RealReg)
    (ht1 : (scratchOf tmp).RealReg ≠ x1.RealReg) (ht2 : (scratchOf tmp).RealReg ≠ x2.RealReg)
    (hfb : swapUsesSpill x1 tmp = true →
      x1.IsRealReg = true ∧ x2.IsRealReg = true ∧ (m.TypeOf x1).Bits = some bits) :
    ∃ m1 emitted, m.swap (some c) x1 x2 tmp = .ok () m1 ∧
      emittedBetween m1 m1.instrPoolLen c n = some emitted ∧
      ∀ s, ∃ s1, execInstrs m1 emitted s = some s1 ∧
        s1.regs x1.RealReg = s.regs x2.RealReg ∧
        s1.regs x2.RealReg =
          if swapUsesSpill x1 tmp then s.regs x1.RealReg % 2 ^ bits else s.regs x1.RealReg := by
  obtain ⟨m1, emitted, hrun, hem, hex⟩ := swap_exec m c n x1 x2 tmp bits hwf hc hnext hfb
  refine ⟨m1, emitted, hrun, hem, fun s => ?_⟩
  obtain ⟨s1, e, -, hswap⟩ := hex s
  exact ⟨s1, e, hswap hdist ht1 ht2⟩

/-- C4 (amended): executing the instructions that `swap` emits leaves every register other
than `x1`, `x2` and the scratch register in use (`tmp` when valid, the reserved
`tmpRegVReg` otherwise) holding the value it held before the swap. -/
theorem swap_preserves_other_registers (m : machine) (c n : Nat) (x1 x2 tmp : VReg)
    (bits : Nat) (hwf : m.WellFormed) (hc : c < m.instrPoolLen)
    (hnext : (m.instrPool c).next = some n)
    (hfb : swapUsesSpill x1 tmp = true →
      x1.IsRealReg = true ∧ x2.IsRealReg = true ∧ (m.TypeOf x1).Bits = some bits) :
    ∃ m1 emitted, m.swap (some c) x1 x2 tmp = .ok () m1 ∧
      emittedBetween m1 m1.instrPoolLen c n = some emitted ∧
      ∀ s, ∃ s1, execInstrs m1 emitted s = some s1 ∧
        ∀ r, r ≠ x1.RealReg → r ≠ x2.RealReg → r ≠ (scratchOf tmp).RealReg →
          s1.regs r = s.regs r := by
  obtain ⟨m1, emitted, hrun, hem, hex⟩ := swap_exec m c n x1 x2 tmp bits hwf hc hnext hfb
  refine ⟨m1, emitted, hrun, hem, fun s => ?_⟩
  obtain ⟨s1, e, hframe, -⟩ := hex s
  exact ⟨s1, e, hframe⟩

/-! ## Spill store followed by reload -/

/-- C5: for a real-register-backed VReg `v` of a supported type (I32, I64, F32, F64 or V128,
of width `bits`), the store that `insertStoreRegisterAt` emits for `v` and the load that
`insertReloadRegisterAt` then emits for `v` use the same address mode, resolved for the
same spill-slot offset from the stack pointer, and the same access width, so that the
store followed by the reload reads back exactly the bits that were stored. -/
theorem spill_store_reload_same_slot (m : machine) (v : VReg) (bits : Nat) (ins : Nat)
    (after : Bool) (c n : Nat)
    (hip : insertionPoint m (some ins) after = some (some c, some n))
    (hc : c < m.instrPoolLen) (hn : n < m.instrPoolLen) (hreal : v.IsRealReg = true)
    (hbits : (m.TypeOf v).Bits = some bits) :
    ∃ ms st, m.insertStoreRegisterAt v (some ins) after = .ok (some n) ms ∧
      (ms.instrPool st).isStore v
        (addressModeOf (m.getVRegSpillSlotOffsetFromSP v.ID (bits / 8)).1 bits spVReg) bits ∧
      (ms.getVRegSpillSlotOffsetFromSP v.ID (bits / 8)).1
        = (m.getVRegSpillSlotOffsetFromSP v.ID (bits / 8)).1 ∧
      ∀ (ins2 : Nat) (after2 : Bool) (c2 n2 : Nat),
        insertionPoint ms (some ins2) after2 = some (some c2, some n2) →
        c2 < ms.instrPoolLen → n2 < ms.instrPoolLen →
        ∃ ml ld, ms.insertReloadRegisterAt v (some ins2) after2 = .ok (some n2) ml ∧
          (ml.instrPool st).isStore v
            (addressModeOf (m.getVRegSpillSlotOffsetFromSP v.ID (bits / 8)).1 bits spVReg)
            bits ∧
          (ml.instrPool ld).isReload (m.TypeOf v) v
            (addressModeOf (m.getVRegSpillSlotOffsetFromSP v.ID (bits / 8)).1 bits spVReg)
            bits ∧
          ∀ s s1, execInstr (ml.instrPool st) s = some s1 →
            ∃ s2, execInstr (ml.instrPool ld) s1 = some s2 ∧
              s2.regs v.RealReg = s.regs v.RealReg % 2 ^ bits := by
  obtain ⟨ms, aux, hruns, hss, hls, haux, hlens, henvs, hbodys, hkinds, hst⟩ :=
    insertStoreRegisterAt_spec (Splicing.init m c n hc hn) v hreal bits hbits (some ins) after
      (by simpa [lastOf] using hip)
  obtain ⟨hoff, -⟩ := getVRegSpillSlotOffsetFromSP_again m ms v.ID (bits / 8) (bits / 8) henvs
  have hstore : (ms.instrPool (m.instrPoolLen + aux.length)).isStore v
      (addressModeOf (m.getVRegSpillSlotOffsetFromSP v.ID (bits / 8)).1 bits spVReg) bits :=
    isStore_of_body hst ⟨rfl, rfl, rfl, rfl⟩
  have htyp : ms.TypeOf v = m.TypeOf v := by
    have h1 : ms.ssaTypeOfVRegID
        = (m.getVRegSpillSlotOffsetFromSP v.ID (bits / 8)).2.ssaTypeOfVRegID :=
      congrArg (fun e => e.2.2.2.2.2.1) henvs
    simp only [machine.TypeOf, h1,
      (getVRegSpillSlotOffsetFromSP_instrPool m v.ID (bits / 8)).2.2.1]
  refine ⟨ms, m.instrPoolLen + aux.length, hruns, hstore, hoff, ?_⟩
  intro ins2 after2 c2 n2 hip2 hc2 hn2
  obtain ⟨ml, aux2, hrunl, hsl, hll, haux2, hlenl, henvl, hbodyl, hkindl, hld⟩ :=
    insertReloadRegisterAt_spec (Splicing.init ms c2 n2 hc2 hn2) v hreal bits
      (by rw [htyp]; exact hbits) (some ins2) after2 (by simpa [lastOf] using hip2)
  rw [hoff, htyp] at hld
  have hstore2 : (ml.instrPool (m.instrPoolLen + aux.length)).isStore v
      (addressModeOf (m.getVRegSpillSlotOffsetFromSP v.ID (bits / 8)).1 bits spVReg) bits :=
    isStore_of_body (hbodyl _ (by omega)) hstore
  have hload := isReload_of_body hld (asReload_isReload _ _ _ _ _ hbits)
  refine ⟨ml, ms.instrPoolLen + aux2.length, hrunl, hstore2, hload, ?_⟩
  intro s s1 hs1
  rw [execInstr_isStore hstore2] at hs1
  simp only [Option.some.injEq] at hs1
  subst hs1
  rw [execInstr_isReload hload]
  refine ⟨_, rfl, ?_⟩
  simp [Function.update_apply]

/-! ## The anchor for insertion at the end of a block -/

theorem lastOf_mem_of_ne_nil (c : Nat) (l : List Nat) (h : l ≠ []) : lastOf c l ∈ l := by
  cases l with
  | nil => exact absurd rfl h
  | cons x xs => exact lastOf_mem x xs

theorem lastOf_reverse_cons (b : Nat) (l : List Nat) :
    ∃ r0 rl, (b :: l).reverse = r0 :: rl ∧ r0 = lastOf b l ∧ lastOf r0 rl = b ∧
      (l ≠ [] → rl ≠ []) := by
  induction l generalizing b with
  | nil => exact ⟨b, [], rfl, rfl, rfl, fun h => absurd rfl h⟩
  | cons x xs ih =>
    obtain ⟨r0, rl, h1, h2, h3, h4⟩ := ih x
    refine ⟨r0, rl ++ [b], ?_, ?_, ?_, fun _ => by simp⟩
    · rw [List.reverse_cons, h1]; rfl
    · simpa [lastOf] using h2
    · exact lastOf_append_singleton _ _ _

theorem LinkedPath.chain_prev {m : machine} {l : List Nat} (h : LinkedPath m l) :
    List.Chain' (fun a b => (m.instrPool b).prev = some a) l := by
  induction l with
  | nil => exact List.chain'_nil
  | cons a l ih =>
    cases l with
    | nil => exact List.chain'_singleton _
    | cons b l => exact List.chain'_cons.2 ⟨h.1.2, ih h.2⟩

/-- The loop of `lastInstrForInsertion` from the cursor `r0`, when the instructions from
the cursor back to `begin` are `r0 :: rl`, with `begin` before the cursor. -/
theorem lastInstrForInsertionLoop_spec (m : machine) (e : Nat) :
    ∀ (rl : List Nat) (r0 fuel : Nat),
      List.Chain' (fun a b => (m.instrPool a).prev = some b) (r0 :: rl) →
      (r0 :: rl).Nodup → rl ≠ [] → rl.length + 1 ≤ fuel →
      lastInstrForInsertionLoop m (some (lastOf r0 rl)) (some e) fuel (some r0)
        = .ok (some (lastInstrBeforeTrailingNops m e (r0 :: rl))) () := by
  intro rl
  induction rl with
  | nil => intro r0 fuel _ _ h; exact absurd rfl h
  | cons r1 rest ih =>
    intro r0 fuel hch hnd _ hfuel
    obtain ⟨fuel, rfl⟩ : ∃ j, fuel = j + 1 := ⟨fuel - 1, by simp at hfuel; omega⟩
    have hprev : (m.instrPool r0).prev = some r1 := (List.chain'_cons.1 hch).1
    have hnd2 : (r1 :: rest).Nodup := (List.nodup_cons.1 hnd).2
    by_cases hnop : (m.instrPool r0).kind = .nop0
    · by_cases hrest : rest = []
      · subst hrest
        by_cases h1 : (m.instrPool r1).kind = .nop0 <;>
          simp [lastInstrForInsertionLoop, hnop, hprev, lastOf, lastInstrBeforeTrailingNops,
            List.dropWhile, h1]
      · have hne : r1 ≠ lastOf r1 rest := fun h =>
          (List.nodup_cons.1 hnd2).1 (h ▸ lastOf_mem_of_ne_nil r1 rest hrest)
        have hrec := ih r1 fuel (List.chain'_cons.1 hch).2 hnd2 hrest
          (by simp at hfuel ⊢; omega)
        simp only [lastInstrForInsertionLoop, hnop, if_true, hprev, lastOf, Option.some.injEq,
          hne, if_false]
        rw [hrec]
        simp [lastInstrBeforeTrailingNops, List.dropWhile, hnop]
    · simp only [lastInstrForInsertionLoop, hnop, if_false]
      simp only [lastInstrBeforeTrailingNops, List.dropWhile, hnop, decide_False]
      split <;> rfl

/-- What `lastInstrForInsertion(begin, end)` returns for a block given by a well-formed
chain from `begin` to `end`, of at least two instructions or whose `end` is not a `nop0`. -/
theorem lastInstrForInsertion_spec (m : machine) (b : Nat) (l : List Nat) (fuel : Nat)
    (hp : LinkedPath m (b :: l)) (hnd : (b :: l).Nodup)
    (hdom : l ≠ [] ∨ (m.instrPool b).kind ≠ .nop0) (hfuel : l.length + 1 ≤ fuel) :
    lastInstrForInsertion m fuel (some b) (some (lastOf b l))
      = .ok (some (lastInstrBeforeTrailingNops m (lastOf b l) (b :: l).reverse)) () := by
  by_cases hl : l = []
  · subst hl
    have hk : (m.instrPool b).kind ≠ .nop0 := hdom.resolve_left (fun h => h rfl)
    obtain ⟨fuel, rfl⟩ : ∃ j, fuel = j + 1 := ⟨fuel - 1, by simp at hfuel; omega⟩
    simp only [lastInstrForInsertion, lastOf, lastInstrForInsertionLoop, hk, if_false,
      List.reverse_cons, List.reverse_nil, List.nil_append, lastInstrBeforeTrailingNops,
      List.dropWhile, decide_False]
    split <;> rfl
  · obtain ⟨r0, rl, h1, h2, h3, h4⟩ := lastOf_reverse_cons b l
    have hch : List.Chain' (fun a c => (m.instrPool a).prev = some c) (r0 :: rl) := by
      rw [← h1, List.chain'_reverse]
      exact hp.chain_prev
    have hnd2 : (r0 :: rl).Nodup := by
      rw [← h1]
      exact List.nodup_reverse.2 hnd
    have hlen : rl.length = l.length := by
      have := congrArg List.length h1
      simp only [List.length_reverse, List.length_cons] at this
      omega
    have := lastInstrForInsertionLoop_spec m (lastOf b l) rl r0 fuel hch hnd2 (h4 hl)
      (by omega)
    rw [h3, h2] at this
    rw [h1, h2]
    exact this

/-- C6 (amended): for a block given by a well-formed chain from `begin` to `end`, of at
least two instructions or whose `end` is not a `nop0`, `lastInstrForInsertion(begin, end)`
skips the maximal run of trailing `nop0` instructions ending at `end` and returns the
instruction immediately preceding that run whenever that instruction is a `br` other than
`begin`, and returns `end` in every other case (also when the run reaches back to
`begin`). -/
theorem lastInstrForInsertion_returns (m : machine) (b : Nat) (l : List Nat) (fuel : Nat)
    (hp : LinkedPath m (b :: l)) (hnd : (b :: l).Nodup)
    (hdom : l ≠ [] ∨ (m.instrPool b).kind ≠ .nop0) (hfuel : l.length + 1 ≤ fuel) :
    lastInstrForInsertion m fuel (some b) (some (lastOf b l))
      = .ok (some (lastInstrBeforeTrailingNops m (lastOf b l) (b :: l).reverse)) () :=
  lastInstrForInsertion_spec m b l fuel hp hnd hdom hfuel

/-! ## Failures of the mutation primitives -/

theorem Res.panicsOnlyWith.bind {σ α β : Type} {r : Res σ α} {f : α → σ → Res σ β}
    {P : PanicKind → Prop} (hr : r.panicsOnlyWith P)
    (hf : ∀ a s, (f a s).panicsOnlyWith P) : (r.bind f).panicsOnlyWith P := by
  intro k s h
  cases r with
  | ok a s1 => exact hf a s1 k s h
  | panic k1 s1 =>
    simp only [Res.bind, Res.panic.injEq] at h
    exact h.1 ▸ hr k1 s1 rfl
  | outOfFuel => simp [Res.bind] at h

theorem panicsOnlyWith_ok {σ α : Type} (a : α) (s : σ) (P : PanicKind → Prop) :
    (Res.ok a s : Res σ α).panicsOnlyWith P := by
  intro k s1 h
  simp at h

theorem Res.panicsOnlyWith.mono {σ α : Type} {r : Res σ α} {P Q : PanicKind → Prop}
    (hr : r.panicsOnlyWith P) (h : ∀ k, P k → Q k) : r.panicsOnlyWith Q :=
  fun k s hk => h k (hr k s hk)

theorem linkInstr_panicsOnlyWith (m : machine) (a b : Ptr) :
    (linkInstr m a b).panicsOnlyWith (fun k => k = .nilDeref) := by
  intro k s h
  cases a with
  | none => simp [linkInstr] at h; exact h.1.symm
  | some p =>
    cases b with
    | none => simp [linkInstr] at h; exact h.1.symm
    | some x => simp [linkInstr] at h

theorem linkPending_panicsOnlyWith (ps : List Nat) (m : machine) (cur : Ptr) :
    (linkPending ps m cur).panicsOnlyWith (fun k => k = .nilDeref) := by
  induction ps generalizing m cur with
  | nil => exact panicsOnlyWith_ok _ _ _
  | cons x xs ih =>
    exact (linkInstr_panicsOnlyWith m cur (some x)).bind (fun a s => ih s a)

theorem resolveAddressModeForOffsetAndInsert_panicsOnlyWith (m : machine) (cur : Ptr)
    (offset : Int) (dstBits : Nat) (rn : VReg) :
    (m.resolveAddressModeForOffsetAndInsert cur offset dstBits rn).panicsOnlyWith
      (fun k => k = .nilDeref) := by
  unfold machine.resolveAddressModeForOffsetAndInsert
  exact (linkPending_panicsOnlyWith _ _ _).bind (fun a s => panicsOnlyWith_ok _ _ _)

theorem swapRotate_panicsOnlyWith (m : machine) (cur prevNext : Ptr)
    (asMove : instruction → VReg → VReg → instruction) (x1 x2 tmp : VReg) :
    (m.swapRotate cur prevNext asMove x1 x2 tmp).panicsOnlyWith (fun k => k = .nilDeref) := by
  unfold machine.swapRotate
  exact (linkInstr_panicsOnlyWith _ _ _).bind (fun _ _ =>
    (linkInstr_panicsOnlyWith _ _ _).bind (fun _ _ =>
      (linkInstr_panicsOnlyWith _ _ _).bind (fun _ _ =>
        (linkInstr_panicsOnlyWith _ _ _).bind (fun _ _ => panicsOnlyWith_ok _ _ _))))

/-- A store of a real-register-backed VReg does not fail the real-register check. -/
theorem insertStoreRegisterAt_panicsOnlyWith (m : machine) (v : VReg) (instr : Ptr)
    (after : Bool) (hreal : v.IsRealReg = true) :
    (m.insertStoreRegisterAt v instr after).panicsOnlyWith (fun k => k ≠ .notRealReg) := by
  unfold machine.insertStoreRegisterAt
  simp only [hreal, Bool.not_true, Bool.false_eq_true, if_false]
  cases insertionPoint m instr after with
  | none => intro k s h; simp at h; rw [← h.1]; decide
  | some pr =>
    obtain ⟨cur, prevNext⟩ := pr
    cases hb : (m.TypeOf v).Bits with
    | none =>
      intro k s h
      simp [ssaType.Size, hb] at h
      rw [← h.1]; decide
    | some bits =>
      simp only [ssaType.Size, hb, Option.map_some']
      refine ((resolveAddressModeForOffsetAndInsert_panicsOnlyWith _ _ _ _ _).bind
        (fun r m2 => ?_)).mono (fun k hk => by rw [hk]; decide)
      exact (linkInstr_panicsOnlyWith _ _ _).bind (fun _ _ => linkInstr_panicsOnlyWith _ _ _)

/-- A reload of a real-register-backed VReg does not fail the real-register check. -/
theorem insertReloadRegisterAt_panicsOnlyWith (m : machine) (v : VReg) (instr : Ptr)
    (after : Bool) (hreal : v.IsRealReg = true) :
    (m.insertReloadRegisterAt v instr after).panicsOnlyWith (fun k => k ≠ .notRealReg) := by
  unfold machine.insertReloadRegisterAt
  simp only [hreal, Bool.not_true, Bool.false_eq_true, if_false]
  cases insertionPoint m instr after with
  | none => intro k s h; simp at h; rw [← h.1]; decide
  | some pr =>
    obtain ⟨cur, prevNext⟩ := pr
    cases hb : (m.TypeOf v).Bits with
    | none =>
      intro k s h
      simp [ssaType.Size, hb] at h
      rw [← h.1]; decide
    | some bits =>
      simp only [ssaType.Size, hb, Option.map_some']
      refine (((resolveAddressModeForOffsetAndInsert_panicsOnlyWith _ _ _ _ _).mono
        (fun k hk => by rw [hk]; decide)).bind (fun r m2 => ?_))
      cases m.TypeOf v <;>
        first
        | exact ((linkInstr_panicsOnlyWith _ _ _).bind
            (fun _ _ => linkInstr_panicsOnlyWith _ _ _)).mono (fun k hk => by rw [hk]; decide)
        | (intro k s h; simp at h; rw [← h.1]; decide)

theorem insertMoveBefore_panicsOnlyWith (m : machine) (dst src : VReg) (instr : Ptr)
    (hty : src.RegType = dst.RegType) :
    (m.insertMoveBefore dst src instr).panicsOnlyWith (fun k => k = .nilDeref) := by
  unfold machine.insertMoveBefore
  simp only [hty, ne_eq, not_true_eq_false, if_false]
  cases instr with
  | none => intro k s h; simp at h; exact h.1.symm
  | some ins =>
    simp only []
    split
    · intro k s h; simp at h; exact h.1.symm
    · exact (linkInstr_panicsOnlyWith _ _ _).bind (fun _ _ =>
        (linkInstr_panicsOnlyWith _ _ _).bind (fun _ _ => panicsOnlyWith_ok _ _ _))

/-- The memory-mediated swap with `x2` not backed by a real register fails in the reload,
after the store and the move have been spliced. -/
theorem swap_fallback_late_failure (m : machine) (c n : Nat) (x1 x2 tmp : VReg) (bits : Nat)
    (hwf : m.WellFormed) (hc : c < m.instrPoolLen) (hnext : (m.instrPool c).next = some n)
    (hsp : swapUsesSpill x1 tmp = true) (hx1 : x1.IsRealReg = true)
    (hbits : (m.TypeOf x1).Bits = some bits) (hx2 : x2.IsRealReg = false) :
    ∃ m2 new, m.swap (some c) x1 x2 tmp = .panic .notRealReg m2 ∧ new ≠ [] ∧
      LinkedPath m2 (c :: (new ++ [n])) ∧ (∀ x ∈ new, m.instrPoolLen ≤ x) := by
  have hn := (hwf.next_prev hc hnext).1
  have hfloat : x1.RegType ≠ .RegTypeInt := by
    intro h
    simp [swapUsesSpill, h] at hsp
  have htmp : tmp.Valid = false := by
    cases hv : tmp.Valid
    · rfl
    · simp [swapUsesSpill, hv] at hsp
  obtain ⟨ms, aux1, hruns, hss, hls, haux1, hlens, henvs, hbodys, hkinds, hst⟩ :=
    insertStoreRegisterAt_spec (Splicing.init m c n hc hn) x1 hx1 bits hbits (some c)
      true (by simp [insertionPoint, hnext, lastOf])
  simp only [lastOf, List.nil_append] at hruns hss
  obtain ⟨mm, hrunm, hsm, hlm, hlenm, henvm, hbodym, hmv⟩ :=
    emit_tail hss (fun i => i.asFpuMov128 x1 x2)
  rw [lastOf_append_singleton] at hrunm
  simp only [linkInstr_some, Res.bind] at hrunm
  have hmm : mm = ((ms.allocateInstr.2.modifyInstr ms.instrPoolLen
      (fun i => i.asFpuMov128 x1 x2)).link (m.instrPoolLen + aux1.length)
        ms.instrPoolLen).link ms.instrPoolLen n := by
    have := hrunm
    simp only [Res.ok.injEq, true_and] at this
    exact this.symm
  have hnotreal : (x1.SetRealReg x2.RealReg).IsRealReg = false := by
    simpa [VReg.IsRealReg, VReg.SetRealReg, VReg.RealReg] using hx2
  refine ⟨mm, aux1 ++ [m.instrPoolLen + aux1.length] ++ [ms.instrPoolLen], ?_, by simp, ?_, ?_⟩
  · unfold machine.swap
    simp only [hfloat, if_false, htmp, Bool.not_false, if_true, hnext]
    rw [hruns]
    simp only [Res.bind, hls.2, allocateInstr_fst, linkInstr_some]
    rw [← hmm]
    simp [machine.insertReloadRegisterAt, hnotreal]
  · exact hsm.linkedPath_closed (by rw [lastOf_append_singleton]; exact hlm)
  · intro x hx
    exact (hsm.hnew x hx).1

/-- A store that fails on the value type fails when the size of the type is taken, with
the machine as it was. -/
theorem insertStoreRegisterAt_invalidType (m m1 : machine) (v : VReg) (instr : Ptr)
    (after : Bool) (h : m.insertStoreRegisterAt v instr after = .panic .invalidType m1) :
    m1 = m := by
  unfold machine.insertStoreRegisterAt at h
  cases hreal : v.IsRealReg
  · simp [hreal] at h
  · simp only [hreal, Bool.not_true, Bool.false_eq_true, if_false] at h
    cases hip : insertionPoint m instr after with
    | none => simp [hip] at h
    | some pr =>
      obtain ⟨cur, prevNext⟩ := pr
      simp only [hip] at h
      cases hb : (m.TypeOf v).Bits with
      | none =>
        simp only [ssaType.Size, hb, Option.map_none', Res.panic.injEq, true_and] at h
        exact h.symm
      | some bits =>
        simp only [ssaType.Size, hb, Option.map_some'] at h
        have hp : ((m.getVRegSpillSlotOffsetFromSP v.ID (bits / 8)).2.resolveAddressModeForOffsetAndInsert
            cur (m.getVRegSpillSlotOffsetFromSP v.ID (bits / 8)).1 bits spVReg).bind
            (fun r m2 =>
              (linkInstr (m2.allocateInstr.2.modifyInstr m2.allocateInstr.1
                (fun i => i.asStore v r.2 bits)) r.1 (some m2.allocateInstr.1)).bind
                (fun cur1 m5 => linkInstr m5 cur1 prevNext)) |>.panicsOnlyWith
              (fun k => k = .nilDeref) :=
          (resolveAddressModeForOffsetAndInsert_panicsOnlyWith _ _ _ _ _).bind
            (fun r m2 => (linkInstr_panicsOnlyWith _ _ _).bind
              (fun _ _ => linkInstr_panicsOnlyWith _ _ _))
        exact absurd (hp _ _ h) (by decide)

/-- A reload that fails on the value type fails when the size of the type is taken, with
the machine as it was; the default branch of its `switch` is not reached. -/
theorem insertReloadRegisterAt_invalidType (m m1 : machine) (v : VReg) (instr : Ptr)
    (after : Bool) :
    (m.insertReloadRegisterAt v instr after = .panic .invalidType m1 → m1 = m) ∧
    m.insertReloadRegisterAt v instr after ≠ .panic .todoType m1 := by
  have key : ∀ k, k = PanicKind.invalidType ∨ k = PanicKind.todoType →
      m.insertReloadRegisterAt v instr after = .panic k m1 →
      k = .invalidType ∧ m1 = m := by
    intro k hk h
    unfold machine.insertReloadRegisterAt at h
    cases hreal : v.IsRealReg
    · simp only [hreal, Bool.not_false, if_true, Res.panic.injEq] at h
      rcases hk with hk | hk <;> simp [hk] at h
    · simp only [hreal, Bool.not_true, Bool.false_eq_true, if_false] at h
      cases hip : insertionPoint m instr after with
      | none =>
        simp only [hip, Res.panic.injEq] at h
        rcases hk with hk | hk <;> simp [hk] at h
      | some pr =>
        obtain ⟨cur, prevNext⟩ := pr
        simp only [hip] at h
        cases hb : (m.TypeOf v).Bits with
        | none =>
          simp only [ssaType.Size, hb, Option.map_none', Res.panic.injEq] at h
          exact ⟨h.1.symm, h.2.symm⟩
        | some bits =>
          exfalso
          simp only [ssaType.Size, hb, Option.map_some'] at h
          have hnil : k = .nilDeref := by
            revert h
            cases ht : m.TypeOf v <;> intro h
            · simp [ht, ssaType.Bits] at hb
            all_goals
              exact ((resolveAddressModeForOffsetAndInsert_panicsOnlyWith _ _ _ _ _).bind
                (fun r m2 => (linkInstr_panicsOnlyWith _ _ _).bind
                  (fun _ _ => linkInstr_panicsOnlyWith _ _ _))) _ _ h
          rcases hk with hk | hk <;> simp [hk] at hnil
  refine ⟨fun h => (key _ (Or.inl rfl) h).2, fun h => ?_⟩
  have := (key _ (Or.inr rfl) h).1
  simp at this

/-- On a well-formed chain `swap` fails on the value type only in its store, with the
machine as it was. -/
theorem swap_invalidType (m m1 : machine) (c n : Nat) (x1 x2 tmp : VReg) (hwf : m.WellFormed)
    (hc : c < m.instrPoolLen) (hnext : (m.instrPool c).next = some n)
    (h : m.swap (some c) x1 x2 tmp = .panic .invalidType m1) : m1 = m := by
  have h0 := h
  unfold machine.swap at h
  simp only [] at h
  split at h
  · exact absurd (swapRotate_panicsOnlyWith _ _ _ _ _ _ _ _ _ h) (by decide)
  · rename_i hfloat
    split at h
    · rename_i htmp
      have htmp2 : tmp.Valid = false := by simpa using htmp
      have hsp : swapUsesSpill x1 tmp = true := by simp [swapUsesSpill, hfloat, htmp2]
      cases hstore : m.insertStoreRegisterAt x1 (some c) true with
      | panic k s =>
        rw [hstore] at h
        simp only [Res.bind, Res.panic.injEq] at h
        rw [h.1, h.2] at hstore
        exact insertStoreRegisterAt_invalidType m m1 x1 (some c) true hstore
      | outOfFuel =>
        rw [hstore] at h
        simp [Res.bind] at h
      | ok r ms =>
        exfalso
        have hx1 : x1.IsRealReg = true := by
          cases hx : x1.IsRealReg
          · simp [machine.insertStoreRegisterAt, hx] at hstore
          · rfl
        have hbits : ∃ bits, (m.TypeOf x1).Bits = some bits := by
          cases hb : (m.TypeOf x1).Bits with
          | none =>
            simp [machine.insertStoreRegisterAt, hx1, insertionPoint, hnext, ssaType.Size, hb]
              at hstore
          | some bits => exact ⟨bits, rfl⟩
        obtain ⟨bits, hbits⟩ := hbits
        cases hx2 : x2.IsRealReg
        · obtain ⟨m2, new, hfail, -⟩ :=
            swap_fallback_late_failure m c n x1 x2 tmp bits hwf hc hnext hsp hx1 hbits hx2
          rw [h0] at hfail
          simp at hfail
        · obtain ⟨m2, _, _, _, _, _, hrun, -⟩ :=
            swap_fallback_spec m c n x1 x2 tmp bits hwf hc hnext hfloat hx1 hx2 htmp2 hbits
          rw [h0] at hrun
          simp at hrun
    · exact absurd (swapRotate_panicsOnlyWith _ _ _ _ _ _ _ _ _ h) (by decide)

/-- C8 (amended): when `insertMoveBefore` fails its same-class check, or
`insertStoreRegisterAt` or `insertReloadRegisterAt` fails its real-register check or fails
on a value type that is not supported, or `swap` fails through the store of an `x1` that
is not real-register-backed or (on a well-formed chain) on a value type that is not
supported, the machine at the moment of the failure, and with it the instruction chain, is
identical to the one before the call; the unsupported type fails when its size is taken,
and the default branch of the `switch` of the reload is not reached. But the
memory-mediated `swap` with `x2` not real-register-backed fails through the reload only
after the store and the move have been spliced between `cur` and its successor. -/
theorem precondition_failures_and_chain (m m1 : machine) (dst src v x1 x2 tmp : VReg)
    (instr : Ptr) (after : Bool) :
    (m.insertMoveBefore dst src instr = .panic .srcDstType m1 → m1 = m) ∧
    (m.insertStoreRegisterAt v instr after = .panic .notRealReg m1 → m1 = m) ∧
    (m.insertReloadRegisterAt v instr after = .panic .notRealReg m1 → m1 = m) ∧
    (x1.IsRealReg = false → m.swap instr x1 x2 tmp = .panic .notRealReg m1 → m1 = m) ∧
    (∀ c n bits, m.WellFormed → c < m.instrPoolLen → (m.instrPool c).next = some n →
      swapUsesSpill x1 tmp = true → x1.IsRealReg = true → (m.TypeOf x1).Bits = some bits →
      x2.IsRealReg = false →
      ∃ m2 new, m.swap (some c) x1 x2 tmp = .panic .notRealReg m2 ∧ new ≠ [] ∧
        LinkedPath m2 (c :: (new ++ [n])) ∧ (∀ x ∈ new, m.instrPoolLen ≤ x)) ∧
    (m.insertStoreRegisterAt v instr after = .panic .invalidType m1 → m1 = m) ∧
    (m.insertReloadRegisterAt v instr after = .panic .invalidType m1 → m1 = m) ∧
    m.insertReloadRegisterAt v instr after ≠ .panic .todoType m1 ∧
    (∀ c n, m.WellFormed → c < m.instrPoolLen → (m.instrPool c).next = some n →
      m.swap (some c) x1 x2 tmp = .panic .invalidType m1 → m1 = m) := by
  refine ⟨?_, ?_, ?_, ?_, ?_, insertStoreRegisterAt_invalidType m m1 v instr after,
    (insertReloadRegisterAt_invalidType m m1 v instr after).1,
    (insertReloadRegisterAt_invalidType m m1 v instr after).2,
    fun c n hwf hc hnext => swap_invalidType m m1 c n x1 x2 tmp hwf hc hnext⟩
  · intro h
    by_cases hty : src.RegType = dst.RegType
    · have := insertMoveBefore_panicsOnlyWith m dst src instr hty _ _ h
      exact absurd this (by decide)
    · simp only [machine.insertMoveBefore, ne_eq, hty, not_false_eq_true, if_true,
        Res.panic.injEq, true_and] at h
      exact h.symm
  · intro h
    cases hreal : v.IsRealReg
    · simp only [machine.insertStoreRegisterAt, hreal, Bool.not_false, if_true,
        Res.panic.injEq, true_and] at h
      exact h.symm
    · exact absurd rfl (insertStoreRegisterAt_panicsOnlyWith m v instr after hreal _ _ h)
  · intro h
    cases hreal : v.IsRealReg
    · simp only [machine.insertReloadRegisterAt, hreal, Bool.not_false, if_true,
        Res.panic.injEq, true_and] at h
      exact h.symm
    · exact absurd rfl (insertReloadRegisterAt_panicsOnlyWith m v instr after hreal _ _ h)
  · intro hx1 h
    unfold machine.swap at h
    cases instr with
    | none => simp at h
    | some c =>
      simp only [] at h
      split at h
      · exact absurd (swapRotate_panicsOnlyWith _ _ _ _ _ _ _ _ _ h) (by decide)
      · split at h
        · simp only [machine.insertStoreRegisterAt, hx1, Bool.not_false, if_true, Res.bind,
            Res.panic.injEq, true_and] at h
          exact h.symm
        · exact absurd (swapRotate_panicsOnlyWith _ _ _ _ _ _ _ _ _ h) (by decide)
  · intro c n bits hwf hc hnext hsp hx1 hbits hx2
    exact swap_fallback_late_failure m c n x1 x2 tmp bits hwf hc hnext hsp hx1 hbits hx2

/-! ## The chain after a move insertion and after swap -/

/-- C7: for an instruction `ins` with a non-nil predecessor `p` in a well-formed chain and
`dst`, `src` of the same register class, `insertMoveBefore(dst, src, ins)` adds exactly one
new instruction `mov` and leaves the chain as `p <-> mov <-> ins`, where `mov` is a 64-bit
register move `dst <- src` for the integer class and a 128-bit vector move otherwise; the
other links of the chain and the other instructions are unchanged. -/
theorem insertMoveBefore_splices (m : machine) (dst src : VReg) (ins p : Nat)
    (hwf : m.WellFormed) (hins : ins < m.instrPoolLen)
    (hprev : (m.instrPool ins).prev = some p) (hty : src.RegType = dst.RegType) :
    ∃ m1, m.insertMoveBefore dst src (some ins) = .ok () m1 ∧
      m1.instrPoolLen = m.instrPoolLen + 1 ∧
      ((m1.instrPool p).next = some m.instrPoolLen ∧
        (m1.instrPool m.instrPoolLen).prev = some p ∧
        (m1.instrPool m.instrPoolLen).next = some ins ∧
        (m1.instrPool ins).prev = some m.instrPoolLen) ∧
      ((m1.instrPool m.instrPoolLen).kind =
          (if src.RegType = .RegTypeInt then .mov64 else .fpuMov128) ∧
        (m1.instrPool m.instrPoolLen).rd = dst ∧
        (m1.instrPool m.instrPoolLen).rn = src) ∧
      (∀ i, i < m.instrPoolLen → i ≠ p → (m1.instrPool i).next = (m.instrPool i).next) ∧
      (∀ i, i < m.instrPoolLen → i ≠ ins → (m1.instrPool i).prev = (m.instrPool i).prev) ∧
      (∀ i, i < m.instrPoolLen → (m1.instrPool i).body = (m.instrPool i).body) :=
  insertMoveBefore_spec m dst src ins p hwf hins hprev hty

/-- C9 (amended): for vector/float-class `x1`, real-register-backed `x1` and `x2`, an
invalid scratch `tmp`, a supported value type of `x1`, and an instruction `c` with non-nil
successor `n` in a well-formed chain, `swap` leaves between `c` and `n`, in this order
and contiguously: the address-computation instructions (if any) and the store of `x1` to
its spill slot, one 128-bit vector move `x1 <- x2`, the address-computation instructions
(if any) and a load from the same spill slot into `x1` rebound to the real register of
`x2`; the load is linked to `n`, the new instructions are exactly these, and the other
links and instructions are unchanged. -/
theorem swap_fallback_splices (m : machine) (c n : Nat) (x1 x2 tmp : VReg) (bits : Nat)
    (hwf : m.WellFormed) (hc : c < m.instrPoolLen) (hnext : (m.instrPool c).next = some n)
    (hfloat : x1.RegType ≠ .RegTypeInt) (hx1 : x1.IsRealReg = true)
    (hx2 : x2.IsRealReg = true) (htmp : tmp.Valid = false)
    (hbits : (m.TypeOf x1).Bits = some bits) :
    ∃ m1 aux1 aux2 st mv ld, m.swap (some c) x1 x2 tmp = .ok () m1 ∧
      LinkedPath m1 (c :: (aux1 ++ [st] ++ [mv] ++ aux2 ++ [ld]) ++ [n]) ∧
      aux1 ++ [st] ++ [mv] ++ aux2 ++ [ld]
        = List.range' m.instrPoolLen (aux1.length + aux2.length + 3) ∧
      m1.instrPoolLen = m.instrPoolLen + (aux1.length + aux2.length + 3) ∧
      (∀ x ∈ aux1, (m1.instrPool x).isAddressComputation) ∧
      (m1.instrPool st).isStore x1
        (addressModeOf (m.getVRegSpillSlotOffsetFromSP x1.ID (bits / 8)).1 bits spVReg) bits ∧
      (m1.instrPool mv).isMove .fpuMov128 x1 x2 ∧
      (∀ x ∈ aux2, (m1.instrPool x).isAddressComputation) ∧
      (m1.instrPool ld).isReload (m.TypeOf x1) (x1.SetRealReg x2.RealReg)
        (addressModeOf (m.getVRegSpillSlotOffsetFromSP x1.ID (bits / 8)).1 bits spVReg) bits ∧
      (∀ i, i < m.instrPoolLen → i ≠ c → (m1.instrPool i).next = (m.instrPool i).next) ∧
      (∀ i, i < m.instrPoolLen → i ≠ n → (m1.instrPool i).prev = (m.instrPool i).prev) ∧
      (∀ i, i < m.instrPoolLen → (m1.instrPool i).body = (m.instrPool i).body) :=
  swap_fallback_spec m c n x1 x2 tmp bits hwf hc hnext hfloat hx1 hx2 htmp hbits

/-- C10: for an instruction `c` with non-nil successor `n` in a well-formed chain, `swap`
with `x1` of integer class (any `tmp`) or with `x1` of vector/float class and a valid `tmp`
leaves the chain as `c <-> mov1 <-> mov2 <-> mov3 <-> n` with exactly three new
instructions: `mov1` is `t <- x1`, `mov2` is `x1 <- x2`, `mov3` is `x2 <- t`, 64-bit register
moves for the integer class and 128-bit vector moves otherwise, where `t` is `tmp` when
valid and `tmpRegVReg` otherwise; the other links and instructions are unchanged. -/
theorem swap_rotate_splices (m : machine) (c n : Nat) (x1 x2 tmp : VReg)
    (hwf : m.WellFormed) (hc : c < m.instrPoolLen) (hnext : (m.instrPool c).next = some n)
    (hcase : x1.RegType = .RegTypeInt ∨ tmp.Valid = true) :
    ∃ m1, m.swap (some c) x1 x2 tmp = .ok () m1 ∧
      m1.instrPoolLen = m.instrPoolLen + 3 ∧
      LinkedPath m1 [c, m.instrPoolLen, m.instrPoolLen + 1, m.instrPoolLen + 2, n] ∧
      (m1.instrPool m.instrPoolLen).isMove
        (if x1.RegType = .RegTypeInt then .mov64 else .fpuMov128)
        (if tmp.Valid then tmp else tmpRegVReg) x1 ∧
      (m1.instrPool (m.instrPoolLen + 1)).isMove
        (if x1.RegType = .RegTypeInt then .mov64 else .fpuMov128) x1 x2 ∧
      (m1.instrPool (m.instrPoolLen + 2)).isMove
        (if x1.RegType = .RegTypeInt then .mov64 else .fpuMov128) x2
        (if tmp.Valid then tmp else tmpRegVReg) ∧
      (∀ i, i < m.instrPoolLen → i ≠ c → (m1.instrPool i).next = (m.instrPool i).next) ∧
      (∀ i, i < m.instrPoolLen → i ≠ n → (m1.instrPool i).prev = (m.instrPool i).prev) ∧
      (∀ i, i < m.instrPoolLen → (m1.instrPool i).body = (m.instrPool i).body) :=
  swap_rotate_spec m c n x1 x2 tmp hwf hc hnext hcase

/-! ## Instances and counterexamples -/

/-- Instance of C1: the array `7, 8, 9`. -/
theorem blockTraversals_yield_array_witness :
    reversePostOrderBlocks 4 exampleFn = some [7, 8, 9] ∧
      postOrderBlocks 4 exampleFn = some [9, 8, 7] :=
  blockTraversals_yield_array [7, 8, 9] exampleFn 4 rfl (by decide)

/-- Instance of C2: right after `swap` has spliced three moves lacking the flag after
`begin`, the iterator skips them and returns the next flagged instruction. -/
theorem InstrIteratorNext_addedBeforeRegAlloc_witness :
    ((exampleSpliced.instrPool 0).next = some 4 ∧
      (exampleSpliced.instrPool 4).addedBeforeRegAlloc = false) ∧
    ((exampleSpliced.instrPool 1).addedBeforeRegAlloc = true ∧
      ({ examplePos with cur := some 1 } : labelPosition).cur = some 1) :=
  ⟨by decide, InstrIteratorNext_addedBeforeRegAlloc exampleSpliced 5 examplePos
    { examplePos with cur := some 1 } 1 (by decide)⟩

/-- Counterexample to C3 as stated: `x1` is the reserved scratch register `x27`, `x2` is
another integer register and no scratch is given; after the swap `x2` holds `B`, not
`A`. -/
theorem swap_exchange_counterexample :
    exampleBlock.WellFormed ∧ (exampleBlock.instrPool 0).next = some 1 ∧
    (intVReg 200 x27).RealReg ≠ (intVReg 201 2).RealReg ∧
    (intVReg 200 x27).RegType = (intVReg 201 2).RegType ∧
    (intVReg 200 x27).IsRealReg = true ∧ (intVReg 201 2).IsRealReg = true ∧
    VRegInvalid.Valid = false ∧
    exampleState.regs x27 = 1028 ∧ exampleState.regs 2 = 1002 ∧
    (swapThenExec exampleBlock 0 1 (intVReg 200 x27) (intVReg 201 2) VRegInvalid
      exampleState).map (fun s => (s.regs x27, s.regs 2)) = some (1002, 1002) := by
  decide

/-- Instance of C3: the memory-mediated swap of two vector registers. -/
theorem swap_exchanges_registers_witness :
    ∃ m1 emitted, exampleBlock.swap (some 0) (floatVReg 200 33) (floatVReg 201 34) VRegInvalid
        = .ok () m1 ∧
      emittedBetween m1 m1.instrPoolLen 0 1 = some emitted ∧
      ∀ s, ∃ s1, execInstrs m1 emitted s = some s1 ∧
        s1.regs (floatVReg 200 33).RealReg = s.regs (floatVReg 201 34).RealReg ∧
        s1.regs (floatVReg 201 34).RealReg =
          if swapUsesSpill (floatVReg 200 33) VRegInvalid
          then s.regs (floatVReg 200 33).RealReg % 2 ^ 128
          else s.regs (floatVReg 200 33).RealReg :=
  swap_exchanges_registers exampleBlock 0 1 (floatVReg 200 33) (floatVReg 201 34) VRegInvalid
    128 (by decide) (by decide) (by decide) (by decide) (by decide) (by decide)
    (fun _ => ⟨by decide, by decide, by decide⟩)

/-- Counterexample to C4 as stated: the integer rotate without a scratch argument
overwrites the reserved scratch register `x27`, which is neither `x1` nor `x2`. -/
theorem swap_frame_counterexample :
    exampleBlock.WellFormed ∧ (exampleBlock.instrPool 0).next = some 1 ∧
    (intVReg 200 1).RealReg ≠ (intVReg 201 2).RealReg ∧
    (intVReg 200 1).RegType = (intVReg 201 2).RegType ∧
    x27 ≠ (intVReg 200 1).RealReg ∧ x27 ≠ (intVReg 201 2).RealReg ∧
    exampleState.regs x27 = 1028 ∧
    (swapThenExec exampleBlock 0 1 (intVReg 200 1) (intVReg 201 2) VRegInvalid
      exampleState).map (fun s => s.regs x27) = some 1001 := by
  decide

/-- Instance of C4: the integer rotate through the reserved scratch register. -/
theorem swap_preserves_other_registers_witness :
    ∃ m1 emitted, exampleBlock.swap (some 0) (intVReg 200 1) (intVReg 201 2) VRegInvalid
        = .ok () m1 ∧
      emittedBetween m1 m1.instrPoolLen 0 1 = some emitted ∧
      ∀ s, ∃ s1, execInstrs m1 emitted s = some s1 ∧
        ∀ r, r ≠ (intVReg 200 1).RealReg → r ≠ (intVReg 201 2).RealReg →
          r ≠ (scratchOf VRegInvalid).RealReg → s1.regs r = s.regs r :=
  swap_preserves_other_registers exampleBlock 0 1 (intVReg 200 1) (intVReg 201 2) VRegInvalid
    0 (by decide) (by decide) (by decide) (fun h => absurd h (by decide))

/-- Instance of C5: a V128 value stored after instruction 1 and reloaded before
instruction 3. -/
theorem spill_store_reload_same_slot_witness :
    ∃ ms st, exampleBlock.insertStoreRegisterAt (floatVReg 200 33) (some 1) true
        = .ok (some 2) ms ∧
      (ms.instrPool st).isStore (floatVReg 200 33)
        (addressModeOf (exampleBlock.getVRegSpillSlotOffsetFromSP (floatVReg 200 33).ID
          (128 / 8)).1 128 spVReg) 128 ∧
      (ms.getVRegSpillSlotOffsetFromSP (floatVReg 200 33).ID (128 / 8)).1
        = (exampleBlock.getVRegSpillSlotOffsetFromSP (floatVReg 200 33).ID (128 / 8)).1 ∧
      ∀ (ins2 : Nat) (after2 : Bool) (c2 n2 : Nat),
        insertionPoint ms (some ins2) after2 = some (some c2, some n2) →
        c2 < ms.instrPoolLen → n2 < ms.instrPoolLen →
        ∃ ml ld, ms.insertReloadRegisterAt (floatVReg 200 33) (some ins2) after2
            = .ok (some n2) ml ∧
          (ml.instrPool st).isStore (floatVReg 200 33)
            (addressModeOf (exampleBlock.getVRegSpillSlotOffsetFromSP (floatVReg 200 33).ID
              (128 / 8)).1 128 spVReg) 128 ∧
          (ml.instrPool ld).isReload (exampleBlock.TypeOf (floatVReg 200 33))
            (floatVReg 200 33)
            (addressModeOf (exampleBlock.getVRegSpillSlotOffsetFromSP (floatVReg 200 33).ID
              (128 / 8)).1 128 spVReg) 128 ∧
          ∀ s s1, execInstr (ml.instrPool st) s = some s1 →
            ∃ s2, execInstr (ml.instrPool ld) s1 = some s2 ∧
              s2.regs (floatVReg 200 33).RealReg
                = s.regs (floatVReg 200 33).RealReg % 2 ^ 128 :=
  spill_store_reload_same_slot exampleBlock (floatVReg 200 33) 128 1 true 1 2 (by decide)
    (by decide) (by decide) (by decide) (by decide)

/-- Counterexample to C6 as stated: in the block `br, nop0, nop0` the instruction before
the trailing `nop0`s is a `br`, but it is `begin`, and the code returns `end`. -/
theorem lastInstrForInsertion_counterexample :
    LinkedPath exampleBranchFirst [0, 1, 2] ∧
    (exampleBranchFirst.instrPool 0).kind = .br ∧
    (exampleBranchFirst.instrPool 1).kind = .nop0 ∧
    (exampleBranchFirst.instrPool 2).kind = .nop0 ∧
    claimedLastInstrForInsertion exampleBranchFirst 2 [2, 1, 0] = 0 ∧
    lastInstrForInsertion exampleBranchFirst 3 (some 0) (some 2) = .ok (some 2) () := by
  decide

/-- Instance of C6: in the block `nop0, aluRRR, br, nop0` the anchor is the `br`. -/
theorem lastInstrForInsertion_returns_witness :
    lastInstrBeforeTrailingNops exampleBlock 3 [3, 2, 1, 0] = 2 ∧
    lastInstrForInsertion exampleBlock 4 (some 0) (some (lastOf 0 [1, 2, 3]))
      = .ok (some (lastInstrBeforeTrailingNops exampleBlock (lastOf 0 [1, 2, 3])
          (0 :: [1, 2, 3]).reverse)) () :=
  ⟨by decide, lastInstrForInsertion_returns exampleBlock 0 [1, 2, 3] 4 (by decide) (by decide)
    (Or.inl (by decide)) (by decide)⟩

/-- Instance of C7: an integer move inserted before instruction 2. -/
theorem insertMoveBefore_splices_witness :
    ∃ m1, exampleBlock.insertMoveBefore (intVReg 200 1) (intVReg 201 2) (some 2) = .ok () m1 ∧
      m1.instrPoolLen = exampleBlock.instrPoolLen + 1 ∧
      ((m1.instrPool 1).next = some exampleBlock.instrPoolLen ∧
        (m1.instrPool exampleBlock.instrPoolLen).prev = some 1 ∧
        (m1.instrPool exampleBlock.instrPoolLen).next = some 2 ∧
        (m1.instrPool 2).prev = some exampleBlock.instrPoolLen) ∧
      ((m1.instrPool exampleBlock.instrPoolLen).kind =
          (if (intVReg 201 2).RegType = .RegTypeInt then .mov64 else .fpuMov128) ∧
        (m1.instrPool exampleBlock.instrPoolLen).rd = intVReg 200 1 ∧
        (m1.instrPool exampleBlock.instrPoolLen).rn = intVReg 201 2) ∧
      (∀ i, i < exampleBlock.instrPoolLen → i ≠ 1 →
        (m1.instrPool i).next = (exampleBlock.instrPool i).next) ∧
      (∀ i, i < exampleBlock.instrPoolLen → i ≠ 2 →
        (m1.instrPool i).prev = (exampleBlock.instrPool i).prev) ∧
      (∀ i, i < exampleBlock.instrPoolLen →
        (m1.instrPool i).body = (exampleBlock.instrPool i).body) :=
  insertMoveBefore_splices exampleBlock (intVReg 200 1) (intVReg 201 2) 2 1 (by decide)
    (by decide) (by decide) (by decide)

/-- Counterexample to C8 as stated: the memory-mediated `swap` with `x1` backed by a real
register and `x2` not fails the real-register check of the reload, and at that moment
the store and the move are already linked after `cur`. -/
theorem swap_failure_counterexample :
    exampleBlock.WellFormed ∧ (exampleBlock.instrPool 0).next = some 1 ∧
    (floatVReg 200 33).IsRealReg = true ∧ (floatVReg 201 0).IsRealReg = false ∧
    VRegInvalid.Valid = false ∧
    (exampleBlock.swap (some 0) (floatVReg 200 33) (floatVReg 201 0) VRegInvalid).panicKind?
      = some .notRealReg ∧
    ((exampleBlock.swap (some 0) (floatVReg 200 33) (floatVReg 201 0) VRegInvalid).state?).map
      (fun m1 => ((m1.instrPool 0).next, (m1.instrPool 4).kind, (m1.instrPool 5).kind,
        (m1.instrPool 1).prev))
      = some (some 4, .store, .fpuMov128, some 5) := by
  decide

/-- Instance of C8: a move between registers of different classes fails before anything
is written, the memory-mediated swap with `x2` not real-register-backed fails with
the store and the move spliced, and a reload of a value of no supported type fails with
the machine as it was. -/
theorem precondition_failures_and_chain_witness :
    (exampleBlock.insertMoveBefore (intVReg 200 1) (floatVReg 201 34) (some 2)).panicKind?
      = some .srcDstType ∧
    exampleBlock = exampleBlock ∧
    (∃ m2 new, exampleBlock.swap (some 0) (floatVReg 200 33) (floatVReg 201 0) VRegInvalid
        = .panic .notRealReg m2 ∧ new ≠ [] ∧
      LinkedPath m2 (0 :: (new ++ [1])) ∧ (∀ x ∈ new, exampleBlock.instrPoolLen ≤ x)) ∧
    (exampleBlockUntyped.insertReloadRegisterAt (floatVReg 200 33) (some 2) true).panicKind?
      = some .invalidType ∧
    exampleBlockUntyped = exampleBlockUntyped :=
  ⟨by decide,
    (precondition_failures_and_chain exampleBlock exampleBlock (intVReg 200 1)
      (floatVReg 201 34) (floatVReg 200 33) (floatVReg 200 33) (floatVReg 201 0) VRegInvalid
      (some 2) true).1 rfl,
    (precondition_failures_and_chain exampleBlock exampleBlock (intVReg 200 1)
      (floatVReg 201 34) (floatVReg 200 33) (floatVReg 200 33) (floatVReg 201 0) VRegInvalid
      (some 2) true).2.2.2.2.1 0 1 128 (by decide) (by decide) (by decide) (by decide)
      (by decide) (by decide) (by decide),
    by decide,
    (precondition_failures_and_chain exampleBlockUntyped exampleBlockUntyped (intVReg 200 1)
      (floatVReg 201 34) (floatVReg 200 33) (floatVReg 200 33) (floatVReg 201 0) VRegInvalid
      (some 2) true).2.2.2.2.2.2.1 rfl⟩

/-- Counterexample to C9 as stated: `x1` and `x2` are vector registers backed by real
registers and the scratch is invalid, but the value type of `x1` is not a supported one;
`swap` fails in the store and leaves nothing between `cur` and its successor. -/
theorem swap_fallback_counterexample :
    exampleBlockUntyped.WellFormed ∧ (exampleBlockUntyped.instrPool 0).next = some 1 ∧
    (floatVReg 200 33).RegType = .RegTypeFloat ∧ (floatVReg 201 34).RegType = .RegTypeFloat ∧
    (floatVReg 200 33).IsRealReg = true ∧ (floatVReg 201 34).IsRealReg = true ∧
    VRegInvalid.Valid = false ∧
    (exampleBlockUntyped.swap (some 0) (floatVReg 200 33) (floatVReg 201 34)
      VRegInvalid).panicKind? = some .invalidType ∧
    ((exampleBlockUntyped.swap (some 0) (floatVReg 200 33) (floatVReg 201 34)
      VRegInvalid).state?).map (fun m1 => ((m1.instrPool 0).next, m1.instrPoolLen))
      = some (some 1, 4) := by
  decide

/-- Instance of C9: the memory-mediated swap of two vector registers of V128 values. -/
theorem swap_fallback_splices_witness :
    ∃ m1 aux1 aux2 st mv ld,
      exampleBlock.swap (some 0) (floatVReg 200 33) (floatVReg 201 34) VRegInvalid
        = .ok () m1 ∧
      LinkedPath m1 (0 :: (aux1 ++ [st] ++ [mv] ++ aux2 ++ [ld]) ++ [1]) ∧
      aux1 ++ [st] ++ [mv] ++ aux2 ++ [ld]
        = List.range' exampleBlock.instrPoolLen (aux1.length + aux2.length + 3) ∧
      m1.instrPoolLen = exampleBlock.instrPoolLen + (aux1.length + aux2.length + 3) ∧
      (∀ x ∈ aux1, (m1.instrPool x).isAddressComputation) ∧
      (m1.instrPool st).isStore (floatVReg 200 33)
        (addressModeOf (exampleBlock.getVRegSpillSlotOffsetFromSP (floatVReg 200 33).ID
          (128 / 8)).1 128 spVReg) 128 ∧
      (m1.instrPool mv).isMove .fpuMov128 (floatVReg 200 33) (floatVReg 201 34) ∧
      (∀ x ∈ aux2, (m1.instrPool x).isAddressComputation) ∧
      (m1.instrPool ld).isReload (exampleBlock.TypeOf (floatVReg 200 33))
        ((floatVReg 200 33).SetRealReg (floatVReg 201 34).RealReg)
        (addressModeOf (exampleBlock.getVRegSpillSlotOffsetFromSP (floatVReg 200 33).ID
          (128 / 8)).1 128 spVReg) 128 ∧
      (∀ i, i < exampleBlock.instrPoolLen → i ≠ 0 →
        (m1.instrPool i).next = (exampleBlock.instrPool i).next) ∧
      (∀ i, i < exampleBlock.instrPoolLen → i ≠ 1 →
        (m1.instrPool i).prev = (exampleBlock.instrPool i).prev) ∧
      (∀ i, i < exampleBlock.instrPoolLen →
        (m1.instrPool i).body = (exampleBlock.instrPool i).body) :=
  swap_fallback_splices exampleBlock 0 1 (floatVReg 200 33) (floatVReg 201 34) VRegInvalid 128
    (by decide) (by decide) (by decide) (by decide) (by decide) (by decide) (by decide)
    (by decide)

/-- Instance of C10: the integer rotate through the reserved scratch register. -/
theorem swap_rotate_splices_witness :
    ∃ m1, exampleBlock.swap (some 0) (intVReg 200 1) (intVReg 201 2) VRegInvalid = .ok () m1 ∧
      m1.instrPoolLen = exampleBlock.instrPoolLen + 3 ∧
      LinkedPath m1 [0, exampleBlock.instrPoolLen, exampleBlock.instrPoolLen + 1,
        exampleBlock.instrPoolLen + 2, 1] ∧
      (m1.instrPool exampleBlock.instrPoolLen).isMove
        (if (intVReg 200 1).RegType = .RegTypeInt then .mov64 else .fpuMov128)
        (if VRegInvalid.Valid then VRegInvalid else tmpRegVReg) (intVReg 200 1) ∧
      (m1.instrPool (exampleBlock.instrPoolLen + 1)).isMove
        (if (intVReg 200 1).RegType = .RegTypeInt then .mov64 else .fpuMov128)
        (intVReg 200 1) (intVReg 201 2) ∧
      (m1.instrPool (exampleBlock.instrPoolLen + 2)).isMove
        (if (intVReg 200 1).RegType = .RegTypeInt then .mov64 else .fpuMov128)
        (intVReg 201 2) (if VRegInvalid.Valid then VRegInvalid else tmpRegVReg) ∧
      (∀ i, i < exampleBlock.instrPoolLen → i ≠ 0 →
        (m1.instrPool i).next = (exampleBlock.instrPool i).next) ∧
      (∀ i, i < exampleBlock.instrPoolLen → i ≠ 1 →
        (m1.instrPool i).prev = (exampleBlock.instrPool i).prev) ∧
      (∀ i, i < exampleBlock.instrPoolLen →
        (m1.instrPool i).body = (exampleBlock.instrPool i).body) :=
  swap_rotate_splices exampleBlock 0 1 (intVReg 200 1) (intVReg 201 2) VRegInvalid
    (by decide) (by decide) (by decide) (Or.inl (by decide))

/-! ## The mutation primitives keep the chain well formed -/

theorem LinkedPath.linked_getElem? {m : machine} :
    ∀ (l : List Nat) (i a b : Nat), LinkedPath m l → l[i]? = some a → l[i + 1]? = some b →
      linked m a b := by
  intro l
  induction l with
  | nil => intro i a b _ h; simp at h
  | cons x l ih =>
    intro i a b hp h1 h2
    cases l with
    | nil => simp at h2
    | cons y l =>
      cases i with
      | zero =>
        simp only [List.getElem?_cons_zero, Option.some.injEq, List.getElem?_cons_succ] at h1 h2
        subst h1; subst h2
        exact hp.1
      | succ i => exact ih i a b hp.2 (by simpa using h1) (by simpa using h2)

theorem LinkedPath.nextReach {m : machine} :
    ∀ (l : List Nat) (c : Nat), LinkedPath m (c :: l) → NextReach m c (lastOf c l) := by
  intro l
  induction l with
  | nil => intro c _; exact Relation.ReflTransGen.refl
  | cons x xs ih =>
    intro c hp
    exact Relation.ReflTransGen.head hp.1.1 (ih x hp.2)

theorem NextReach.lt {m : machine} (hwf : m.WellFormed) {a b : Nat} (h : NextReach m a b)
    (ha : a < m.instrPoolLen) : b < m.instrPoolLen := by
  induction h with
  | refl => exact ha
  | tail _ hstep ih => exact (hwf.next_prev ih hstep).1

/-- After a splice of the `k` new instructions `L, ..., L + k - 1` between `c` and its
successor `n`, the chain is well formed and keeps its order. -/
theorem wellFormed_of_spliced (m0 m : machine) (c n k : Nat) (hwf : m0.WellFormed)
    (hc : c < m0.instrPoolLen) (hcn : (m0.instrPool c).next = some n) (hk : 0 < k)
    (hlen : m.instrPoolLen = m0.instrPoolLen + k)
    (hpath : LinkedPath m (c :: (List.range' m0.instrPoolLen k ++ [n])))
    (hnext : ∀ i, i < m0.instrPoolLen → i ≠ c →
      (m.instrPool i).next = (m0.instrPool i).next)
    (hprev : ∀ i, i < m0.instrPoolLen → i ≠ n →
      (m.instrPool i).prev = (m0.instrPool i).prev) :
    m.WellFormed ∧ KeepsOrder m0 m := by
  obtain ⟨hn, hnc⟩ := hwf.next_prev hc hcn
  -- the links along the splice
  have hnew : ∀ j, j < k →
      (c :: (List.range' m0.instrPoolLen k ++ [n]))[j + 1]? = some (m0.instrPoolLen + j) := by
    intro j hj
    rw [List.getElem?_cons_succ, List.getElem?_append_left (by simpa using hj)]
    simp [List.getElem?_range', hj]
  have hlast : (c :: (List.range' m0.instrPoolLen k ++ [n]))[k + 1]? = some n := by
    rw [List.getElem?_cons_succ, List.getElem?_append_right (by simp)]
    simp
  have hfirst : linked m c m0.instrPoolLen :=
    LinkedPath.linked_getElem? _ 0 _ _ hpath (by simp) (by simpa using hnew 0 hk)
  have hmid : ∀ j, j + 1 < k → linked m (m0.instrPoolLen + j) (m0.instrPoolLen + (j + 1)) :=
    fun j hj => LinkedPath.linked_getElem? _ (j + 1) _ _ hpath (hnew j (by omega))
      (hnew (j + 1) hj)
  have hend : linked m (m0.instrPoolLen + (k - 1)) n := by
    refine LinkedPath.linked_getElem? _ (k - 1 + 1) _ _ hpath (hnew (k - 1) (by omega)) ?_
    have e : k - 1 + 1 + 1 = k + 1 := by omega
    rw [e]
    exact hlast
  refine ⟨?_, ?_⟩
  · intro a ha
    rw [hlen] at ha
    simp only [linksConsistentAt, Bool.and_eq_true]
    by_cases hold : a < m0.instrPoolLen
    · have hwa := hwf a hold
      simp only [linksConsistentAt, Bool.and_eq_true] at hwa
      refine ⟨?_, ?_⟩
      · by_cases hac : a = c
        · subst hac
          simp only [hfirst.1, hfirst.2, hlen, decide_eq_true_eq, Bool.and_eq_true,
            beq_self_eq_true, and_true]
          omega
        · rw [hnext a hold hac]
          cases hna : (m0.instrPool a).next with
          | none => rfl
          | some b =>
            obtain ⟨hb, hpb⟩ := hwf.next_prev hold hna
            have hbn : b ≠ n := by
              intro h
              rw [h, hnc] at hpb
              exact hac (Option.some.inj hpb).symm
            simp only [hprev b hb hbn, hpb, hlen, decide_eq_true_eq, Bool.and_eq_true,
              beq_self_eq_true, and_true]
            omega
      · by_cases han : a = n
        · subst han
          simp only [hend.2, hend.1, hlen, decide_eq_true_eq, Bool.and_eq_true,
            beq_self_eq_true, and_true]
          omega
        · rw [hprev a hold han]
          cases hpa : (m0.instrPool a).prev with
          | none => rfl
          | some b =>
            obtain ⟨hb, hnb⟩ := hwf.prev_next hold hpa
            have hbc : b ≠ c := by
              intro h
              rw [h, hcn] at hnb
              exact han (Option.some.inj hnb).symm
            simp only [hnext b hb hbc, hnb, hlen, decide_eq_true_eq, Bool.and_eq_true,
              beq_self_eq_true, and_true]
            omega
    · obtain ⟨j, rfl⟩ : ∃ j, a = m0.instrPoolLen + j := ⟨a - m0.instrPoolLen, by omega⟩
      have hj : j < k := by omega
      refine ⟨?_, ?_⟩
      · by_cases hjl : j + 1 < k
        · have h1 := hmid j hjl
          simp only [h1.1, h1.2, hlen, decide_eq_true_eq, Bool.and_eq_true,
            beq_self_eq_true, and_true]
          omega
        · have hjk : j = k - 1 := by omega
          subst hjk
          simp only [hend.1, hend.2, hlen, decide_eq_true_eq, Bool.and_eq_true,
            beq_self_eq_true, and_true]
          omega
      · cases j with
        | zero =>
          simp only [Nat.add_zero, hfirst.2, hfirst.1, hlen, decide_eq_true_eq,
            Bool.and_eq_true, beq_self_eq_true, and_true]
          omega
        | succ j =>
          have h1 := hmid j (by omega)
          simp only [h1.2, h1.1, hlen, decide_eq_true_eq, Bool.and_eq_true,
            beq_self_eq_true, and_true]
          omega
  · intro a b ha hab
    induction hab with
    | refl => exact Relation.ReflTransGen.refl
    | tail hax hstep ih =>
      rename_i x y
      have hx : x < m0.instrPoolLen := NextReach.lt hwf hax ha
      by_cases hxc : x = c
      · subst hxc
        rw [hcn] at hstep
        have hy : y = n := (Option.some.inj hstep).symm
        subst hy
        have hr := LinkedPath.nextReach _ _ hpath
        have hl : lastOf x (List.range' m0.instrPoolLen k ++ [y]) = y :=
          lastOf_append_singleton _ _ _
        rw [hl] at hr
        exact Relation.ReflTransGen.trans ih hr
      · exact Relation.ReflTransGen.tail ih ((hnext x hx hxc).trans hstep)

theorem Res.bind_eq_ok {σ α β : Type} {r : Res σ α} {f : α → σ → Res σ β} {b : β} {s : σ}
    (h : r.bind f = .ok b s) : ∃ a s1, r = .ok a s1 ∧ f a s1 = .ok b s := by
  cases r with
  | ok a s1 => exact ⟨a, s1, rfl, h⟩
  | panic k s1 => simp [Res.bind] at h
  | outOfFuel => simp [Res.bind] at h

theorem linkInstr_none_right (m : machine) (a : Ptr) (r : Ptr) (s : machine) :
    linkInstr m a none ≠ .ok r s := by
  cases a <;> simp [linkInstr]

theorem linkInstr_none_left (m : machine) (b : Ptr) (r : Ptr) (s : machine) :
    linkInstr m none b ≠ .ok r s := by
  simp [linkInstr]

theorem linkPending_none (ps : List Nat) (m : machine) (r : Ptr) (s : machine)
    (h : linkPending ps m none = .ok r s) : r = none := by
  cases ps with
  | nil =>
    simp only [linkPending, Res.ok.injEq] at h
    exact h.1.symm
  | cons x xs =>
    simp only [linkPending] at h
    obtain ⟨a, s1, h1, -⟩ := Res.bind_eq_ok h
    exact absurd h1 (linkInstr_none_left _ _ _ _)

theorem resolveAddressModeForOffsetAndInsert_none (m : machine) (offset : Int)
    (dstBits : Nat) (rn : VReg) (r : Ptr × addressMode) (s : machine)
    (h : m.resolveAddressModeForOffsetAndInsert none offset dstBits rn = .ok r s) :
    r.1 = none := by
  unfold machine.resolveAddressModeForOffsetAndInsert at h
  obtain ⟨a, s1, h1, h2⟩ := Res.bind_eq_ok h
  have := linkPending_none _ _ _ _ h1
  simp only [Res.ok.injEq] at h2
  rw [← h2.1, this]

/-- A store that succeeds had a real-register-backed VReg of a supported type and an
insertion point between two instructions. -/
theorem insertStoreRegisterAt_ok_inv (m : machine) (v : VReg) (instr : Ptr) (after : Bool)
    (r : Ptr) (m1 : machine) (h : m.insertStoreRegisterAt v instr after = .ok r m1) :
    v.IsRealReg = true ∧ ∃ c n bits, insertionPoint m instr after = some (some c, some n) ∧
      (m.TypeOf v).Bits = some bits := by
  unfold machine.insertStoreRegisterAt at h
  cases hreal : v.IsRealReg
  · simp [hreal] at h
  · simp only [hreal, Bool.not_true, Bool.false_eq_true, if_false] at h
    refine ⟨rfl, ?_⟩
    cases hip : insertionPoint m instr after with
    | none => simp [hip] at h
    | some pr =>
      obtain ⟨cur, prevNext⟩ := pr
      cases hb : (m.TypeOf v).Bits with
      | none => simp [hip, ssaType.Size, hb] at h
      | some bits =>
        simp only [hip, ssaType.Size, hb, Option.map_some'] at h
        obtain ⟨a, s1, h1, h2⟩ := Res.bind_eq_ok h
        obtain ⟨a2, s2, h3, h4⟩ := Res.bind_eq_ok h2
        cases prevNext with
        | none => exact absurd h4 (linkInstr_none_right _ _ _ _)
        | some n =>
          cases cur with
          | none =>
            have := resolveAddressModeForOffsetAndInsert_none _ _ _ _ _ _ h1
            rw [this] at h3
            exact absurd h3 (linkInstr_none_left _ _ _ _)
          | some c => exact ⟨c, n, bits, rfl, rfl⟩

/-- A reload that succeeds had a real-register-backed VReg of a supported type and an
insertion point between two instructions. -/
theorem insertReloadRegisterAt_ok_inv (m : machine) (v : VReg) (instr : Ptr) (after : Bool)
    (r : Ptr) (m1 : machine) (h : m.insertReloadRegisterAt v instr after = .ok r m1) :
    v.IsRealReg = true ∧ ∃ c n bits, insertionPoint m instr after = some (some c, some n) ∧
      (m.TypeOf v).Bits = some bits := by
  unfold machine.insertReloadRegisterAt at h
  cases hreal : v.IsRealReg
  · simp [hreal] at h
  · simp only [hreal, Bool.not_true, Bool.false_eq_true, if_false] at h
    refine ⟨rfl, ?_⟩
    cases hip : insertionPoint m instr after with
    | none => simp [hip] at h
    | some pr =>
      obtain ⟨cur, prevNext⟩ := pr
      cases hb : (m.TypeOf v).Bits with
      | none => simp [hip, ssaType.Size, hb] at h
      | some bits =>
        simp only [hip, ssaType.Size, hb, Option.map_some'] at h
        obtain ⟨a, s1, h1, h2⟩ := Res.bind_eq_ok h
        cases prevNext with
        | none =>
          exfalso
          cases htyp : m.TypeOf v <;> simp only [htyp] at h2 <;>
            first
            | (obtain ⟨a2, s2, h3, h4⟩ := Res.bind_eq_ok h2
               exact absurd h4 (linkInstr_none_right _ _ _ _))
            | simp at h2
        | some n =>
          cases cur with
          | none =>
            exfalso
            have := resolveAddressModeForOffsetAndInsert_none _ _ _ _ _ _ h1
            cases htyp : m.TypeOf v <;> simp only [htyp] at h2 <;>
              first
              | (obtain ⟨a2, s2, h3, h4⟩ := Res.bind_eq_ok h2
                 rw [this] at h3
                 exact absurd h3 (linkInstr_none_left _ _ _ _))
              | simp at h2
          | some c => exact ⟨c, n, bits, rfl, rfl⟩

theorem insertionPoint_wellFormed {m : machine} (hwf : m.WellFormed) {ins : Nat}
    (hins : ins < m.instrPoolLen) {after : Bool} {c n : Nat}
    (hip : insertionPoint m (some ins) after = some (some c, some n)) :
    c < m.instrPoolLen ∧ n < m.instrPoolLen ∧ (m.instrPool c).next = some n := by
  cases after
  · simp only [insertionPoint, Bool.false_eq_true, if_false, Option.some.injEq,
      Prod.mk.injEq] at hip
    obtain ⟨h1, h2⟩ := hip
    subst h2
    obtain ⟨hc, hcn⟩ := hwf.prev_next hins h1
    exact ⟨hc, hins, hcn⟩
  · simp only [insertionPoint, if_true, Option.some.injEq, Prod.mk.injEq] at hip
    obtain ⟨h1, h2⟩ := hip
    subst h1
    exact ⟨hins, (hwf.next_prev hins h2).1, h2⟩

theorem range'_snoc_eq (L k : Nat) (aux : List Nat) (h : aux = List.range' L k) :
    aux ++ [L + k] = List.range' L (k + 1) := by
  rw [h, List.range'_concat]
  simp

theorem insertStoreRegisterAt_keeps (m m1 : machine) (v : VReg) (ins : Nat) (after : Bool)
    (r : Ptr) (hwf : m.WellFormed) (hins : ins < m.instrPoolLen)
    (h : m.insertStoreRegisterAt v (some ins) after = .ok r m1) :
    m1.WellFormed ∧ KeepsOrder m m1 := by
  obtain ⟨hreal, c, n, bits, hip, hbits⟩ := insertStoreRegisterAt_ok_inv m v _ after r m1 h
  obtain ⟨hc, hn, hcn⟩ := insertionPoint_wellFormed hwf hins hip
  obtain ⟨m2, aux, hrun, hs, hl, haux, hlen, -⟩ :=
    insertStoreRegisterAt_spec (Splicing.init m c n hc hn) v hreal bits hbits (some ins) after
      (by simpa [lastOf] using hip)
  rw [h] at hrun
  simp only [Res.ok.injEq] at hrun
  obtain ⟨-, rfl⟩ := hrun
  have hpath := hs.linkedPath_closed (by rw [lastOf_append_singleton]; exact hl)
  have hnew : [] ++ aux ++ [m.instrPoolLen + aux.length]
      = List.range' m.instrPoolLen (aux.length + 1) := by
    rw [List.nil_append]
    exact range'_snoc_eq _ _ _ haux
  rw [hnew] at hpath
  exact wellFormed_of_spliced m m1 c n (aux.length + 1) hwf hc hcn (by omega)
    (by rw [hlen]; omega) hpath hs.hnext hs.hprev

theorem insertReloadRegisterAt_keeps (m m1 : machine) (v : VReg) (ins : Nat) (after : Bool)
    (r : Ptr) (hwf : m.WellFormed) (hins : ins < m.instrPoolLen)
    (h : m.insertReloadRegisterAt v (some ins) after = .ok r m1) :
    m1.WellFormed ∧ KeepsOrder m m1 := by
  obtain ⟨hreal, c, n, bits, hip, hbits⟩ := insertReloadRegisterAt_ok_inv m v _ after r m1 h
  obtain ⟨hc, hn, hcn⟩ := insertionPoint_wellFormed hwf hins hip
  obtain ⟨m2, aux, hrun, hs, hl, haux, hlen, -⟩ :=
    insertReloadRegisterAt_spec (Splicing.init m c n hc hn) v hreal bits hbits (some ins) after
      (by simpa [lastOf] using hip)
  rw [h] at hrun
  simp only [Res.ok.injEq] at hrun
  obtain ⟨-, rfl⟩ := hrun
  have hpath := hs.linkedPath_closed (by rw [lastOf_append_singleton]; exact hl)
  have hnew : [] ++ aux ++ [m.instrPoolLen + aux.length]
      = List.range' m.instrPoolLen (aux.length + 1) := by
    rw [List.nil_append]
    exact range'_snoc_eq _ _ _ haux
  rw [hnew] at hpath
  exact wellFormed_of_spliced m m1 c n (aux.length + 1) hwf hc hcn (by omega)
    (by rw [hlen]; omega) hpath hs.hnext hs.hprev

theorem insertMoveBefore_keeps (m m1 : machine) (dst src : VReg) (ins : Nat)
    (hwf : m.WellFormed) (hins : ins < m.instrPoolLen)
    (h : m.insertMoveBefore dst src (some ins) = .ok () m1) :
    m1.WellFormed ∧ KeepsOrder m m1 := by
  have hty : src.RegType = dst.RegType := by
    by_contra hne
    simp [machine.insertMoveBefore, hne] at h
  cases hprev : (m.instrPool ins).prev with
  | none =>
    have hne1 : ins ≠ m.instrPoolLen := by omega
    by_cases hint : dst.RegType = .RegTypeInt <;>
      simp [machine.insertMoveBefore, hty, hint, machine.allocateInstr, modifyInstr_instrPool,
        Function.update_apply, hne1, hprev] at h
  | some p =>
    obtain ⟨hp, hnext⟩ := hwf.prev_next hins hprev
    obtain ⟨m2, hrun, hlen, ⟨l1, l2, l3, l4⟩, -, hnx, hpv, -⟩ :=
      insertMoveBefore_spec m dst src ins p hwf hins hprev hty
    rw [h] at hrun
    simp only [Res.ok.injEq, true_and] at hrun
    subst hrun
    exact wellFormed_of_spliced m m1 p ins 1 hwf hp hnext (by omega) hlen
      ⟨⟨l1, l2⟩, ⟨l3, l4⟩, trivial⟩ hnx hpv

theorem swapRotate_none (m : machine) (cur : Ptr)
    (asMove : instruction → VReg → VReg → instruction) (x1 x2 tmp : VReg) (m1 : machine) :
    m.swapRotate cur none asMove x1 x2 tmp ≠ .ok () m1 := by
  intro h
  unfold machine.swapRotate at h
  obtain ⟨_, _, -, h1⟩ := Res.bind_eq_ok h
  obtain ⟨_, _, -, h2⟩ := Res.bind_eq_ok h1
  obtain ⟨_, _, -, h3⟩ := Res.bind_eq_ok h2
  obtain ⟨_, _, h4, -⟩ := Res.bind_eq_ok h3
  exact linkInstr_none_right _ _ _ _ h4

theorem swap_keeps (m m1 : machine) (c : Nat) (x1 x2 tmp : VReg) (hwf : m.WellFormed)
    (hc : c < m.instrPoolLen) (h : m.swap (some c) x1 x2 tmp = .ok () m1) :
    m1.WellFormed ∧ KeepsOrder m m1 := by
  have hsplit : swapUsesSpill x1 tmp = true ↔ (x1.RegType ≠ .RegTypeInt ∧ tmp.Valid = false) := by
    cases hv : tmp.Valid <;> by_cases hi : x1.RegType = .RegTypeInt <;>
      simp [swapUsesSpill, hv, hi]
  cases hnext : (m.instrPool c).next with
  | none =>
    exfalso
    unfold machine.swap at h
    simp only [hnext] at h
    split at h
    · exact swapRotate_none _ _ _ _ _ _ _ h
    · split at h
      · obtain ⟨r, s1, h1, -⟩ := Res.bind_eq_ok h
        obtain ⟨-, c1, n1, bits, hip, -⟩ := insertStoreRegisterAt_ok_inv _ _ _ _ _ _ h1
        simp [insertionPoint, hnext] at hip
      · exact swapRotate_none _ _ _ _ _ _ _ h
  | some n =>
    have hn := (hwf.next_prev hc hnext).1
    by_cases hsp : swapUsesSpill x1 tmp = true
    · obtain ⟨hfloat, htmp⟩ := hsplit.1 hsp
      have hstore : ∃ r s1, m.insertStoreRegisterAt x1 (some c) true = .ok r s1 := by
        have h2 := h
        unfold machine.swap at h2
        simp only [hnext, hfloat, if_false, htmp, Bool.not_false, if_true] at h2
        obtain ⟨r, s1, h1, -⟩ := Res.bind_eq_ok h2
        exact ⟨r, s1, h1⟩
      obtain ⟨r, s1, h1⟩ := hstore
      obtain ⟨hx1, c1, n1, bits, -, hbits⟩ := insertStoreRegisterAt_ok_inv _ _ _ _ _ _ h1
      have hx2 : x2.IsRealReg = true := by
        cases hx : x2.IsRealReg
        · obtain ⟨m2, new, hfail, -⟩ :=
            swap_fallback_late_failure m c n x1 x2 tmp bits hwf hc hnext hsp hx1 hbits hx
          rw [h] at hfail
          simp at hfail
        · rfl
      obtain ⟨m2, aux1, aux2, st, mv, ld, hrun, hpath, hrange, hlen, -, -, -, -, -, hnx, hpv, -⟩ :=
        swap_fallback_spec m c n x1 x2 tmp bits hwf hc hnext hfloat hx1 hx2 htmp hbits
      rw [h] at hrun
      simp only [Res.ok.injEq, true_and] at hrun
      subst hrun
      rw [hrange] at hpath
      exact wellFormed_of_spliced m m1 c n _ hwf hc hnext (by omega) hlen hpath hnx hpv
    · have hcase : x1.RegType = .RegTypeInt ∨ tmp.Valid = true := by
        by_cases h1 : x1.RegType = .RegTypeInt
        · exact Or.inl h1
        · right
          cases hv : tmp.Valid
          · exact absurd (hsplit.2 ⟨h1, hv⟩) hsp
          · rfl
      obtain ⟨m2, hrun, hlen, hpath, -, -, -, hnx, hpv, -⟩ :=
        swap_rotate_spec m c n x1 x2 tmp hwf hc hnext hcase
      rw [h] at hrun
      simp only [Res.ok.injEq, true_and] at hrun
      subst hrun
      exact wellFormed_of_spliced m m1 c n 3 hwf hc hnext (by omega) hlen
        (by simpa [List.range'] using hpath) hnx hpv

/-- C11: mutual consistency of the doubly linked instruction list is an invariant of the
mutation primitives: if the chain is well formed before the call (every `a.next = b` has
`b.prev = a` and every `b.prev = a` has `a.next = b`), it is well formed after every
successful call of `insertMoveBefore`, `insertStoreRegisterAt`, `insertReloadRegisterAt`
(before or after the anchor) and `swap`, and the instructions that were in the chain are
still in it in the same relative order. -/
theorem mutation_primitives_keep_wellFormed (m m1 : machine) (ins : Nat) (dst src v x1 x2
    tmp : VReg) (after : Bool) (r : Ptr) (hwf : m.WellFormed) (hins : ins < m.instrPoolLen) :
    (m.insertMoveBefore dst src (some ins) = .ok () m1 → m1.WellFormed ∧ KeepsOrder m m1) ∧
    (m.insertStoreRegisterAt v (some ins) after = .ok r m1 →
      m1.WellFormed ∧ KeepsOrder m m1) ∧
    (m.insertReloadRegisterAt v (some ins) after = .ok r m1 →
      m1.WellFormed ∧ KeepsOrder m m1) ∧
    (m.swap (some ins) x1 x2 tmp = .ok () m1 → m1.WellFormed ∧ KeepsOrder m m1) :=
  ⟨insertMoveBefore_keeps m m1 dst src ins hwf hins,
    insertStoreRegisterAt_keeps m m1 v ins after r hwf hins,
    insertReloadRegisterAt_keeps m m1 v ins after r hwf hins,
    swap_keeps m m1 ins x1 x2 tmp hwf hins⟩

/-! ## Failure of a move insertion -/

/-- C12 (amended): for an instruction `ins` of a well-formed chain (so that the `next` link
of its predecessor is `ins`) with a non-nil predecessor, `insertMoveBefore(dst, src, ins)`
fails (panics) if and only if `dst.RegType()` differs from `src.RegType()`, and the
failure is then the one of the register-class check, with the machine as it was. -/
theorem insertMoveBefore_fails_iff (m : machine) (dst src : VReg) (ins p : Nat)
    (hwf : m.WellFormed) (hins : ins < m.instrPoolLen)
    (hprev : (m.instrPool ins).prev = some p) :
    ((m.insertMoveBefore dst src (some ins)).isPanic = true ↔ dst.RegType ≠ src.RegType) ∧
    (dst.RegType ≠ src.RegType →
      m.insertMoveBefore dst src (some ins) = .panic .srcDstType m) := by
  have hfail : dst.RegType ≠ src.RegType →
      m.insertMoveBefore dst src (some ins) = .panic .srcDstType m := by
    intro hne
    have hne2 : ¬ src.RegType = dst.RegType := fun h => hne h.symm
    simp [machine.insertMoveBefore, hne2]
  refine ⟨⟨?_, ?_⟩, hfail⟩
  · intro hpanic hty
    obtain ⟨m1, hrun, -⟩ := insertMoveBefore_spec m dst src ins p hwf hins hprev hty.symm
    rw [hrun] at hpanic
    simp [Res.isPanic] at hpanic
  · intro hne
    rw [hfail hne]
    rfl

/-! ## Block parameters, successors, predecessors and clobbered registers -/

theorem BlockParamsLoop_spec (f : regAllocFn) (pos : labelPosition) :
    ∀ (k i fuel : Nat) (regs : List VReg), i + k = (f.ssaB.blocks pos.sb).params.length →
      k + 1 ≤ fuel →
      regAllocFn.BlockParamsLoop f pos fuel (i : Int) regs
        = .ok () (regs ++ ((f.ssaB.blocks pos.sb).params.drop i).map f.m.ssaValuesToVRegs) := by
  intro k
  induction k with
  | zero =>
    intro i fuel regs hi hfuel
    obtain ⟨fuel, rfl⟩ : ∃ j, fuel = j + 1 := ⟨fuel - 1, by omega⟩
    have hnot : ¬ ((i : Int) < ((f.ssaB.blocks pos.sb).params.length : Int)) := by omega
    have hdrop : (f.ssaB.blocks pos.sb).params.drop i = [] :=
      List.drop_eq_nil_of_le (by omega)
    simp only [regAllocFn.BlockParamsLoop, hnot, if_false, hdrop, List.map_nil,
      List.append_nil]
  | succ k ih =>
    intro i fuel regs hi hfuel
    obtain ⟨fuel, rfl⟩ : ∃ j, fuel = j + 1 := ⟨fuel - 1, by omega⟩
    have hlt : i < (f.ssaB.blocks pos.sb).params.length := by omega
    have hlt2 : ((i : Int) < ((f.ssaB.blocks pos.sb).params.length : Int)) := by omega
    have hneg : ¬ ((i : Int) < 0) := by omega
    have hat : sliceAt (f.ssaB.blocks pos.sb).params (i : Int)
        = some ((f.ssaB.blocks pos.sb).params[i]) := by
      simp only [sliceAt, hneg, if_false, Int.toNat_ofNat, List.getElem?_eq_getElem hlt]
    have hstep := ih (i + 1) fuel
      (regs ++ [f.m.ssaValuesToVRegs ((f.ssaB.blocks pos.sb).params[i])]) (by omega) (by omega)
    have hcast : ((i : Int) + 1) = ((i + 1 : Nat) : Int) := by push_cast; rfl
    have hd : (f.ssaB.blocks pos.sb).params.drop i
        = (f.ssaB.blocks pos.sb).params[i] :: (f.ssaB.blocks pos.sb).params.drop (i + 1) :=
      List.drop_eq_getElem_cons hlt
    simp only [regAllocFn.BlockParamsLoop, hlt2, if_true, hat]
    rw [hcast, hstep, hd]
    simp only [List.map_cons, List.append_assoc, List.singleton_append]

/-- C13: for every label position `pos` and every prior content of the buffer of the
caller, `BlockParams(pos, regs)` returns a slice of length `pos.sb.Params()` whose `i`-th
element is `VRegOf(pos.sb.Param(i))`, in the order of the parameters and with nothing of
the prior content of the buffer, and the buffer of the caller equals the returned slice
afterwards. -/
theorem BlockParams_returns (f : regAllocFn) (pos : labelPosition) (regs : List VReg)
    (fuel : Nat) (hfuel : (f.ssaB.blocks pos.sb).params.length + 1 ≤ fuel) :
    f.BlockParams fuel pos regs
        = .ok ((f.ssaB.blocks pos.sb).params.map f.m.ssaValuesToVRegs)
            ((f.ssaB.blocks pos.sb).params.map f.m.ssaValuesToVRegs) ∧
    ((f.ssaB.blocks pos.sb).params.map f.m.ssaValuesToVRegs).length
      = (f.ssaB.blocks pos.sb).params.length ∧
    ∀ i value, sliceAt (f.ssaB.blocks pos.sb).params i = some value →
      sliceAt ((f.ssaB.blocks pos.sb).params.map f.m.ssaValuesToVRegs) i
        = some (f.m.ssaValuesToVRegs value) := by
  refine ⟨?_, by simp, ?_⟩
  · have h := BlockParamsLoop_spec f pos (f.ssaB.blocks pos.sb).params.length 0 fuel
      (regs.take 0) (by omega) hfuel
    simp only [regAllocFn.BlockParams]
    have h0 : ((0 : Nat) : Int) = 0 := rfl
    rw [h0] at h
    rw [h]
    simp [Res.bind]
  · intro i value h
    by_cases hneg : i < 0
    · simp [sliceAt, hneg] at h
    · simp only [sliceAt, hneg, if_false] at h ⊢
      rw [List.getElem?_map, h]
      rfl

/-- C14: for every label position `pos` and every valid successor index `i`, `Succ(pos, i)`
returns nil if and only if the `i`-th successor of the SSA block of `pos` is the return
block, and otherwise returns the label position allocated for that successor;
`Pred(pos, i)` returns the label position of the `i`-th predecessor for every valid index,
without filtering. -/
theorem Succ_Pred_return (f : regAllocFn) (pos : labelPosition) (i : Int) :
    (∀ succSB, sliceAt (f.ssaB.blocks pos.sb).succs i = some succSB →
      ∃ r f1, f.Succ pos i = .ok r f1 ∧
        (r = none ↔ (f.ssaB.blocks succSB).returnBlock = true) ∧
        ((f.ssaB.blocks succSB).returnBlock = false →
          r = some succSB ∧ ∃ lp, f1.m.labelPositionPool succSB = some lp ∧ lp.sb = succSB)) ∧
    (∀ predSB, sliceAt (f.ssaB.blocks pos.sb).preds i = some predSB →
      ∃ f1, f.Pred pos i = .ok (some predSB) f1 ∧
        ∃ lp, f1.m.labelPositionPool predSB = some lp ∧ lp.sb = predSB) := by
  have hget : ∀ (m : machine) (sb : Nat),
      (m.getOrAllocateSSABlockLabelPosition sb).1 = some sb ∧
      ∃ lp, (m.getOrAllocateSSABlockLabelPosition sb).2.labelPositionPool sb = some lp ∧
        lp.sb = sb := by
    intro m sb
    unfold machine.getOrAllocateSSABlockLabelPosition
    cases hp : m.labelPositionPool sb with
    | some lp => exact ⟨rfl, { lp with sb := sb }, by simp, rfl⟩
    | none =>
      exact ⟨rfl, { sb := sb, cur := none, begin := none, «end» := none }, by simp, rfl⟩
  refine ⟨?_, ?_⟩
  · intro succSB hs
    cases hret : (f.ssaB.blocks succSB).returnBlock
    · obtain ⟨h1, lp, h2, h3⟩ := hget f.m succSB
      refine ⟨some succSB, { f with m := (f.m.getOrAllocateSSABlockLabelPosition succSB).2 },
        ?_, by simp, fun _ => ⟨rfl, lp, h2, h3⟩⟩
      simp only [regAllocFn.Succ, hs, hret, Bool.false_eq_true, if_false]
      rw [← h1]
    · exact ⟨none, f, by simp [regAllocFn.Succ, hs, hret], by simp, by simp⟩
  · intro predSB hs
    obtain ⟨h1, lp, h2, h3⟩ := hget f.m predSB
    refine ⟨{ f with m := (f.m.getOrAllocateSSABlockLabelPosition predSB).2 }, ?_, lp, h2, h3⟩
    simp only [regAllocFn.Pred, hs]
    rw [← h1]

/-- C15: for every prior value of `clobberedRegs` and every list `regs`, after
`ClobberedRegisters(regs)` the `clobberedRegs` of the machine equals `regs` element for
element; after two successive calls only the registers of the second call are
recorded. -/
theorem ClobberedRegisters_records (f : regAllocFn) (regs regs2 : List VReg) :
    (f.ClobberedRegisters regs).m.clobberedRegs = regs ∧
    ((f.ClobberedRegisters regs).ClobberedRegisters regs2).m.clobberedRegs = regs2 := by
  simp [regAllocFn.ClobberedRegisters]

/-! ## Forward and reverse iteration over a block -/

theorem LinkedPath.nextPath {m : machine} :
    ∀ (l : List Nat) (c : Nat), LinkedPath m (c :: l) → NextPath m c l := by
  intro l
  induction l with
  | nil => intro c _; trivial
  | cons x xs ih => intro c hp; exact ⟨hp.1.1, ih x hp.2⟩

theorem onlyAtEnd_of_nodup :
    ∀ (l : List Nat) (c : Nat), (c :: l).Nodup → OnlyAtEnd (lastOf c l) c l := by
  intro l
  induction l with
  | nil => intro c _; trivial
  | cons x xs ih =>
    intro c hnd
    have h := List.nodup_cons.1 hnd
    exact ⟨fun he => h.1 (he ▸ lastOf_mem x xs), ih x h.2⟩

/-- One call of `InstrIteratorNext` from the cursor `c`, when the instructions from the
cursor to `end` are `c :: l`. -/
theorem InstrIteratorNext_spec (m : machine) (sb : Nat) (b : Ptr) (e : Nat) :
    ∀ (l : List Nat) (c fuel : Nat), NextPath m c l → OnlyAtEnd e c l → lastOf c l = e →
      l.length + 1 ≤ fuel →
      labelPosition.InstrIteratorNext m fuel { sb := sb, cur := some c, begin := b, «end» := some e }
        = .ok (l.find? m.flagged)
            { sb := sb, cur := some ((l.find? m.flagged).getD e), begin := b, «end» := some e } := by
  intro l
  induction l with
  | nil =>
    intro c fuel _ _ hlast hfuel
    obtain ⟨fuel, rfl⟩ : ∃ j, fuel = j + 1 := ⟨fuel - 1, by simp at hfuel; omega⟩
    simp only [lastOf] at hlast
    subst hlast
    simp [labelPosition.InstrIteratorNext]
  | cons x xs ih =>
    intro c fuel hp hoe hlast hfuel
    obtain ⟨fuel, rfl⟩ : ∃ j, fuel = j + 1 := ⟨fuel - 1, by simp at hfuel; omega⟩
    have hne : ¬ (some c = some e) := fun h => hoe.1 (Option.some.inj h)
    by_cases hfl : (m.instrPool x).addedBeforeRegAlloc = true
    · have hfl2 : m.flagged x = true := hfl
      simp [labelPosition.InstrIteratorNext, hne, hp.1, hfl, List.find?, hfl2]
    · have hfl2 : m.flagged x = false := by
        simpa [machine.flagged] using hfl
      have hrec := ih x fuel hp.2 hoe.2 (by simpa [lastOf] using hlast)
        (by simp at hfuel ⊢; omega)
      simp only [labelPosition.InstrIteratorNext, hne, if_false, hp.1, hfl, Bool.false_eq_true]
      rw [hrec]
      simp [List.find?, hfl2]

/-- The sequence of the remaining calls of `InstrIteratorNext` from the cursor `c`. -/
theorem remainingInstrs_spec (m : machine) (sb : Nat) (b : Ptr) (e : Nat) (fuel : Nat) :
    ∀ (l : List Nat) (c k : Nat), NextPath m c l → OnlyAtEnd e c l → lastOf c l = e →
      l.length + 1 ≤ fuel → l.length + 1 ≤ k →
      yieldedInstrs (labelPosition.InstrIteratorNext m fuel) k
        (labelPosition.InstrIteratorNext m fuel
          { sb := sb, cur := some c, begin := b, «end» := some e })
        = some (l.filter m.flagged) := by
  intro l
  induction l with
  | nil =>
    intro c k hp hoe hlast hfuel hk
    obtain ⟨k, rfl⟩ : ∃ j, k = j + 1 := ⟨k - 1, by simp at hk; omega⟩
    rw [InstrIteratorNext_spec m sb b e [] c fuel hp hoe hlast hfuel]
    rfl
  | cons x xs ih =>
    intro c k hp hoe hlast hfuel hk
    obtain ⟨k, rfl⟩ : ∃ j, k = j + 1 := ⟨k - 1, by simp at hk; omega⟩
    have hlast2 : lastOf x xs = e := by simpa [lastOf] using hlast
    have hfuel2 : xs.length + 1 ≤ fuel := by simp at hfuel; omega
    rw [InstrIteratorNext_spec m sb b e (x :: xs) c fuel hp hoe hlast hfuel]
    by_cases hfl : m.flagged x = true
    · have hrec := ih x k hp.2 hoe.2 hlast2 hfuel2 (by simp at hk ⊢; omega)
      simp only [List.find?, hfl, Option.getD_some, List.filter, yieldedInstrs]
      rw [hrec]
      rfl
    · have hfl2 : m.flagged x = false := by simpa using hfl
      have hrec := ih x (k + 1) hp.2 hoe.2 hlast2 hfuel2 (by simp at hk ⊢; omega)
      rw [InstrIteratorNext_spec m sb b e xs x fuel hp.2 hoe.2 hlast2 hfuel2] at hrec
      simp only [List.find?, hfl2, List.filter]
      exact hrec

theorem find?_last_of_flagged (m : machine) :
    ∀ (c : Nat) (l : List Nat), l ≠ [] → (∀ x ∈ l.dropLast, m.flagged x = false) →
      m.flagged (lastOf c l) = true → l.find? m.flagged = some (lastOf c l) := by
  intro c l
  induction l generalizing c with
  | nil => intro h; exact absurd rfl h
  | cons x xs ih =>
    intro _ hall hlast
    cases xs with
    | nil =>
      simp only [lastOf] at hlast
      simp [List.find?, lastOf, hlast]
    | cons y ys =>
      have hx : m.flagged x = false := hall x (by simp [List.dropLast])
      have hrec := ih x (by simp) (fun z hz => hall z (by
        simp only [List.dropLast_cons₂, List.mem_cons] at hz ⊢
        exact Or.inr hz)) (by simpa [lastOf] using hlast)
      simp only [List.find?, hx]
      exact hrec

/-- One call of `InstrRevIteratorNext` from the cursor `c`, when the instructions from the
cursor back to `begin` are `c :: l`. -/
theorem InstrRevIteratorNext_spec (m : machine) (sb : Nat) (b : Nat) (e : Ptr) :
    ∀ (l : List Nat) (c fuel : Nat), PrevPath m c l → OnlyAtEnd b c l → lastOf c l = b →
      l.length + 1 ≤ fuel →
      labelPosition.InstrRevIteratorNext m fuel
          { sb := sb, cur := some c, begin := some b, «end» := e }
        = .ok (l.find? m.flagged)
            { sb := sb, cur := some ((l.find? m.flagged).getD b), begin := some b, «end» := e } := by
  intro l
  induction l with
  | nil =>
    intro c fuel _ _ hlast hfuel
    obtain ⟨fuel, rfl⟩ : ∃ j, fuel = j + 1 := ⟨fuel - 1, by simp at hfuel; omega⟩
    simp only [lastOf] at hlast
    subst hlast
    simp [labelPosition.InstrRevIteratorNext]
  | cons x xs ih =>
    intro c fuel hp hoe hlast hfuel
    obtain ⟨fuel, rfl⟩ : ∃ j, fuel = j + 1 := ⟨fuel - 1, by simp at hfuel; omega⟩
    have hne : ¬ (some c = some b) := fun h => hoe.1 (Option.some.inj h)
    by_cases hfl : (m.instrPool x).addedBeforeRegAlloc = true
    · have hfl2 : m.flagged x = true := hfl
      simp [labelPosition.InstrRevIteratorNext, hne, hp.1, hfl, List.find?, hfl2]
    · have hfl2 : m.flagged x = false := by
        simpa [machine.flagged] using hfl
      have hrec := ih x fuel hp.2 hoe.2 (by simpa [lastOf] using hlast)
        (by simp at hfuel ⊢; omega)
      simp only [labelPosition.InstrRevIteratorNext, hne, if_false, hp.1, hfl, Bool.false_eq_true]
      rw [hrec]
      simp [List.find?, hfl2]

/-- The sequence of the remaining calls of `InstrRevIteratorNext` from the cursor `c`. -/
theorem reverseRemaining_spec (m : machine) (sb : Nat) (b : Nat) (e : Ptr) (fuel : Nat) :
    ∀ (l : List Nat) (c k : Nat), PrevPath m c l → OnlyAtEnd b c l → lastOf c l = b →
      l.length + 1 ≤ fuel → l.length + 1 ≤ k →
      yieldedInstrs (labelPosition.InstrRevIteratorNext m fuel) k
        (labelPosition.InstrRevIteratorNext m fuel
          { sb := sb, cur := some c, begin := some b, «end» := e })
        = some (l.filter m.flagged) := by
  intro l
  induction l with
  | nil =>
    intro c k hp hoe hlast hfuel hk
    obtain ⟨k, rfl⟩ : ∃ j, k = j + 1 := ⟨k - 1, by simp at hk; omega⟩
    rw [InstrRevIteratorNext_spec m sb b e [] c fuel hp hoe hlast hfuel]
    rfl
  | cons x xs ih =>
    intro c k hp hoe hlast hfuel hk
    obtain ⟨k, rfl⟩ : ∃ j, k = j + 1 := ⟨k - 1, by simp at hk; omega⟩
    have hlast2 : lastOf x xs = b := by simpa [lastOf] using hlast
    have hfuel2 : xs.length + 1 ≤ fuel := by simp at hfuel; omega
    rw [InstrRevIteratorNext_spec m sb b e (x :: xs) c fuel hp hoe hlast hfuel]
    by_cases hfl : m.flagged x = true
    · have hrec := ih x k hp.2 hoe.2 hlast2 hfuel2 (by simp at hk ⊢; omega)
      simp only [List.find?, hfl, Option.getD_some, List.filter, yieldedInstrs]
      rw [hrec]
      rfl
    · have hfl2 : m.flagged x = false := by simpa using hfl
      have hrec := ih x (k + 1) hp.2 hoe.2 hlast2 hfuel2 (by simp at hk ⊢; omega)
      rw [InstrRevIteratorNext_spec m sb b e xs x fuel hp.2 hoe.2 hlast2 hfuel2] at hrec
      simp only [List.find?, hfl2, List.filter]
      exact hrec

theorem PrevPath.snocPrev {m : machine} :
    ∀ (l : List Nat) (c x : Nat), PrevPath m c l → (m.instrPool (lastOf c l)).prev = some x →
      PrevPath m c (l ++ [x]) := by
  intro l
  induction l with
  | nil => intro c x _ h; exact ⟨h, trivial⟩
  | cons y ys ih => intro c x hp h; exact ⟨hp.1, ih y x hp.2 h⟩

/-- A linked path read backwards is a path of `prev` links from its last instruction to its
first. -/
theorem LinkedPath.prevPath {m : machine} :
    ∀ (l : List Nat) (b : Nat), LinkedPath m (b :: l) →
      ∃ rl, (b :: l).reverse = lastOf b l :: rl ∧ PrevPath m (lastOf b l) rl ∧
        lastOf (lastOf b l) rl = b := by
  intro l
  induction l with
  | nil => intro b _; exact ⟨[], rfl, trivial, rfl⟩
  | cons x xs ih =>
    intro b hp
    obtain ⟨rl, h1, h2, h3⟩ := ih x hp.2
    refine ⟨rl ++ [b], ?_, ?_, ?_⟩
    · rw [List.reverse_cons, h1]; rfl
    · exact PrevPath.snocPrev rl _ b h2 (by
        show (m.instrPool (lastOf (lastOf x xs) rl)).prev = some b
        rw [h3]; exact hp.1.2)
    · exact lastOf_append_singleton _ _ _

/-- The forward and the reverse iteration over a block whose instructions from `begin` to
`end` are `b :: l`. -/
theorem instrIterations_spec (m : machine) (pos : labelPosition) (b : Nat) (l : List Nat)
    (fuel : Nat) (hb : pos.begin = some b) (he : pos.end = some (lastOf b l))
    (hp : LinkedPath m (b :: l)) (hnd : (b :: l).Nodup) (hfuel : l.length + 2 ≤ fuel) :
    forwardInstrs m fuel pos = some (b :: l.filter m.flagged) ∧
    ∃ rl, (b :: l).reverse = lastOf b l :: rl ∧
      reverseInstrs m fuel pos = some (lastOf b l :: rl.filter m.flagged) := by
  obtain ⟨sb, cur, bg, en⟩ := pos
  simp only at hb he
  subst hb he
  obtain ⟨fuel, rfl⟩ : ∃ j, fuel = j + 1 := ⟨fuel - 1, by omega⟩
  constructor
  · have h := remainingInstrs_spec m sb (some b) (lastOf b l) (fuel + 1) l b fuel
      (LinkedPath.nextPath l b hp) (onlyAtEnd_of_nodup l b hnd) rfl (by omega) (by omega)
    simp only [forwardInstrs, labelPosition.InstrIteratorBegin, yieldedInstrs]
    rw [h]
    rfl
  · obtain ⟨rl, h1, h2, h3⟩ := LinkedPath.prevPath l b hp
    refine ⟨rl, h1, ?_⟩
    have hlen : rl.length = l.length := by
      have := congrArg List.length h1
      simpa using this.symm
    have hnd2 : (lastOf b l :: rl).Nodup := by
      rw [← h1]; exact List.nodup_reverse.2 hnd
    have hoe := onlyAtEnd_of_nodup rl (lastOf b l) hnd2
    rw [h3] at hoe
    have h := reverseRemaining_spec m sb b (some (lastOf b l)) (fuel + 1) rl (lastOf b l) fuel
      h2 hoe h3 (by omega) (by omega)
    simp only [reverseInstrs, labelPosition.InstrRevIteratorBegin, yieldedInstrs]
    rw [h]
    rfl

/-! ## The instruction returned by the forward iterator -/

/-- Claim C16, against the claim as stated: in the block `nop0, aluRRR, br, nop0`, whose
instructions all have `addedBeforeRegAlloc` set, `InstrIteratorNext` called with the cursor
on the instruction before `end` returns `end` itself: `end` is not exclusive. -/
theorem InstrIteratorNext_counterexample :
    LinkedPath exampleBlock [2, 3] ∧ exampleBlock.flagged 3 = true ∧
    labelPosition.InstrIteratorNext exampleBlock 4
        { sb := 0, cur := some 2, begin := some 0, «end» := some 3 }
      = .ok (some 3) { sb := 0, cur := some 3, begin := some 0, «end» := some 3 } := by
  decide

/-- Claim C16, amended: over a chain in which the instructions from the cursor `c` to
`end` are `c :: l`, each once and linked, `InstrIteratorNext` returns (given fuel for the
turns of its loop) the first instruction with `addedBeforeRegAlloc` set that lies strictly
after the cursor and at or before `end`, leaving the cursor on it; when there is none, and
in particular when the cursor is already on `end`, it returns nil and leaves the cursor on
`end`. The `end` instruction is inclusive: it is returned when it has the flag and no
instruction before it has. -/
theorem InstrIteratorNext_returns (m : machine) (sb : Nat) (b : Ptr) (c : Nat) (l : List Nat)
    (fuel : Nat) (hp : LinkedPath m (c :: l)) (hnd : (c :: l).Nodup)
    (hfuel : l.length + 1 ≤ fuel) :
    labelPosition.InstrIteratorNext m fuel
        { sb := sb, cur := some c, begin := b, «end» := some (lastOf c l) }
      = .ok (l.find? m.flagged)
          { sb := sb, cur := some ((l.find? m.flagged).getD (lastOf c l)), begin := b,
            «end» := some (lastOf c l) } ∧
    (l ≠ [] → (∀ x ∈ l.dropLast, m.flagged x = false) → m.flagged (lastOf c l) = true →
      l.find? m.flagged = some (lastOf c l)) :=
  ⟨InstrIteratorNext_spec m sb b (lastOf c l) l c fuel (LinkedPath.nextPath l c hp)
      (onlyAtEnd_of_nodup l c hnd) rfl hfuel,
   find?_last_of_flagged m c l⟩

/-- Claim C16, amended, on the spliced block `nop0, mov, mov, mov, aluRRR, br, nop0`: from
the cursor on the first instruction the three moves are skipped and the `aluRRR` is
returned. -/
theorem InstrIteratorNext_returns_witness :
    LinkedPath exampleSpliced [0, 4, 5, 6, 1, 2, 3] ∧ [0, 4, 5, 6, 1, 2, 3].Nodup ∧
    [4, 5, 6, 1, 2, 3].length + 1 ≤ 7 ∧
    (labelPosition.InstrIteratorNext exampleSpliced 7
        { sb := 0, cur := some 0, begin := some 0, «end» := some (lastOf 0 [4, 5, 6, 1, 2, 3]) }
      = .ok ([4, 5, 6, 1, 2, 3].find? exampleSpliced.flagged)
          { sb := 0, cur := some (([4, 5, 6, 1, 2, 3].find? exampleSpliced.flagged).getD
              (lastOf 0 [4, 5, 6, 1, 2, 3])), begin := some 0,
            «end» := some (lastOf 0 [4, 5, 6, 1, 2, 3]) } ∧
     ([4, 5, 6, 1, 2, 3] ≠ [] →
       (∀ x ∈ [4, 5, 6, 1, 2, 3].dropLast, exampleSpliced.flagged x = false) →
       exampleSpliced.flagged (lastOf 0 [4, 5, 6, 1, 2, 3]) = true →
       [4, 5, 6, 1, 2, 3].find? exampleSpliced.flagged = some (lastOf 0 [4, 5, 6, 1, 2, 3]))) ∧
    [4, 5, 6, 1, 2, 3].find? exampleSpliced.flagged = some 1 :=
  ⟨by decide, by decide, by decide,
   InstrIteratorNext_returns exampleSpliced 0 (some 0) 0 [4, 5, 6, 1, 2, 3] 7 (by decide)
     (by decide) (by decide), by decide⟩

/-! ## Forward against reverse iteration -/

/-- Claim C17: over a chain in which the instructions from `begin` to `end` are `b :: l`,
each once and linked, and `begin` and `end` both have `addedBeforeRegAlloc` set, forward
and reverse iteration both finish (given fuel for `l.length + 2` calls), the forward one
yields the instructions of the block that have the flag, in order, and the reverse one
yields the reverse of that sequence. -/
theorem reverse_iteration_mirrors_forward (m : machine) (pos : labelPosition) (b : Nat)
    (l : List Nat) (fuel : Nat) (hb : pos.begin = some b) (he : pos.end = some (lastOf b l))
    (hp : LinkedPath m (b :: l)) (hnd : (b :: l).Nodup) (hfuel : l.length + 2 ≤ fuel)
    (hfb : m.flagged b = true) (hfe : m.flagged (lastOf b l) = true) :
    forwardInstrs m fuel pos = some ((b :: l).filter m.flagged) ∧
    reverseInstrs m fuel pos = some ((b :: l).filter m.flagged).reverse := by
  obtain ⟨hf, rl, hrl, hr⟩ := instrIterations_spec m pos b l fuel hb he hp hnd hfuel
  refine ⟨by rw [hf]; simp [List.filter, hfb], ?_⟩
  rw [hr, ← List.filter_reverse, hrl]
  simp [List.filter, hfe]

/-- Claim C17 on the spliced block `nop0, mov, mov, mov, aluRRR, br, nop0`: the forward
iteration yields `0, 1, 2, 3` and the reverse one `3, 2, 1, 0`. -/
theorem reverse_iteration_mirrors_forward_witness :
    (forwardInstrs exampleSpliced 8 examplePos = some [0, 1, 2, 3] ∧
     reverseInstrs exampleSpliced 8 examplePos = some [3, 2, 1, 0]) ∧
    (forwardInstrs exampleSpliced 8 examplePos
        = some (([0, 4, 5, 6, 1, 2, 3] : List Nat).filter exampleSpliced.flagged) ∧
     reverseInstrs exampleSpliced 8 examplePos
        = some (([0, 4, 5, 6, 1, 2, 3] : List Nat).filter exampleSpliced.flagged).reverse) :=
  ⟨by decide,
   reverse_iteration_mirrors_forward exampleSpliced examplePos 0 [4, 5, 6, 1, 2, 3] 8
     (by decide) (by decide) (by decide) (by decide) (by decide) (by decide) (by decide)⟩

/-! ## Instructions spliced during an iteration -/

theorem NextPath.append {m : machine} :
    ∀ (l1 : List Nat) (c : Nat) (l2 : List Nat), NextPath m c l1 →
      NextPath m (lastOf c l1) l2 → NextPath m c (l1 ++ l2) := by
  intro l1
  induction l1 with
  | nil => intro c l2 _ h; exact h
  | cons y ys ih => intro c l2 hp h; exact ⟨hp.1, ih y l2 hp.2 h⟩

theorem spliceInto_mem (c0 : Nat) (new : List Nat) :
    ∀ (l : List Nat) (c y : Nat), y ∈ spliceInto c0 new c l → y ∈ l ∨ y ∈ new := by
  intro l
  induction l with
  | nil => intro c y h; simp [spliceInto] at h
  | cons x xs ih =>
    intro c y h
    simp only [spliceInto, List.mem_append, List.mem_cons] at h
    rcases h with h | h | h
    · split at h
      · exact Or.inr h
      · simp at h
    · exact Or.inl (by simp [h])
    · rcases ih x y h with h | h
      · exact Or.inl (by simp [h])
      · exact Or.inr h

theorem spliceInto_not_mem (c0 : Nat) (new : List Nat) :
    ∀ (l : List Nat) (c : Nat), c0 ∉ c :: l → spliceInto c0 new c l = l := by
  intro l
  induction l with
  | nil => intro c _; rfl
  | cons x xs ih =>
    intro c h
    simp only [List.mem_cons, not_or] at h
    have hc : ¬ (c = c0) := fun e => h.1 e.symm
    simp only [spliceInto, hc, if_false, List.nil_append]
    rw [ih x (by simp only [List.mem_cons, not_or]; exact h.2)]

theorem length_le_of_nodup_lt (l : List Nat) (N : Nat) (hnd : l.Nodup)
    (hlt : ∀ x ∈ l, x < N) : l.length ≤ N := by
  have hsub : l ⊆ List.range N := fun x hx => List.mem_range.2 (hlt x hx)
  simpa using (List.subperm_of_subset hnd hsub).length_le

theorem Splicing.flagged_eq {m0 m : machine} {c n : Nat} {new : List Nat}
    (h : Splicing m0 c n m new) (i : Nat) (hi : i < m0.instrPoolLen) :
    m.flagged i = m0.flagged i := by
  have := congrArg instruction.addedBeforeRegAlloc (h.hbody i hi)
  simpa [machine.flagged] using this

/-- The path from a cursor to `end` after one splice of instructions whose flag is unset:
it is the path before with the new instructions in it, and its instructions with the flag
set are the same. -/
theorem Splicing.splicedPath {m1 m2 : machine} {c0 n0 : Nat} {new : List Nat}
    (hs : Splicing m1 c0 n0 m2 new) (hnx : (m1.instrPool c0).next = some n0)
    (hl : linked m2 (lastOf c0 new) n0) (hfl : ∀ x ∈ new, m2.flagged x = false) :
    ∀ (l : List Nat) (c : Nat), NextPath m1 c l → (c :: l).Nodup →
      (∀ x ∈ c :: l, x < m1.instrPoolLen) →
      NextPath m2 c (spliceInto c0 new c l) ∧ (c :: spliceInto c0 new c l).Nodup ∧
      (∀ x ∈ c :: spliceInto c0 new c l, x < m2.instrPoolLen) ∧
      lastOf c (spliceInto c0 new c l) = lastOf c l ∧
      (spliceInto c0 new c l).filter m2.flagged = l.filter m1.flagged := by
  have hfnew : new.filter m2.flagged = [] := by
    rw [List.filter_eq_nil_iff]
    intro x hx
    simp [hfl x hx]
  intro l
  induction l with
  | nil =>
    intro c _ hnd hlt
    refine ⟨trivial, hnd, ?_, rfl, rfl⟩
    intro x hx
    exact lt_of_lt_of_le (hlt x hx) hs.hlen
  | cons x xs ih =>
    intro c hp hnd hlt
    have hndx : (x :: xs).Nodup := (List.nodup_cons.1 hnd).2
    have hcx : c ∉ x :: xs := (List.nodup_cons.1 hnd).1
    have hltx : ∀ y ∈ x :: xs, y < m1.instrPoolLen := fun y hy =>
      hlt y (List.mem_cons_of_mem _ hy)
    have hcl : c < m1.instrPoolLen := hlt c (List.mem_cons_self _ _)
    have hxl : x < m1.instrPoolLen := hltx x (List.mem_cons_self _ _)
    obtain ⟨i1, i2, i3, i4, i5⟩ := ih x hp.2 hndx hltx
    have hfx : m2.flagged x = m1.flagged x := hs.flagged_eq x hxl
    by_cases hc : c = c0
    · subst hc
      have hxn : x = n0 := by
        have := hp.1
        rw [hnx] at this
        exact (Option.some.inj this).symm
      subst hxn
      have hrest : spliceInto c new x xs = xs := spliceInto_not_mem c new xs x hcx
      have hsp : spliceInto c new c (x :: xs) = new ++ x :: xs := by
        simp only [spliceInto, if_true, hrest]
      rw [hrest] at i1 i5
      rw [hsp]
      refine ⟨?_, ?_, ?_, ?_, ?_⟩
      · exact NextPath.append new c (x :: xs) (LinkedPath.nextPath new c hs.hpath) ⟨hl.1, i1⟩
      · have hcnew : c ∉ new := fun hm => absurd (hs.hnew c hm).1 (by omega)
        have hdisj : ∀ y ∈ new, y ∉ x :: xs := fun y hy hm =>
          absurd (hs.hnew y hy).1 (by have := hltx y hm; omega)
        rw [List.nodup_cons]
        refine ⟨?_, ?_⟩
        · simp only [List.mem_append, not_or]
          exact ⟨hcnew, hcx⟩
        · rw [List.nodup_append]
          exact ⟨hs.hnodup, hndx, fun y h1 h2 => hdisj y h1 h2⟩
      · intro y hy
        simp only [List.mem_cons, List.mem_append] at hy
        rcases hy with rfl | hy | rfl | hy
        · exact lt_of_lt_of_le hcl hs.hlen
        · exact (hs.hnew y hy).2
        · exact lt_of_lt_of_le hxl hs.hlen
        · exact lt_of_lt_of_le (hltx y (List.mem_cons_of_mem _ hy)) hs.hlen
      · rw [lastOf_append]
        rfl
      · rw [List.filter_append, hfnew, List.nil_append, List.filter_cons, List.filter_cons,
          hfx, i5]
    · have hsp : spliceInto c0 new c (x :: xs) = x :: spliceInto c0 new x xs := by
        simp only [spliceInto, hc, if_false, List.nil_append]
      rw [hsp]
      refine ⟨⟨?_, i1⟩, ?_, ?_, ?_, ?_⟩
      · rw [hs.hnext c hcl hc]; exact hp.1
      · rw [List.nodup_cons]
        refine ⟨?_, i2⟩
        intro hm
        rcases List.mem_cons.1 hm with h | h
        · exact hcx (by simp [h])
        · rcases spliceInto_mem c0 new xs x c h with h | h
          · exact hcx (List.mem_cons_of_mem _ h)
          · exact absurd (hs.hnew c h).1 (by omega)
      · intro y hy
        rcases List.mem_cons.1 hy with rfl | hy
        · exact lt_of_lt_of_le hcl hs.hlen
        · exact i3 y hy
      · simpa [lastOf] using i4
      · rw [List.filter_cons, List.filter_cons, hfx, i5]

/-- The path from a cursor to `end` after any number of splices of instructions whose flag
is unset. -/
theorem UnflaggedSplices.pathAfter {m m1 : machine} (hs : UnflaggedSplices m m1) (c : Nat)
    (l : List Nat) (hp : NextPath m c l) (hnd : (c :: l).Nodup)
    (hlt : ∀ x ∈ c :: l, x < m.instrPoolLen) :
    ∃ l1, NextPath m1 c l1 ∧ (c :: l1).Nodup ∧ (∀ x ∈ c :: l1, x < m1.instrPoolLen) ∧
      lastOf c l1 = lastOf c l ∧ l1.filter m1.flagged = l.filter m.flagged := by
  induction hs with
  | refl => exact ⟨l, hp, hnd, hlt, rfl, rfl⟩
  | splice _ hnx hsp hl hfl ih =>
    obtain ⟨l1, h1, h2, h3, h4, h5⟩ := ih
    obtain ⟨j1, j2, j3, j4, j5⟩ := hsp.splicedPath hnx hl hfl l1 c h1 h2 h3
    exact ⟨_, j1, j2, j3, j4.trans h4, j5.trans h5⟩

theorem UnflaggedSplices.remaining {m m1 : machine} (hs : UnflaggedSplices m m1) (sb : Nat)
    (b : Ptr) (c : Nat) (l : List Nat) (fuel : Nat) (hp : NextPath m c l)
    (hnd : (c :: l).Nodup) (hlt : ∀ x ∈ c :: l, x < m.instrPoolLen)
    (hfuel : m1.instrPoolLen ≤ fuel) :
    remainingInstrs m1 fuel { sb := sb, cur := some c, begin := b, «end» := some (lastOf c l) }
      = some (l.filter m.flagged) := by
  obtain ⟨l1, h1, h2, h3, h4, h5⟩ := hs.pathAfter c l hp hnd hlt
  have hlen := length_le_of_nodup_lt (c :: l1) m1.instrPoolLen h2 h3
  simp only [List.length_cons] at hlen
  have h := remainingInstrs_spec m1 sb b (lastOf c l1) fuel l1 c fuel h1
    (onlyAtEnd_of_nodup l1 c h2) rfl (by omega) (by omega)
  rw [h4, h5] at h
  exact h

/-- Claim C18: over a chain in which the instructions from the cursor `c` to `end` are
`c :: l`, each once and linked, after any number of splices (at the cursor, before it, after
it or elsewhere, each of any number of instructions) of instructions whose
`addedBeforeRegAlloc` flag is unset, the remaining calls of `InstrIteratorNext` finish
(given fuel for as many turns as there are instructions) and return the same sequence, of
the same instructions, as without the splices: the instructions after the cursor that have
the flag, in chain order. -/
theorem unflagged_splices_keep_iteration (m m1 : machine) (sb : Nat) (b : Ptr) (c : Nat)
    (l : List Nat) (fuel : Nat) (hp : LinkedPath m (c :: l)) (hnd : (c :: l).Nodup)
    (hlt : ∀ x ∈ c :: l, x < m.instrPoolLen) (hs : UnflaggedSplices m m1)
    (hfuel : m1.instrPoolLen ≤ fuel) :
    remainingInstrs m1 fuel { sb := sb, cur := some c, begin := b, «end» := some (lastOf c l) }
      = remainingInstrs m fuel
          { sb := sb, cur := some c, begin := b, «end» := some (lastOf c l) } ∧
    remainingInstrs m fuel { sb := sb, cur := some c, begin := b, «end» := some (lastOf c l) }
      = some (l.filter m.flagged) := by
  have hlen : m.instrPoolLen ≤ m1.instrPoolLen := by
    clear hp hnd hlt hfuel
    induction hs with
    | refl => exact le_refl _
    | splice _ _ hsp _ _ ih => exact le_trans ih hsp.hlen
  have h1 := hs.remaining sb b c l fuel (LinkedPath.nextPath l c hp) hnd hlt hfuel
  have h0 := UnflaggedSplices.refl.remaining sb b c l fuel (LinkedPath.nextPath l c hp) hnd hlt
    (le_trans hlen hfuel)
  exact ⟨h1.trans h0.symm, h0⟩

/-- Claim C18 on the block `nop0, aluRRR, br, nop0` with the cursor on the `aluRRR`: after
`swap` has spliced three moves between the first instruction and the `aluRRR`, the
remaining calls return `2, 3` as before. -/
theorem unflagged_splices_keep_iteration_witness :
    (remainingInstrs exampleSpliced 7
        { sb := 0, cur := some 1, begin := some 0, «end» := some (lastOf 1 [2, 3]) }
      = remainingInstrs exampleBlock 7
          { sb := 0, cur := some 1, begin := some 0, «end» := some (lastOf 1 [2, 3]) } ∧
     remainingInstrs exampleBlock 7
        { sb := 0, cur := some 1, begin := some 0, «end» := some (lastOf 1 [2, 3]) }
      = some ([2, 3].filter exampleBlock.flagged)) ∧
    [2, 3].filter exampleBlock.flagged = [2, 3] :=
  ⟨unflagged_splices_keep_iteration exampleBlock exampleSpliced 0 (some 0) 1 [2, 3] 7
     (by decide) (by decide) (by decide)
     (@UnflaggedSplices.splice exampleBlock exampleBlock exampleSpliced 0 1 [4, 5, 6]
       UnflaggedSplices.refl
       (by decide)
       ⟨by decide, by decide, by decide, by decide, by decide, by decide, by decide,
        by decide, by decide⟩
       (by decide) (by decide))
     (by decide), by decide⟩

/-! ## Block iterators: the shared cursor -/

theorem postOrderNext_inRange (f : regAllocFn) (h : cursorInRange f (some true)) :
    ∃ r f1, f.PostOrderBlockIteratorNext = .ok r f1 ∧ f1.m = f.m ∧
      cursorInRange f1 (some true) ∧ (r = none ∨ r ∈ f.m.orderedSSABlockLabelPos) := by
  obtain ⟨h1, h2⟩ := h
  by_cases hneg : f.blockIter < 0
  · exact ⟨none, f, by simp [regAllocFn.PostOrderBlockIteratorNext, hneg], rfl, ⟨h1, h2⟩,
      Or.inl rfl⟩
  · have hlt : f.blockIter.toNat < f.m.orderedSSABlockLabelPos.length := by omega
    refine ⟨f.m.orderedSSABlockLabelPos[f.blockIter.toNat], { f with blockIter := f.blockIter - 1 },
      ?_, rfl, ?_, Or.inr (List.getElem_mem _)⟩
    · simp [regAllocFn.PostOrderBlockIteratorNext, hneg, List.getElem?_eq_getElem hlt]
    · exact ⟨by show -1 ≤ f.blockIter - 1; omega, by
        show f.blockIter - 1 < (f.m.orderedSSABlockLabelPos.length : Int); omega⟩

theorem reversePostOrderNext_inRange (f : regAllocFn) (h : cursorInRange f (some false)) :
    ∃ r f1, f.ReversePostOrderBlockIteratorNext = .ok r f1 ∧ f1.m = f.m ∧
      cursorInRange f1 (some false) ∧ (r = none ∨ r ∈ f.m.orderedSSABlockLabelPos) := by
  obtain ⟨h1, h2⟩ := h
  by_cases hge : f.blockIter ≥ (f.m.orderedSSABlockLabelPos.length : Int)
  · exact ⟨none, f, by simp [regAllocFn.ReversePostOrderBlockIteratorNext, hge], rfl,
      ⟨h1, h2⟩, Or.inl rfl⟩
  · have hneg : ¬ f.blockIter < 0 := by omega
    have hlt : f.blockIter.toNat < f.m.orderedSSABlockLabelPos.length := by omega
    refine ⟨f.m.orderedSSABlockLabelPos[f.blockIter.toNat], { f with blockIter := f.blockIter + 1 },
      ?_, rfl, ?_, Or.inr (List.getElem_mem _)⟩
    · simp only [regAllocFn.ReversePostOrderBlockIteratorNext, hge, if_false, hneg,
        List.getElem?_eq_getElem hlt]
    · exact ⟨by show 0 ≤ f.blockIter + 1; omega, by
        show f.blockIter + 1 ≤ (f.m.orderedSSABlockLabelPos.length : Int); omega⟩

theorem blockIterCall_inRange (c : BlockIterCall) (f : regAllocFn) (last : Option Bool)
    (hown : (c.isBegin || last == some c.postOrder) = true) (h : cursorInRange f last) :
    ∃ r f1, c.run f = .ok r f1 ∧ f1.m = f.m ∧ cursorInRange f1 (some c.postOrder) ∧
      (r = none ∨ r ∈ f.m.orderedSSABlockLabelPos) := by
  cases c with
  | poBegin =>
    exact postOrderNext_inRange
      { f with blockIter := (f.m.orderedSSABlockLabelPos.length : Int) - 1 }
      ⟨by show (-1 : Int) ≤ (f.m.orderedSSABlockLabelPos.length : Int) - 1; omega, by
        show (f.m.orderedSSABlockLabelPos.length : Int) - 1
          < (f.m.orderedSSABlockLabelPos.length : Int); omega⟩
  | rpoBegin =>
    exact reversePostOrderNext_inRange { f with blockIter := 0 }
      ⟨le_refl _, by show (0 : Int) ≤ (f.m.orderedSSABlockLabelPos.length : Int); omega⟩
  | poNext =>
    have hl : last = some true := by
      simpa [BlockIterCall.isBegin, BlockIterCall.postOrder] using hown
    subst hl
    exact postOrderNext_inRange f h
  | rpoNext =>
    have hl : last = some false := by
      simpa [BlockIterCall.isBegin, BlockIterCall.postOrder] using hown
    subst hl
    exact reversePostOrderNext_inRange f h

theorem runCalls_inRange :
    ∀ (calls : List BlockIterCall) (f : regAllocFn) (last : Option Bool),
      ownTraversal last calls = true → cursorInRange f last →
      ∃ rs f1, runCalls calls f = .ok rs f1 ∧ rs.length = calls.length ∧
        ∀ r ∈ rs, r = none ∨ r ∈ f.m.orderedSSABlockLabelPos := by
  intro calls
  induction calls with
  | nil => intro f _ _ _; exact ⟨[], f, rfl, rfl, by simp⟩
  | cons c cs ih =>
    intro f last hown h
    simp only [ownTraversal, Bool.and_eq_true] at hown
    obtain ⟨r, f1, h1, hm, hin, hr⟩ := blockIterCall_inRange c f last hown.1 h
    obtain ⟨rs, f2, h2, hlen, hrs⟩ := ih f1 (some c.postOrder) hown.2 hin
    refine ⟨r :: rs, f2, ?_, by simp [hlen], ?_⟩
    · simp only [runCalls, h1, Res.bind, h2]
    · intro x hx
      rcases List.mem_cons.1 hx with rfl | hx
      · exact hr
      · rw [← hm]; exact hrs x hx

/-- Claim C19, against the claim as stated: on the array `7, 8, 9`, a reverse-postorder
traversal run to its end leaves the shared cursor at 3, and a `PostOrderBlockIteratorNext`
called then indexes the array at 3; a postorder traversal run to its end leaves the cursor
at -1, and a `ReversePostOrderBlockIteratorNext` called then indexes the array at -1. Both
are out of range. -/
theorem blockIterators_counterexample :
    (runCalls [.rpoBegin, .rpoNext, .rpoNext, .rpoNext] exampleFn).val?
      = some [some 7, some 8, some 9, none] ∧
    ((runCalls [.rpoBegin, .rpoNext, .rpoNext, .rpoNext] exampleFn).state?.map
      regAllocFn.blockIter) = some 3 ∧
    (runCalls [.rpoBegin, .rpoNext, .rpoNext, .rpoNext, .poNext] exampleFn).panicKind?
      = some .indexOutOfRange ∧
    ((runCalls [.poBegin, .poNext, .poNext, .poNext] exampleFn).state?.map
      regAllocFn.blockIter) = some (-1) ∧
    (runCalls [.poBegin, .poNext, .poNext, .poNext, .rpoNext] exampleFn).panicKind?
      = some .indexOutOfRange := by
  decide

/-- Claim C19, amended: for every block array, every cursor state and every sequence of
calls of the four methods in which each `Next` follows a call (`Begin` or `Next`) of its
own traversal, every call returns, either an entry of the array or the nil sentinel, and
none indexes the array out of range; a `PostOrderBlockIteratorNext` with the cursor below 0
and a `ReversePostOrderBlockIteratorNext` with the cursor at or above the length of the
array return the sentinel. -/
theorem blockIterators_own_traversal (f : regAllocFn) (calls : List BlockIterCall)
    (hown : ownTraversal none calls = true) :
    (∃ rs f1, runCalls calls f = .ok rs f1 ∧ rs.length = calls.length ∧
      ∀ r ∈ rs, r = none ∨ r ∈ f.m.orderedSSABlockLabelPos) ∧
    (f.blockIter < 0 → f.PostOrderBlockIteratorNext = .ok none f) ∧
    ((f.m.orderedSSABlockLabelPos.length : Int) ≤ f.blockIter →
      f.ReversePostOrderBlockIteratorNext = .ok none f) :=
  ⟨runCalls_inRange calls f none hown trivial,
   fun h => by simp [regAllocFn.PostOrderBlockIteratorNext, h],
   fun h => by simp [regAllocFn.ReversePostOrderBlockIteratorNext, h]⟩

/-- Claim C19, amended, on the array `7, 8, 9`: a postorder traversal run past its end,
then a reverse-postorder one run past its end. -/
theorem blockIterators_own_traversal_witness :
    ownTraversal none [.poBegin, .poNext, .poNext, .poNext, .poNext, .rpoBegin, .rpoNext,
      .rpoNext, .rpoNext, .rpoNext] = true ∧
    (runCalls [.poBegin, .poNext, .poNext, .poNext, .poNext, .rpoBegin, .rpoNext,
      .rpoNext, .rpoNext, .rpoNext] exampleFn).val?
      = some [some 9, some 8, some 7, none, none, some 7, some 8, some 9, none, none] ∧
    ((∃ rs f1, runCalls [.poBegin, .poNext, .poNext, .poNext, .poNext, .rpoBegin, .rpoNext,
        .rpoNext, .rpoNext, .rpoNext] exampleFn = .ok rs f1 ∧
        rs.length = [BlockIterCall.poBegin, .poNext, .poNext, .poNext, .poNext, .rpoBegin,
          .rpoNext, .rpoNext, .rpoNext, .rpoNext].length ∧
        ∀ r ∈ rs, r = none ∨ r ∈ exampleFn.m.orderedSSABlockLabelPos) ∧
     (exampleFn.blockIter < 0 → exampleFn.PostOrderBlockIteratorNext = .ok none exampleFn) ∧
     ((exampleFn.m.orderedSSABlockLabelPos.length : Int) ≤ exampleFn.blockIter →
       exampleFn.ReversePostOrderBlockIteratorNext = .ok none exampleFn)) :=
  ⟨by decide, by decide,
   blockIterators_own_traversal exampleFn [.poBegin, .poNext, .poNext, .poNext, .poNext,
     .rpoBegin, .rpoNext, .rpoNext, .rpoNext, .rpoNext] (by decide)⟩

/-! ## Safety of lastInstrForInsertion -/

theorem lastInstrBeforeTrailingNops_mem (m : machine) (e : Nat) (rl : List Nat) :
    lastInstrBeforeTrailingNops m e rl = e ∨
    (lastInstrBeforeTrailingNops m e rl ∈ rl ∧
      (m.instrPool (lastInstrBeforeTrailingNops m e rl)).kind = .br) := by
  unfold lastInstrBeforeTrailingNops
  split
  · rename_i x y ys heq
    by_cases hbr : (m.instrPool x).kind = .br
    · right
      simp only [hbr, if_true]
      refine ⟨?_, trivial⟩
      have hsub := (List.dropWhile_suffix
        (fun i => decide ((m.instrPool i).kind = .nop0)) (l := rl)).subset
      exact hsub (by rw [heq]; exact List.mem_cons_self _ _)
    · left
      simp only [hbr, if_false]
  · left; rfl

/-- Claim C20: for a block given by a well-formed chain from `begin` to `end` that has at
least two instructions or whose `end` is not a `nop0`, `lastInstrForInsertion(begin, end)`
returns (given fuel for the turns of its loop) without following a nil `prev` link, and
returns `end` or a `br` of the block. For the one-instruction block `begin = end` whose
instruction is a `nop0`, the loop steps to `end.prev` before it compares the cursor with
`begin`: it dereferences nil when that link is nil, and returns the instruction before the
block when that is a `br`. -/
theorem lastInstrForInsertion_safety (m : machine) (b : Nat) (l : List Nat) (fuel : Nat)
    (hp : LinkedPath m (b :: l)) (hnd : (b :: l).Nodup) (hfuel : l.length + 1 ≤ fuel) :
    ((l ≠ [] ∨ (m.instrPool b).kind ≠ .nop0) →
      ∃ r, lastInstrForInsertion m fuel (some b) (some (lastOf b l)) = .ok (some r) () ∧
        r ∈ b :: l ∧ (r = lastOf b l ∨ (m.instrPool r).kind = .br)) ∧
    ((m.instrPool b).kind = .nop0 → (m.instrPool b).prev = none →
      lastInstrForInsertion m (fuel + 1) (some b) (some b) = .panic .nilDeref ()) ∧
    (∀ p, (m.instrPool b).kind = .nop0 → (m.instrPool b).prev = some p → p ≠ b →
      (m.instrPool p).kind = .br →
      lastInstrForInsertion m (fuel + 1) (some b) (some b) = .ok (some p) ()) := by
  obtain ⟨fuel, rfl⟩ : ∃ j, fuel = j + 1 := ⟨fuel - 1, by omega⟩
  refine ⟨?_, ?_, ?_⟩
  · intro hdom
    refine ⟨_, lastInstrForInsertion_spec m b l (fuel + 1) hp hnd hdom hfuel, ?_⟩
    rcases lastInstrBeforeTrailingNops_mem m (lastOf b l) (b :: l).reverse with h | ⟨h1, h2⟩
    · rw [h]; exact ⟨lastOf_mem b l, Or.inl rfl⟩
    · exact ⟨List.mem_reverse.1 h1, Or.inr h2⟩
  · intro hk hprev
    simp [lastInstrForInsertion, lastInstrForInsertionLoop, hk, hprev]
  · intro p hk hprev hne hbr
    have hne2 : ¬ (some p = some b) := fun h => hne (Option.some.inj h)
    have hnop : (m.instrPool p).kind ≠ .nop0 := by rw [hbr]; decide
    simp [lastInstrForInsertion, lastInstrForInsertionLoop, hk, hprev, hne, hbr]

/-- Claim C20 on three blocks: `nop0, aluRRR, br, nop0` returns its `br`; the block of the
single `nop0` with nil links dereferences nil; the block made of the middle `nop0` of
`br, nop0, nop0` alone returns the `br` before it. -/
theorem lastInstrForInsertion_safety_witness :
    (∃ r, lastInstrForInsertion exampleBlock 4 (some 0) (some (lastOf 0 [1, 2, 3]))
          = .ok (some r) () ∧
        r ∈ 0 :: [1, 2, 3] ∧ (r = lastOf 0 [1, 2, 3] ∨ (exampleBlock.instrPool r).kind = .br)) ∧
    lastInstrForInsertion exampleSingleNop (1 + 1) (some 0) (some 0) = .panic .nilDeref () ∧
    lastInstrForInsertion exampleBranchFirst (1 + 1) (some 1) (some 1) = .ok (some 0) () :=
  ⟨(lastInstrForInsertion_safety exampleBlock 0 [1, 2, 3] 4 (by decide) (by decide)
      (by decide)).1 (Or.inl (by decide)),
   (lastInstrForInsertion_safety exampleSingleNop 0 [] 1 (by decide) (by decide)
      (by decide)).2.1 (by decide) (by decide),
   (lastInstrForInsertion_safety exampleBranchFirst 1 [] 1 (by decide) (by decide)
      (by decide)).2.2 0 (by decide) (by decide) (by decide) (by decide)⟩

/-! ## Instances of the claims on the adapter and on the mutation primitives -/

/-- Instance of C11: `swap` after the first instruction of the block
`nop0, aluRRR, br, nop0` leaves a well-formed chain that keeps the order of the block. -/
theorem mutation_primitives_keep_wellFormed_witness :
    exampleBlock.WellFormed ∧ 0 < exampleBlock.instrPoolLen ∧
    exampleBlock.swap (some 0) (intVReg 200 1) (intVReg 201 2) VRegInvalid
      = .ok () exampleSpliced ∧
    exampleSpliced.WellFormed ∧ KeepsOrder exampleBlock exampleSpliced :=
  ⟨by decide, by decide, rfl,
   (mutation_primitives_keep_wellFormed exampleBlock exampleSpliced 0 VRegInvalid VRegInvalid
      VRegInvalid (intVReg 200 1) (intVReg 201 2) VRegInvalid true none (by decide)
      (by decide)).2.2.2 rfl⟩

/-- Counterexample to C12 as stated: in the chain `nop0, aluRRR, br, nop0` with the `next`
link of the `aluRRR` set to nil, the `br` has a non-nil predecessor and a move between two
integer registers before it fails: the second `linkInstr` dereferences the nil successor
of the predecessor. -/
theorem insertMoveBefore_counterexample :
    (exampleBrokenChain.instrPool 2).prev = some 1 ∧
    (exampleBrokenChain.instrPool 1).next = none ∧
    (intVReg 200 1).RegType = (intVReg 201 2).RegType ∧
    (exampleBrokenChain.insertMoveBefore (intVReg 200 1) (intVReg 201 2) (some 2)).isPanic
      = true ∧
    (exampleBrokenChain.insertMoveBefore (intVReg 200 1) (intVReg 201 2) (some 2)).panicKind?
      = some .nilDeref ∧
    ¬ exampleBrokenChain.WellFormed := by
  decide

/-- Instance of C12: a move between an integer and a float register before the `br` of the
block `nop0, aluRRR, br, nop0` fails the register-class check. -/
theorem insertMoveBefore_fails_iff_witness :
    exampleBlock.WellFormed ∧ 2 < exampleBlock.instrPoolLen ∧
    (exampleBlock.instrPool 2).prev = some 1 ∧
    (intVReg 200 1).RegType ≠ (floatVReg 201 33).RegType ∧
    (((exampleBlock.insertMoveBefore (intVReg 200 1) (floatVReg 201 33) (some 2)).isPanic = true
        ↔ (intVReg 200 1).RegType ≠ (floatVReg 201 33).RegType) ∧
     ((intVReg 200 1).RegType ≠ (floatVReg 201 33).RegType →
        exampleBlock.insertMoveBefore (intVReg 200 1) (floatVReg 201 33) (some 2)
          = .panic .srcDstType exampleBlock)) :=
  ⟨by decide, by decide, by decide, by decide,
   insertMoveBefore_fails_iff exampleBlock (intVReg 200 1) (floatVReg 201 33) 2 1 (by decide)
     (by decide) (by decide)⟩

/-- Instance of C13: the parameters `5, 6` of block 0, with a buffer that held one
register. -/
theorem BlockParams_returns_witness :
    (exampleFnBlocks.ssaB.blocks examplePos.sb).params.length + 1 ≤ 3 ∧
    (exampleFnBlocks.BlockParams 3 examplePos [intVReg 1 1]).val?
      = some [intVReg 105 0, intVReg 106 0] ∧
    (exampleFnBlocks.BlockParams 3 examplePos [intVReg 1 1]
        = .ok ((exampleFnBlocks.ssaB.blocks examplePos.sb).params.map
                exampleFnBlocks.m.ssaValuesToVRegs)
            ((exampleFnBlocks.ssaB.blocks examplePos.sb).params.map
                exampleFnBlocks.m.ssaValuesToVRegs) ∧
     ((exampleFnBlocks.ssaB.blocks examplePos.sb).params.map
        exampleFnBlocks.m.ssaValuesToVRegs).length
       = (exampleFnBlocks.ssaB.blocks examplePos.sb).params.length ∧
     ∀ i value, sliceAt (exampleFnBlocks.ssaB.blocks examplePos.sb).params i = some value →
       sliceAt ((exampleFnBlocks.ssaB.blocks examplePos.sb).params.map
         exampleFnBlocks.m.ssaValuesToVRegs) i
         = some (exampleFnBlocks.m.ssaValuesToVRegs value)) :=
  ⟨by decide, by decide, BlockParams_returns exampleFnBlocks examplePos [intVReg 1 1] 3
    (by decide)⟩

/-- Instance of C14: the successor 1 of block 0 is the return block 2 and `Succ` returns
nil; the successor 0 is block 1; the predecessor 0 of block 1 is block 0. -/
theorem Succ_Pred_return_witness :
    (exampleFnBlocks.Succ examplePos 1).val? = some none ∧
    (exampleFnBlocks.Succ examplePos 0).val? = some (some 1) ∧
    (∃ r f1, exampleFnBlocks.Succ examplePos 1 = .ok r f1 ∧
      (r = none ↔ (exampleFnBlocks.ssaB.blocks 2).returnBlock = true) ∧
      ((exampleFnBlocks.ssaB.blocks 2).returnBlock = false →
        r = some 2 ∧ ∃ lp, f1.m.labelPositionPool 2 = some lp ∧ lp.sb = 2)) ∧
    (∃ f1, exampleFnBlocks.Pred { sb := 1, cur := none, begin := none, «end» := none } 0
        = .ok (some 0) f1 ∧
      ∃ lp, f1.m.labelPositionPool 0 = some lp ∧ lp.sb = 0) :=
  ⟨by decide, by decide,
   (Succ_Pred_return exampleFnBlocks examplePos 1).1 2 (by decide),
   (Succ_Pred_return exampleFnBlocks
      { sb := 1, cur := none, begin := none, «end» := none } 0).2 0 (by decide)⟩

end Arm64
